import Mathlib

/-!
# KVDatabaseAPI: the store and the request router

A shallow embedding of `db/db.go` (the store) and `handlers/index.go` (the router).

* A Go `string` is a sequence of bytes, so keys, paths, bodies and string values are
  `List UInt8`.
* A Go `map[string]interface{}` is a finite mapping with unique keys; a nil map is `none`.
* Go functions returning `(result, error)` return a pair whose error component is `none`
  for a nil error.  Every store operation also returns the store it leaves behind.
* The reader/writer lock is not part of the model: operations run one at a time.
-/

namespace KVDatabaseAPI

/-! ## Data model -/

/-- Go `string`: an arbitrary sequence of bytes. -/
abbrev GoString := List UInt8

/-- The bytes of a string literal (UTF-8), for writing concrete inputs. -/
def utf8 (s : String) : GoString := s.toUTF8.data.toList

/-- Go `error` value built by `errors.New`; only its text matters here. -/
structure GoError where
  msg : String
deriving DecidableEq, Repr

/-- Go `interface{}` as far as the program produces it: the nil interface, a `string`,
and what `encoding/json` decodes into an `interface{}` (bool, float64, slice, map),
plus the nil `map[string]interface{}` that decoding `null` into a map leaves behind.
A float64 is kept as the number literal it was read from. -/
inductive Value where
  | nil : Value
  | str (s : GoString) : Value
  | bool (b : Bool) : Value
  | num (lit : GoString) : Value
  | arr (xs : List Value) : Value
  | map (m : List (GoString × Value)) : Value
  | nilMap : Value

mutual
/-- Decidable equality of values, by recursion on the first value. -/
def Value.decEq : (a b : Value) → Decidable (a = b)
  | Value.nil, Value.nil => isTrue rfl
  | Value.nil, Value.str _ => isFalse (fun e => Value.noConfusion e)
  | Value.nil, Value.bool _ => isFalse (fun e => Value.noConfusion e)
  | Value.nil, Value.num _ => isFalse (fun e => Value.noConfusion e)
  | Value.nil, Value.arr _ => isFalse (fun e => Value.noConfusion e)
  | Value.nil, Value.map _ => isFalse (fun e => Value.noConfusion e)
  | Value.nil, Value.nilMap => isFalse (fun e => Value.noConfusion e)
  | Value.str _, Value.nil => isFalse (fun e => Value.noConfusion e)
  | Value.str x, Value.str y =>
    if h : x = y then isTrue (congrArg Value.str h)
    else isFalse (fun e => h (Value.str.inj e))
  | Value.str _, Value.bool _ => isFalse (fun e => Value.noConfusion e)
  | Value.str _, Value.num _ => isFalse (fun e => Value.noConfusion e)
  | Value.str _, Value.arr _ => isFalse (fun e => Value.noConfusion e)
  | Value.str _, Value.map _ => isFalse (fun e => Value.noConfusion e)
  | Value.str _, Value.nilMap => isFalse (fun e => Value.noConfusion e)
  | Value.bool _, Value.nil => isFalse (fun e => Value.noConfusion e)
  | Value.bool _, Value.str _ => isFalse (fun e => Value.noConfusion e)
  | Value.bool x, Value.bool y =>
    if h : x = y then isTrue (congrArg Value.bool h)
    else isFalse (fun e => h (Value.bool.inj e))
  | Value.bool _, Value.num _ => isFalse (fun e => Value.noConfusion e)
  | Value.bool _, Value.arr _ => isFalse (fun e => Value.noConfusion e)
  | Value.bool _, Value.map _ => isFalse (fun e => Value.noConfusion e)
  | Value.bool _, Value.nilMap => isFalse (fun e => Value.noConfusion e)
  | Value.num _, Value.nil => isFalse (fun e => Value.noConfusion e)
  | Value.num _, Value.str _ => isFalse (fun e => Value.noConfusion e)
  | Value.num _, Value.bool _ => isFalse (fun e => Value.noConfusion e)
  | Value.num x, Value.num y =>
    if h : x = y then isTrue (congrArg Value.num h)
    else isFalse (fun e => h (Value.num.inj e))
  | Value.num _, Value.arr _ => isFalse (fun e => Value.noConfusion e)
  | Value.num _, Value.map _ => isFalse (fun e => Value.noConfusion e)
  | Value.num _, Value.nilMap => isFalse (fun e => Value.noConfusion e)
  | Value.arr _, Value.nil => isFalse (fun e => Value.noConfusion e)
  | Value.arr _, Value.str _ => isFalse (fun e => Value.noConfusion e)
  | Value.arr _, Value.bool _ => isFalse (fun e => Value.noConfusion e)
  | Value.arr _, Value.num _ => isFalse (fun e => Value.noConfusion e)
  | Value.arr x, Value.arr y =>
    match Value.decEqList x y with
    | isTrue h => isTrue (congrArg Value.arr h)
    | isFalse h => isFalse (fun e => h (Value.arr.inj e))
  | Value.arr _, Value.map _ => isFalse (fun e => Value.noConfusion e)
  | Value.arr _, Value.nilMap => isFalse (fun e => Value.noConfusion e)
  | Value.map _, Value.nil => isFalse (fun e => Value.noConfusion e)
  | Value.map _, Value.str _ => isFalse (fun e => Value.noConfusion e)
  | Value.map _, Value.bool _ => isFalse (fun e => Value.noConfusion e)
  | Value.map _, Value.num _ => isFalse (fun e => Value.noConfusion e)
  | Value.map _, Value.arr _ => isFalse (fun e => Value.noConfusion e)
  | Value.map x, Value.map y =>
    match Value.decEqMembers x y with
    | isTrue h => isTrue (congrArg Value.map h)
    | isFalse h => isFalse (fun e => h (Value.map.inj e))
  | Value.map _, Value.nilMap => isFalse (fun e => Value.noConfusion e)
  | Value.nilMap, Value.nil => isFalse (fun e => Value.noConfusion e)
  | Value.nilMap, Value.str _ => isFalse (fun e => Value.noConfusion e)
  | Value.nilMap, Value.bool _ => isFalse (fun e => Value.noConfusion e)
  | Value.nilMap, Value.num _ => isFalse (fun e => Value.noConfusion e)
  | Value.nilMap, Value.arr _ => isFalse (fun e => Value.noConfusion e)
  | Value.nilMap, Value.map _ => isFalse (fun e => Value.noConfusion e)
  | Value.nilMap, Value.nilMap => isTrue rfl
/-- Decidable equality of slices of values. -/
def Value.decEqList : (a b : List Value) → Decidable (a = b)
  | [], [] => isTrue rfl
  | [], _ :: _ => isFalse (fun e => List.noConfusion e)
  | _ :: _, [] => isFalse (fun e => List.noConfusion e)
  | x :: xs, y :: ys =>
    match Value.decEq x y, Value.decEqList xs ys with
    | isTrue h, isTrue hs => isTrue (by rw [h, hs])
    | isFalse h, _ => isFalse (fun e => h (List.cons.inj e).1)
    | _, isFalse hs => isFalse (fun e => hs (List.cons.inj e).2)
/-- Decidable equality of the members of a decoded object. -/
def Value.decEqMembers : (a b : List (GoString × Value)) → Decidable (a = b)
  | [], [] => isTrue rfl
  | [], _ :: _ => isFalse (fun e => List.noConfusion e)
  | _ :: _, [] => isFalse (fun e => List.noConfusion e)
  | (k, x) :: xs, (j, y) :: ys =>
    if hk : k = j then
      match Value.decEq x y, Value.decEqMembers xs ys with
      | isTrue h, isTrue hs => isTrue (by rw [hk, h, hs])
      | isFalse h, _ => isFalse (fun e => h (Prod.mk.inj (List.cons.inj e).1).2)
      | _, isFalse hs => isFalse (fun e => hs (List.cons.inj e).2)
    else isFalse (fun e => hk (Prod.mk.inj (List.cons.inj e).1).1)
end

instance : DecidableEq Value := Value.decEq

/-- A constructed (non-nil) Go `map[string]interface{}`. -/
abbrev GoMap := AList (fun _ : GoString => Value)

/-- The struct `Database` of `db/db.go`; `Data = none` is the nil map. -/
structure Database where
  Data : Option GoMap

/-- Go `m[key]` on a possibly nil map: the zero value (nil interface) when `key` is missing. -/
def mapIndex (m : Option GoMap) (key : GoString) : Value :=
  match m with
  | none => Value.nil
  | some m => (m.lookup key).getD Value.nil

/-- Go `delete(m, key)` on a possibly nil map (a nil map is left as it is). -/
def mapDelete (m : Option GoMap) (key : GoString) : Option GoMap :=
  match m with
  | none => none
  | some m => some (m.erase key)

/-- The keys a `for k := range m` loop visits (none for a nil map).  Go leaves the order
unspecified; the model visits them in the order of the association list. -/
def mapRange (m : Option GoMap) : List GoString :=
  match m with
  | none => []
  | some m => m.keys

/-! ## The store (`db/db.go`) -/

/-- The text of the error `initCheck` returns. -/
def uninitialized : GoError := ⟨"database is not initialized"⟩

/-- Go `NewDatabase`: a store whose mapping is made and empty. -/
def NewDatabase : Database := { Data := some ∅ }

/-- Go `initCheck`: an error exactly when `d.Data == nil`. -/
def initCheck (d : Database) : Option GoError :=
  match d.Data with
  | none => some uninitialized
  | some _ => none

/-- Go `(*Database).GetAllKeys`: `out` starts as an empty non-nil slice and every visited
key is appended to it. -/
def Database.GetAllKeys (d : Database) : (Option (List GoString) × Option GoError) × Database :=
  match initCheck d with
  | some err => ((none, some err), d)
  | none => ((some ((mapRange d.Data).foldl (fun out k => out ++ [k]) []), none), d)

/-- Go `(*Database).Get`. -/
def Database.Get (d : Database) (key : GoString) : (Value × Option GoError) × Database :=
  match initCheck d with
  | some err => ((Value.nil, some err), d)
  | none => ((mapIndex d.Data key, none), d)

/-- Go `(*Database).Set`.  The assignment `d.Data[key] = value` panics on a nil map; the
guard above it excludes that, and the model reports it as an error of its own. -/
def Database.Set (d : Database) (key : GoString) (value : Value) : Option GoError × Database :=
  match initCheck d with
  | some err => (some err, d)
  | none =>
    match d.Data with
    | some m => (none, { Data := some (m.insert key value) })
    | none => (some ⟨"panic: assignment to entry in nil map"⟩, d)

/-- Go `(*Database).Delete`. -/
def Database.Delete (d : Database) (key : GoString) : Option GoError × Database :=
  match initCheck d with
  | some err => (some err, d)
  | none => (none, { Data := mapDelete d.Data key })

/-- One call on the store, for sequences of operations. -/
inductive Op where
  | getAllKeys : Op
  | get (key : GoString) : Op
  | set (key : GoString) (value : Value) : Op
  | delete (key : GoString) : Op
deriving DecidableEq

/-- The error an operation returns and the store it leaves. -/
def Database.apply (d : Database) : Op → Option GoError × Database
  | Op.getAllKeys => (d.GetAllKeys.1.2, d.GetAllKeys.2)
  | Op.get key => ((d.Get key).1.2, (d.Get key).2)
  | Op.set key value => d.Set key value
  | Op.delete key => d.Delete key

/-- The store after a sequence of operations, applied first to last. -/
def Database.run (d : Database) : List Op → Database
  | [] => d
  | op :: ops => Database.run (d.apply op).2 ops

/-- The mapping of the test case "multiple keys" of `db_test.go`. -/
def multipleKeys : GoMap :=
  (((∅ : GoMap).insert (utf8 "key1") (Value.str (utf8 "value1"))).insert (utf8 "key2")
    (Value.str (utf8 "value2"))).insert (utf8 "key3") (Value.str (utf8 "value3"))

/-! ## encoding/json: what `json.NewDecoder(reader).Decode(&data)` does

`Decode` reads the first JSON value of the stream and leaves the bytes after it unread;
it then stores that value into `data`, a `map[string]interface{}`.  The functions below
follow the grammar of the library's scanner (`scanner.go`) and the conversions of
`decode.go`; with `goLimits = false` they follow the grammar alone. -/

/-- The scanner's `isSpace`: space, tab, carriage return, line feed. -/
def isSpace (c : UInt8) : Bool := c = 0x20 ∨ c = 0x09 ∨ c = 0x0D ∨ c = 0x0A

/-- Drop leading white space. -/
def skipSpace : List UInt8 → List UInt8
  | [] => []
  | c :: cs => if isSpace c then skipSpace cs else c :: cs

/-- An ASCII digit. -/
def isDigit (c : UInt8) : Bool := 0x30 ≤ c ∧ c ≤ 0x39

/-- The value of a hexadecimal digit. -/
def hexVal (c : UInt8) : Option Nat :=
  if 0x30 ≤ c ∧ c ≤ 0x39 then some (c.toNat - 0x30)
  else if 0x61 ≤ c ∧ c ≤ 0x66 then some (c.toNat - 0x61 + 10)
  else if 0x41 ≤ c ∧ c ≤ 0x46 then some (c.toNat - 0x41 + 10)
  else none

/-- Four hexadecimal digits, as after a backslash and `u`. -/
def hex4 : List UInt8 → Option (Nat × List UInt8)
  | a :: b :: c :: d :: rest =>
    match hexVal a, hexVal b, hexVal c, hexVal d with
    | some a, some b, some c, some d => some (((a * 16 + b) * 16 + c) * 16 + d, rest)
    | _, _, _, _ => none
  | _ => none

/-- The library's `getu4`: a whole escape of the form backslash, `u`, four digits. -/
def getu4 : List UInt8 → Option (Nat × List UInt8)
  | 0x5C :: 0x75 :: rest => hex4 rest
  | _ => none

/-- Go `utf8.EncodeRune`: surrogates and values past U+10FFFF become U+FFFD. -/
def encodeRune (r : Nat) : GoString :=
  if r < 0x80 then [r.toUInt8]
  else if r < 0x800 then [(0xC0 + r / 64).toUInt8, (0x80 + r % 64).toUInt8]
  else if (0xD800 ≤ r ∧ r < 0xE000) ∨ 0x10FFFF < r then [0xEF, 0xBF, 0xBD]
  else if r < 0x10000 then
    [(0xE0 + r / 4096).toUInt8, (0x80 + r / 64 % 64).toUInt8, (0x80 + r % 64).toUInt8]
  else
    [(0xF0 + r / 262144).toUInt8, (0x80 + r / 4096 % 64).toUInt8,
      (0x80 + r / 64 % 64).toUInt8, (0x80 + r % 64).toUInt8]

/-- A UTF-8 continuation byte. -/
def isCont (c : UInt8) : Bool := 0x80 ≤ c ∧ c ≤ 0xBF

/-- The size `utf8.DecodeRune` reports when the input starts with a well-formed encoding,
and 0 when it does not (Go then reports U+FFFD with size 1). -/
def runeLen : List UInt8 → Nat
  | [] => 0
  | c :: rest =>
    if c < 0x80 then 1
    else if 0xC2 ≤ c ∧ c ≤ 0xDF then
      match rest with
      | c1 :: _ => if isCont c1 then 2 else 0
      | _ => 0
    else if 0xE0 ≤ c ∧ c ≤ 0xEF then
      match rest with
      | c1 :: c2 :: _ =>
        if (if c = 0xE0 then 0xA0 ≤ c1 ∧ c1 ≤ 0xBF else if c = 0xED then 0x80 ≤ c1 ∧ c1 ≤ 0x9F
            else isCont c1 = true) ∧ isCont c2 then 3 else 0
      | _ => 0
    else if 0xF0 ≤ c ∧ c ≤ 0xF4 then
      match rest with
      | c1 :: c2 :: c3 :: _ =>
        if (if c = 0xF0 then 0x90 ≤ c1 ∧ c1 ≤ 0xBF else if c = 0xF4 then 0x80 ≤ c1 ∧ c1 ≤ 0x8F
            else isCont c1 = true) ∧ isCont c2 ∧ isCont c3 then 4 else 0
      | _ => 0
    else 0

/-- The byte a one-letter escape stands for; the scanner accepts only these eight. -/
def simpleEscape (c : UInt8) : Option UInt8 :=
  if c = 0x22 then some 0x22 else if c = 0x5C then some 0x5C else if c = 0x2F then some 0x2F
  else if c = 0x62 then some 0x08 else if c = 0x66 then some 0x0C
  else if c = 0x6E then some 0x0A else if c = 0x72 then some 0x0D
  else if c = 0x74 then some 0x09 else none

/-- A string literal after its opening quote: the unquoted bytes (the library's
`unquoteBytes`) and the input after the closing quote.  Control bytes and unknown escapes
are syntax errors; an escaped surrogate pair is one rune, a lone surrogate and every
ill-formed UTF-8 byte become U+FFFD.  Each step consumes a byte, so a budget of one more
than the length of the input is never used up. -/
def parseString : Nat → List UInt8 → GoString → Option (GoString × List UInt8)
  | 0, _, _ => none
  | _ + 1, [], _ => none
  | fuel + 1, c :: rest, acc =>
    if c = 0x22 then some (acc, rest)
    else if c = 0x5C then
      match rest with
      | [] => none
      | e :: rest1 =>
        if e = 0x75 then
          match hex4 rest1 with
          | none => none
          | some (rr, rest2) =>
            if 0xD800 ≤ rr ∧ rr < 0xE000 then
              match getu4 rest2 with
              | some (rr1, rest3) =>
                if rr < 0xDC00 ∧ 0xDC00 ≤ rr1 ∧ rr1 < 0xE000 then
                  parseString fuel rest3
                    (acc ++ encodeRune ((rr - 0xD800) * 1024 + (rr1 - 0xDC00) + 0x10000))
                else parseString fuel rest2 (acc ++ [0xEF, 0xBF, 0xBD])
              | none => parseString fuel rest2 (acc ++ [0xEF, 0xBF, 0xBD])
            else parseString fuel rest2 (acc ++ encodeRune rr)
        else
          match simpleEscape e with
          | some b => parseString fuel rest1 (acc ++ [b])
          | none => none
    else if c < 0x20 then none
    else if c < 0x80 then parseString fuel rest (acc ++ [c])
    else
      if runeLen (c :: rest) = 0 then parseString fuel rest (acc ++ [0xEF, 0xBF, 0xBD])
      else
        parseString fuel ((c :: rest).drop (runeLen (c :: rest)))
          (acc ++ (c :: rest).take (runeLen (c :: rest)))

/-- The leading digits of the input and what follows them. -/
def spanDigits : List UInt8 → List UInt8 × List UInt8
  | [] => ([], [])
  | c :: cs => if isDigit c then (c :: (spanDigits cs).1, (spanDigits cs).2) else ([], c :: cs)

/-- The number a sequence of digits denotes. -/
def natOfDigits (ds : List UInt8) : Nat := ds.foldl (fun n d => 10 * n + (d.toNat - 0x30)) 0

/-- The exponent as `strconv` reads it: it stops accumulating digits from 10000 on. -/
def expOfDigits (ds : List UInt8) : Nat :=
  ds.foldl (fun e d => if e < 10000 then 10 * e + (d.toNat - 0x30) else e) 0

/-- The least magnitude that rounds to infinity as a float64: the largest finite float64
plus half a unit in the last place. -/
def floatLimit : Nat := 2 ^ 1024 - 2 ^ 970

/-- Whether `strconv.ParseFloat(lit, 64)` reports a range error for the literal with the
given integer digits, fraction digits and exponent (it does so on overflow only). -/
def rangeError (int frac : List UInt8) (expNeg : Bool) (exp : List UInt8) : Bool :=
  let mant := natOfDigits (int ++ frac)
  let e : Int :=
    (if expNeg then -(expOfDigits exp : Int) else (expOfDigits exp : Int)) - frac.length
  if 0 ≤ e then decide (floatLimit ≤ mant * 10 ^ e.toNat)
  else decide (floatLimit * 10 ^ (-e).toNat ≤ mant)

/-- An optional minus sign at the head of the input. -/
def optMinus : List UInt8 → List UInt8 × List UInt8
  | 0x2D :: s => ([0x2D], s)
  | s => ([], s)

/-- The integer part of a number: `0` alone, or a digit other than `0` and the digits
after it. -/
def intPart : List UInt8 → Option (List UInt8 × List UInt8)
  | [] => none
  | c :: s =>
    if c = 0x30 then some ([c], s)
    else if isDigit c then some (c :: (spanDigits s).1, (spanDigits s).2)
    else none

/-- The optional fraction of a number: a dot and at least one digit. -/
def fracPart : List UInt8 → Option (List UInt8 × List UInt8)
  | 0x2E :: s =>
    match spanDigits s with
    | ([], _) => none
    | (ds, s1) => some (ds, s1)
  | s => some ([], s)

/-- The optional exponent of a number: `e` or `E`, an optional sign, at least one digit.
Returns the bytes of the mark and sign, whether the sign is a minus, the digits and the
input after them. -/
def expPart : List UInt8 → Option (List UInt8 × Bool × List UInt8 × List UInt8)
  | [] => some ([], false, [], [])
  | e :: s =>
    if e = 0x65 ∨ e = 0x45 then
      match s with
      | 0x2B :: s1 =>
        match spanDigits s1 with
        | ([], _) => none
        | (ds, s2) => some ([e, 0x2B], false, ds, s2)
      | 0x2D :: s1 =>
        match spanDigits s1 with
        | ([], _) => none
        | (ds, s2) => some ([e, 0x2D], true, ds, s2)
      | s1 =>
        match spanDigits s1 with
        | ([], _) => none
        | (ds, s2) => some ([e], false, ds, s2)
    else some ([], false, [], e :: s)

/-- The number literal at the head of the input (an optional minus, an integer part, an
optional fraction, an optional exponent): the literal, whether it is out of the float64
range, and the input after it. -/
def parseNumber (input : List UInt8) : Option (GoString × Bool × List UInt8) :=
  match intPart (optMinus input).2 with
  | none => none
  | some (int, s1) =>
    match fracPart s1 with
    | none => none
    | some (frac, s2) =>
      match expPart s2 with
      | none => none
      | some (mark, expNeg, exp, s3) =>
        some ((optMinus input).1 ++ int ++ (if frac = [] then [] else 0x2E :: frac)
            ++ mark ++ exp,
          rangeError int frac expNeg exp, s3)

/-- One of the words `true`, `false`, `null` at the head of the input. -/
def literal (word : String) (v : Value) (input : List UInt8) : Option (Value × List UInt8) :=
  if (utf8 word).isPrefixOf input then some (v, input.drop (utf8 word).length) else none

/-- Go `m[key] = v` on the members decoded so far: a repeated key keeps its last value. -/
def mapStore (m : List (GoString × Value)) (key : GoString) (v : Value) :
    List (GoString × Value) :=
  match m with
  | [] => [(key, v)]
  | (k, x) :: m => if k = key then (key, v) :: m else (k, x) :: mapStore m key v

mutual
/-- The JSON value at the head of the input, decoded as into an `interface{}`, and the
input after it.  `depth` counts the arrays and objects that are open.  With `goLimits`
the library's limits apply: nesting deeper than 10000 and a number out of the float64
range are errors.  Every second call at least consumes a byte, so a budget of twice the
length of the input plus two is never used up. -/
def parseValue (goLimits : Bool) : Nat → Nat → List UInt8 → Option (Value × List UInt8)
  | 0, _, _ => none
  | fuel + 1, depth, input =>
    match skipSpace input with
    | [] => none
    | c :: rest =>
      if c = 0x7B then
        if goLimits ∧ 10000 < depth + 1 then none
        else
          match skipSpace rest with
          | 0x7D :: rest1 => some (Value.map [], rest1)
          | _ =>
            match parseMembers goLimits fuel (depth + 1) rest [] with
            | some (m, rest1) => some (Value.map m, rest1)
            | none => none
      else if c = 0x5B then
        if goLimits ∧ 10000 < depth + 1 then none
        else
          match skipSpace rest with
          | 0x5D :: rest1 => some (Value.arr [], rest1)
          | _ =>
            match parseElems goLimits fuel (depth + 1) rest [] with
            | some (xs, rest1) => some (Value.arr xs, rest1)
            | none => none
      else if c = 0x22 then
        match parseString (rest.length + 1) rest [] with
        | some (s, rest1) => some (Value.str s, rest1)
        | none => none
      else if c = 0x2D ∨ isDigit c then
        match parseNumber (c :: rest) with
        | some (lit, over, rest1) =>
          if goLimits ∧ over then none else some (Value.num lit, rest1)
        | none => none
      else if c = 0x74 then literal "true" (Value.bool true) (c :: rest)
      else if c = 0x66 then literal "false" (Value.bool false) (c :: rest)
      else if c = 0x6E then literal "null" Value.nil (c :: rest)
      else none
/-- The members of an object from a key on, up to its closing brace. -/
def parseMembers (goLimits : Bool) :
    Nat → Nat → List UInt8 → List (GoString × Value) →
      Option (List (GoString × Value) × List UInt8)
  | 0, _, _, _ => none
  | fuel + 1, depth, input, acc =>
    match skipSpace input with
    | 0x22 :: rest =>
      match parseString (rest.length + 1) rest [] with
      | none => none
      | some (key, rest1) =>
        match skipSpace rest1 with
        | 0x3A :: rest2 =>
          match parseValue goLimits fuel depth rest2 with
          | none => none
          | some (v, rest3) =>
            match skipSpace rest3 with
            | 0x2C :: rest4 => parseMembers goLimits fuel depth rest4 (mapStore acc key v)
            | 0x7D :: rest4 => some (mapStore acc key v, rest4)
            | _ => none
        | _ => none
    | _ => none
/-- The elements of an array from an element on, up to its closing bracket. -/
def parseElems (goLimits : Bool) :
    Nat → Nat → List UInt8 → List Value → Option (List Value × List UInt8)
  | 0, _, _, _ => none
  | fuel + 1, depth, input, acc =>
    match parseValue goLimits fuel depth input with
    | none => none
    | some (v, rest) =>
      match skipSpace rest with
      | 0x2C :: rest1 => parseElems goLimits fuel depth rest1 (acc ++ [v])
      | 0x5D :: rest1 => some (acc ++ [v], rest1)
      | _ => none
end

/-- Go `json.NewDecoder(bytes.NewReader(b)).Decode(&data)` for `data` a freshly made
`map[string]interface{}`: `none` when the error is not nil, otherwise the value `data`
holds afterwards.  An object fills the map; the word `null` sets `data` to the nil map
without error; any other first value is a type error, a missing or malformed one a
syntax or end-of-input error.  Bytes after the first value are not looked at. -/
def Decode (b : GoString) : Option Value :=
  match parseValue true (2 * b.length + 2) 0 b with
  | some (Value.map m, _) => some (Value.map m)
  | some (Value.nil, _) => some Value.nilMap
  | _ => none

/-- The specification's notion of a body that is a JSON object: the whole text is one object of
the JSON grammar, with nothing but white space around it. -/
def jsonObjectText (b : GoString) : Bool :=
  match parseValue false (2 * b.length + 2) 0 b with
  | some (Value.map _, rest) => decide (skipSpace rest = [])
  | _ => false

/-! ## encoding/json: what `json.NewEncoder(w).Encode(v)` writes

The encoder writes the JSON text of the value and a newline in one `Write`.  Strings
are escaped as by the library's `appendString` with HTML escaping on (the default of an
`Encoder`); the members of a map are written in the byte order of their keys. -/

/-- The text the float encoder of `encoding/json` writes for the float64 nearest to a
number literal.  The encoder takes this rendering as a parameter; `formatFloat64` is the
rendering of the library, computed with integers. -/
abbrev FloatFormat := GoString → GoString

/-- The library's `htmlSafeSet`: the ASCII bytes a string is written with as they are. -/
def htmlSafe (c : UInt8) : Bool :=
  0x20 ≤ c ∧ c < 0x80 ∧ c ≠ 0x22 ∧ c ≠ 0x26 ∧ c ≠ 0x3C ∧ c ≠ 0x3E ∧ c ≠ 0x5C

/-- A lower-case hexadecimal digit. -/
def hexDigit (n : Nat) : UInt8 :=
  if n < 10 then (0x30 + n).toUInt8 else (0x61 + (n - 10)).toUInt8

/-- How an ASCII byte outside `htmlSafeSet` is written: a backslash before a backslash or
a quote, a letter for backspace, form feed, line feed, carriage return and tab (Go 1.22
and later; earlier releases write the first two of them in the six-byte form), and the
six-byte form with `u00` for the other control bytes and for `<`, `>` and `&`. -/
def escapeByte (c : UInt8) : GoString :=
  if c = 0x5C ∨ c = 0x22 then [0x5C, c]
  else if c = 0x08 then [0x5C, 0x62]
  else if c = 0x0C then [0x5C, 0x66]
  else if c = 0x0A then [0x5C, 0x6E]
  else if c = 0x0D then [0x5C, 0x72]
  else if c = 0x09 then [0x5C, 0x74]
  else [0x5C, 0x75, 0x30, 0x30, hexDigit (c.toNat / 16), hexDigit (c.toNat % 16)]

/-- The bytes between the quotes of an encoded string.  A byte that starts no well-formed
UTF-8 encoding is written as the escape of U+FFFD, the runes U+2028 and U+2029 as their
escapes, every other rune as it is.  Each step consumes a byte, so a budget of one more
than the length of the string is never used up. -/
def escapeString : Nat → List UInt8 → GoString
  | 0, _ => []
  | _ + 1, [] => []
  | fuel + 1, c :: rest =>
    if c < 0x80 then
      (if htmlSafe c then [c] else escapeByte c) ++ escapeString fuel rest
    else if runeLen (c :: rest) = 0 then
      [0x5C, 0x75, 0x66, 0x66, 0x66, 0x64] ++ escapeString fuel rest
    else if (c :: rest).take 3 = [0xE2, 0x80, 0xA8] then
      [0x5C, 0x75, 0x32, 0x30, 0x32, 0x38] ++ escapeString fuel (rest.drop 2)
    else if (c :: rest).take 3 = [0xE2, 0x80, 0xA9] then
      [0x5C, 0x75, 0x32, 0x30, 0x32, 0x39] ++ escapeString fuel (rest.drop 2)
    else
      (c :: rest).take (runeLen (c :: rest))
        ++ escapeString fuel ((c :: rest).drop (runeLen (c :: rest)))

/-- The library's `appendString`: a string as a JSON string, between quotes. -/
def appendString (s : GoString) : GoString :=
  [0x22] ++ escapeString (s.length + 1) s ++ [0x22]

/-- Go `a <= b` on strings: the order of the bytes, a prefix first. -/
def keyLE : GoString → GoString → Bool
  | [], _ => true
  | _ :: _, [] => false
  | a :: as, b :: bs => if a < b then true else if b < a then false else keyLE as bs

/-- Put a member where its key belongs among members in the order of their keys. -/
def insertMember (p : GoString × GoString) : List (GoString × GoString) →
    List (GoString × GoString)
  | [] => [p]
  | q :: qs => if keyLE p.1 q.1 then p :: q :: qs else q :: insertMember p qs

/-- The members of a map in the order of their keys, as the map encoder sorts them. -/
def sortMembers : List (GoString × GoString) → List (GoString × GoString)
  | [] => []
  | p :: ps => insertMember p (sortMembers ps)

mutual
/-- The JSON text the encoder writes for a value. -/
def encodeValue (formatFloat : FloatFormat) : Value → GoString
  | Value.nil => utf8 "null"
  | Value.str s => appendString s
  | Value.bool b => if b then utf8 "true" else utf8 "false"
  | Value.num lit => formatFloat lit
  | Value.arr xs => [0x5B] ++ [0x2C].intercalate (encodeElems formatFloat xs) ++ [0x5D]
  | Value.map m =>
    [0x7B] ++ [0x2C].intercalate
        ((sortMembers (encodeMembers formatFloat m)).map
          (fun p => appendString p.1 ++ [0x3A] ++ p.2))
      ++ [0x7D]
  | Value.nilMap => utf8 "null"
/-- The texts of the elements of a slice, in order. -/
def encodeElems (formatFloat : FloatFormat) : List Value → List GoString
  | [] => []
  | x :: xs => encodeValue formatFloat x :: encodeElems formatFloat xs
/-- The key and the text of the value of every member of a map. -/
def encodeMembers (formatFloat : FloatFormat) :
    List (GoString × Value) → List (GoString × GoString)
  | [] => []
  | (k, x) :: m => (k, encodeValue formatFloat x) :: encodeMembers formatFloat m
end

/-- The JSON text of a `[]string`: `null` for the nil slice, otherwise the strings in
order, separated by commas, between brackets. -/
def encodeStrings : Option (List GoString) → GoString
  | none => utf8 "null"
  | some keys => [0x5B] ++ [0x2C].intercalate (keys.map appendString) ++ [0x5D]

/-! ## The router (`handlers/index.go`) -/

/-- The part of `*http.Request` the handlers read. -/
structure Request where
  Method : GoString
  Path : GoString
  Body : GoString
deriving DecidableEq

/-- The `http.ResponseWriter` as `httptest.ResponseRecorder` records it: whether the
status line is written, the status code, the body.  Headers are left out. -/
structure ResponseWriter where
  wroteHeader : Bool
  Code : Nat
  Body : GoString
deriving DecidableEq

/-- Go `httptest.NewRecorder()`: nothing written, status 200 unless one is written. -/
def NewRecorder : ResponseWriter := { wroteHeader := false, Code := 200, Body := [] }

/-- Go `w.WriteHeader(code)`: the first call fixes the status. -/
def ResponseWriter.WriteHeader (w : ResponseWriter) (code : Nat) : ResponseWriter :=
  if w.wroteHeader then w else { w with wroteHeader := true, Code := code }

/-- Go `w.Write(b)`: writes the status 200 first if none is written yet. -/
def ResponseWriter.Write (w : ResponseWriter) (b : GoString) : ResponseWriter :=
  { w.WriteHeader 200 with Body := (w.WriteHeader 200).Body ++ b }

/-- Go `http.Error(w, error, code)`: the status, then the message and a newline. -/
def http.Error (w : ResponseWriter) (error : String) (code : Nat) : ResponseWriter :=
  (w.WriteHeader code).Write (utf8 error ++ [0x0A])

/-- Go `json.NewEncoder(w).Encode(v)` for `v` an `interface{}`: the text of the value and
a newline written to `w`, and the error returned (none arises for the values of the
model). -/
def json.Encode (formatFloat : FloatFormat) (w : ResponseWriter) (v : Value) :
    ResponseWriter × Option GoError :=
  (w.Write (encodeValue formatFloat v ++ [0x0A]), none)

/-- Go `json.NewEncoder(w).Encode(v)` for `v` a `[]string`. -/
def json.EncodeStrings (w : ResponseWriter) (v : Option (List GoString)) :
    ResponseWriter × Option GoError :=
  (w.Write (encodeStrings v ++ [0x0A]), none)

/-- Go interface `db.IDatabase`, over the state `σ` of whatever implements it. -/
structure IDatabase (σ : Type) where
  GetAllKeys : σ → (Option (List GoString) × Option GoError) × σ
  Get : σ → GoString → (Value × Option GoError) × σ
  Set : σ → GoString → Value → Option GoError × σ
  Delete : σ → GoString → Option GoError × σ

/-- The store of `db/db.go` as an `IDatabase`. -/
def Database.asIDatabase : IDatabase Database :=
  { GetAllKeys := Database.GetAllKeys, Get := Database.Get,
    Set := Database.Set, Delete := Database.Delete }

/-- An `IDatabase` that also records every call made on it, in order, with its arguments
(what the test double of `index_test.go` counts). -/
def IDatabase.traced {σ : Type} (d : IDatabase σ) : IDatabase (σ × List Op) :=
  { GetAllKeys := fun s => ((d.GetAllKeys s.1).1, ((d.GetAllKeys s.1).2, s.2 ++ [Op.getAllKeys]))
    Get := fun s key => ((d.Get s.1 key).1, ((d.Get s.1 key).2, s.2 ++ [Op.get key]))
    Set := fun s key value =>
      ((d.Set s.1 key value).1, ((d.Set s.1 key value).2, s.2 ++ [Op.set key value]))
    Delete := fun s key => ((d.Delete s.1 key).1, ((d.Delete s.1 key).2, s.2 ++ [Op.delete key])) }

/-- Go `s[1:]`: a run-time panic (`none`) on the empty string. -/
def sliceFrom1 : GoString → Option GoString
  | [] => none
  | _ :: s => some s

/-- Modelled from the spec: `util.StreamToByte`, whose source file is not in the
repository snapshot ("Read the full request body into memory"): all the bytes of the
body and no error. -/
def StreamToByte (body : GoString) : GoString × Option GoError := (body, none)

/-- Go `putHandler`: the response writer and the database state it leaves, `none` for a
panic.  What it prints to the console is left out. -/
def putHandler {σ : Type} (d : IDatabase σ) (w : ResponseWriter) (r : Request) (s : σ) :
    Option (ResponseWriter × σ) :=
  match sliceFrom1 r.Path with
  | none => none
  | some key =>
    if key.length = 0 then some (http.Error w "error - no key provided" 400, s)
    else
      match Decode (StreamToByte r.Body).1 with
      | none =>
        match d.Set s key (Value.str (StreamToByte r.Body).1) with
        | (some _, s1) => some (http.Error w "error - putting kv pair" 500, s1)
        | (none, s1) => some (w, s1)
      | some data =>
        match d.Set s key data with
        | (some _, s1) => some (http.Error w "error - putting json kv pair" 500, s1)
        | (none, s1) => some (w, s1)

/-- Go `getHandler`. -/
def getHandler {σ : Type} (formatFloat : FloatFormat) (d : IDatabase σ) (w : ResponseWriter)
    (r : Request) (s : σ) : Option (ResponseWriter × σ) :=
  if r.Path = utf8 "/" then
    match d.GetAllKeys s with
    | ((_, some _), s1) => some (http.Error w "error - getting all keys" 500, s1)
    | ((v, none), s1) =>
      match json.EncodeStrings w v with
      | (w1, some _) => some (http.Error w1 "error - encoding response" 500, s1)
      | (w1, none) => some (w1, s1)
  else
    match sliceFrom1 r.Path with
    | none => none
    | some key =>
      match d.Get s key with
      | ((_, some _), s1) => some (http.Error w "error - getting key" 500, s1)
      | ((v, none), s1) =>
        if v = Value.nil then some (w.WriteHeader 404, s1)
        else
          match json.Encode formatFloat w v with
          | (w1, some _) => some (http.Error w1 "error - encoding response" 500, s1)
          | (w1, none) => some (w1, s1)

/-- Go `deleteHandler`. -/
def deleteHandler {σ : Type} (d : IDatabase σ) (w : ResponseWriter) (r : Request) (s : σ) :
    Option (ResponseWriter × σ) :=
  match sliceFrom1 r.Path with
  | none => none
  | some key =>
    if key.length = 0 then some (http.Error w "error - no key provided" 400, s)
    else
      match d.Get s key with
      | ((_, some _), s1) => some (http.Error w "error - getting key" 500, s1)
      | ((v, none), s1) =>
        if v = Value.nil then some (w.WriteHeader 404, s1)
        else
          match d.Delete s1 key with
          | (some _, s2) => some (http.Error w "error - deleting key" 500, s2)
          | (none, s2) => some (w, s2)

/-- Go `IndexHandler(d)`: the handler of every request, chosen by the method. -/
def IndexHandler {σ : Type} (formatFloat : FloatFormat) (d : IDatabase σ)
    (w : ResponseWriter) (r : Request) (s : σ) : Option (ResponseWriter × σ) :=
  if r.Method = utf8 "GET" then getHandler formatFloat d w r s
  else if r.Method = utf8 "PUT" then putHandler d w r s
  else if r.Method = utf8 "DELETE" then deleteHandler d w r s
  else some (http.Error w "method not allowed" 405, s)

/-! ## Canonical forms and the values the decoder produces -/

/-- Well-formed UTF-8: a sequence of well-formed encodings. -/
inductive ValidUTF8 : GoString → Prop
  | nil : ValidUTF8 []
  | rune (s : GoString) (h : runeLen s ≠ 0) (t : ValidUTF8 (s.drop (runeLen s))) : ValidUTF8 s

/-- What may follow a number literal without being read as part of it: the end of the
input, or a byte that is neither a digit nor a dot nor the mark of an exponent. -/
def endsNumber : List UInt8 → Bool
  | [] => true
  | c :: _ => !isDigit c && c != 0x2E && c != 0x65 && c != 0x45

/-- Put a member where its key belongs among members in the order of their keys. -/
def insertByKey {α : Type} (p : GoString × α) : List (GoString × α) → List (GoString × α)
  | [] => [p]
  | q :: qs => if keyLE p.1 q.1 then p :: q :: qs else q :: insertByKey p qs

/-- Members in the order of their keys. -/
def sortByKey {α : Type} : List (GoString × α) → List (GoString × α)
  | [] => []
  | p :: ps => insertByKey p (sortByKey ps)

mutual
/-- A value with the members of every object in the order of their keys and every number
literal rewritten by `num`; the nil map counts as `null`.  With the text the encoder
writes for a number as `num`, this is the value the grammar reads back from the text the
encoder writes for the value. -/
def canon (num : GoString → GoString) : Value → Value
  | Value.nil => Value.nil
  | Value.str s => Value.str s
  | Value.bool b => Value.bool b
  | Value.num lit => Value.num (num lit)
  | Value.arr xs => Value.arr (canonElems num xs)
  | Value.map m => Value.map (sortByKey (canonMembers num m))
  | Value.nilMap => Value.nil
/-- The elements of an array, each in canonical form. -/
def canonElems (num : GoString → GoString) : List Value → List Value
  | [] => []
  | x :: xs => canon num x :: canonElems num xs
/-- The members of an object, each value in canonical form. -/
def canonMembers (num : GoString → GoString) :
    List (GoString × Value) → List (GoString × Value)
  | [] => []
  | (k, x) :: m => (k, canon num x) :: canonMembers num m
end

/-- What the decoder can produce: strings and keys are well-formed UTF-8, numbers are
whole literals within the float64 range, the keys of an object are distinct. -/
inductive Clean : Value → Prop
  | nil : Clean Value.nil
  | str (s : GoString) (h : ValidUTF8 s) : Clean (Value.str s)
  | bool (b : Bool) : Clean (Value.bool b)
  | num (lit : GoString) (h : parseNumber lit = some (lit, false, [])) : Clean (Value.num lit)
  | arr (xs : List Value) (h : ∀ x ∈ xs, Clean x) : Clean (Value.arr xs)
  | map (m : List (GoString × Value)) (hn : (m.map Prod.fst).Nodup)
      (hk : ∀ p ∈ m, ValidUTF8 p.1) (hv : ∀ p ∈ m, Clean p.2) : Clean (Value.map m)

/-! ## Sequences of requests -/

/-- The store after the server has handled one request with `IndexHandler` over the store
of `db.go` (`main.go` registers that handler for every path).  A handler that panics
(`none`) does so at the slice of the path, before any call on the store, and `net/http`
recovers the panic: the store is as it was. -/
def serve (formatFloat : FloatFormat) (db : Database) (r : Request) : Database :=
  match IndexHandler formatFloat Database.asIDatabase NewRecorder r db with
  | some (_, db1) => db1
  | none => db

/-- The store after a sequence of requests, handled first to last. -/
def serveAll (formatFloat : FloatFormat) (db : Database) : List Request → Database
  | [] => db
  | r :: rs => serveAll formatFloat (serve formatFloat db r) rs

/-! ## strconv: the float64 nearest to a number literal, and the text written for it

The decoder holds a number as the float64 `strconv.ParseFloat` returns for its literal,
and the float encoder of `encoding/json` writes that float64 with
`strconv.AppendFloat(b, f, fmt, -1, 64)`: the shortest decimal digits that are read back
as the same float64.  Both are given here with integers alone, so that they are exact: a
finite float64 is a sign, a mantissa and a binary exponent, and a decimal is compared
with it as a fraction of two natural numbers. -/

/-- A finite float64: the sign and the magnitude `mant * 2 ^ exp`.  In the form used here
a normal number has `2 ^ 52 ≤ mant < 2 ^ 53` and `-1074 ≤ exp ≤ 971`; a subnormal number
and zero have `mant < 2 ^ 52` and `exp = -1074`. -/
structure Float64 where
  neg : Bool
  mant : Nat
  exp : Int
deriving DecidableEq

/-- The integer nearest to `p / q`, the even one of two that are equally near. -/
def roundHalfEven (p q : Nat) : Nat :=
  if 2 * (p % q) < q then p / q
  else if q < 2 * (p % q) then p / q + 1
  else if p / q % 2 = 0 then p / q else p / q + 1

/-- The fraction `p / q` divided by `2 ^ e`, as a numerator and a denominator. -/
def scale2 (p q : Nat) (e : Int) : Nat × Nat :=
  if 0 ≤ e then (p, q * 2 ^ e.toNat) else (p * 2 ^ (-e).toNat, q)

/-- Position of the leading bit of a number, counted from 0 (0 for 0 and 1),
    found by halving; the first argument bounds the number of halvings. -/
def bitLenFrom : Nat → Nat → Nat
  | 0, _ => 0
  | fuel + 1, n => if 2 ≤ n then bitLenFrom fuel (n / 2) + 1 else 0

/-- Position of the leading bit of a number, counted from 0. -/
def bitLen (n : Nat) : Nat := bitLenFrom n n

/-- The binary exponent of the float64 format for the magnitude `p / q` (`p` and `q`
positive): the `e` with `2 ^ 52 ≤ p / q / 2 ^ e < 2 ^ 53`, and -1074 where that would be
less (the subnormal range). -/
def binExp (p q : Nat) : Int :=
  let e0 : Int := (bitLen p : Int) - (bitLen q : Int) - 52
  let e : Int := if (scale2 p q e0).1 < 2 ^ 52 * (scale2 p q e0).2 then e0 - 1 else e0
  if e < -1074 then -1074 else e

/-- The float64 magnitude nearest to `p / q` (`q` positive), ties to the even mantissa, as
IEEE 754 and `strconv.ParseFloat` round; `none` when the result is not finite. -/
def roundFloat64 (p q : Nat) : Option (Nat × Int) :=
  if p = 0 then some (0, -1074)
  else
    let e := binExp p q
    let m := roundHalfEven (scale2 p q e).1 (scale2 p q e).2
    let r : Nat × Int := if m = 2 ^ 53 then (2 ^ 52, e + 1) else (m, e)
    if 971 < r.2 then none else some r

/-- The parts of a number literal read as by `parseNumber`: whether it has a minus sign,
the digits of the integer part, of the fraction and of the exponent, and whether the
exponent has a minus sign. -/
def numberParts (lit : GoString) : Option (Bool × List UInt8 × List UInt8 × Bool × List UInt8) :=
  match intPart (optMinus lit).2 with
  | none => none
  | some (int, s1) =>
    match fracPart s1 with
    | none => none
    | some (frac, s2) =>
      match expPart s2 with
      | none => none
      | some (_, expNeg, exp, _) => some (decide ((optMinus lit).1 ≠ []), int, frac, expNeg, exp)

/-- The decimal value `mant * 10 ^ e` as a numerator and a denominator. -/
def scale10 (mant : Nat) (e : Int) : Nat × Nat :=
  if 0 ≤ e then (mant * 10 ^ e.toNat, 1) else (mant, 10 ^ (-e).toNat)

/-- Go `strconv.ParseFloat(lit, 64)` on a number literal of JSON: the float64 nearest to
the decimal value, `none` for the range error (the exponent is read as `strconv` reads
it, see `expOfDigits`). -/
def ParseFloat (lit : GoString) : Option Float64 :=
  match numberParts lit with
  | none => none
  | some (neg, int, frac, expNeg, exp) =>
    let e : Int :=
      (if expNeg then -(expOfDigits exp : Int) else (expOfDigits exp : Int)) - frac.length
    match roundFloat64 (scale10 (natOfDigits (int ++ frac)) e).1
        (scale10 (natOfDigits (int ++ frac)) e).2 with
    | none => none
    | some (m, e2) => some { neg := neg, mant := m, exp := e2 }

/-- The decimal digits of a number, as bytes. -/
def natDigits (n : Nat) : List UInt8 := (Nat.toDigits 10 n).map (fun c => c.toNat.toUInt8)

/-- The greatest `t` with `10 ^ t ≤ p / q`, found from an estimate by the binary
logarithms that is at most four too small. -/
def floorLog10 (p q : Nat) : Int :=
  let t0 : Int := ((bitLen p : Int) - (bitLen q : Int) - 1) * 30103 / 100000 - 1
  let le := fun (t : Int) => decide ((scale10 1 t).1 * q ≤ p * (scale10 1 t).2)
  if le (t0 + 4) then t0 + 4 else if le (t0 + 3) then t0 + 3 else if le (t0 + 2) then t0 + 2
  else if le (t0 + 1) then t0 + 1 else t0

/-- Whether the decimal `c * 10 ^ k` is read as the float64 magnitude `(m, e)`. -/
def readsAs (c : Nat) (k : Int) (m : Nat) (e : Int) : Bool :=
  decide (roundFloat64 (scale10 c k).1 (scale10 c k).2 = some (m, e))

/-- The decimal of `n` digits that stands for the float64 magnitude `m * 2 ^ e` in the
shortest formatting, if there is one: of the two decimals of `n` digits next to the
value, one that is read as the same float64, the nearer one when both are.  The result is
the digits as a number and the power of ten they are multiplied by. -/
def shortestAt (m : Nat) (e : Int) (n : Nat) : Option (Nat × Int) :=
  let p := (scale2 m 1 (-e)).1
  let q := (scale2 m 1 (-e)).2
  let k : Int := floorLog10 p q - (n - 1 : Nat)
  let num := p * (scale10 1 k).2
  let den := q * (scale10 1 k).1
  let lo := num / den
  let okLo := readsAs lo k m e
  let okHi := readsAs (lo + 1) k m e
  if okLo && okHi then some (roundHalfEven num den, k)
  else if okLo then some (lo, k)
  else if okHi then some (lo + 1, k)
  else none

/-- The shortest decimal that is read as the float64 magnitude `m * 2 ^ e`, trying 1 to 17
digits; 17 digits always suffice, and the nearest decimal of 17 digits is the fallback. -/
def shortestFrom (m : Nat) (e : Int) : Nat → Nat → Nat × Int
  | 0, n =>
    let p := (scale2 m 1 (-e)).1
    let q := (scale2 m 1 (-e)).2
    let k : Int := floorLog10 p q - (n - 1 : Nat)
    (roundHalfEven (p * (scale10 1 k).2) (q * (scale10 1 k).1), k)
  | fuel + 1, n =>
    match shortestAt m e n with
    | some r => r
    | none => shortestFrom m e fuel (n + 1)

/-- Drop the zeros at the end of a list of digits. -/
def dropEndZeros (ds : List UInt8) : List UInt8 :=
  (ds.reverse.dropWhile (fun d => d = 0x30)).reverse

/-- The digits and the position of the decimal point of the shortest formatting of a
positive float64 magnitude, as `strconv` holds them in its `decimalSlice`: the value is
`0.d1d2...dn * 10 ^ dp`. -/
def shortestDecimal (m : Nat) (e : Int) : List UInt8 × Int :=
  let r := shortestFrom m e 16 1
  (dropEndZeros (natDigits r.1), ((natDigits r.1).length : Int) + r.2)

/-- Go `strconv`'s `%f` layout of the digits (`fmtF` with the shortest precision). -/
def fmtF (ds : List UInt8) (dp : Int) : List UInt8 :=
  (if 0 < dp then ds.take dp.toNat ++ List.replicate (dp.toNat - ds.length) 0x30 else [0x30])
  ++ (if dp < ds.length then
        0x2E :: (List.replicate (-dp).toNat 0x30 ++ ds.drop dp.toNat)
      else [])

/-- Go `strconv`'s `%e` layout of the digits (`fmtE` with the shortest precision): the
exponent has at least two digits. -/
def fmtE (ds : List UInt8) (dp : Int) : List UInt8 :=
  ds.take 1 ++ (if 1 < ds.length then 0x2E :: ds.drop 1 else [])
  ++ [0x65] ++ (if dp - 1 < 0 then [0x2D] else [0x2B])
  ++ (if (dp - 1).natAbs < 10 then 0x30 :: natDigits (dp - 1).natAbs
      else natDigits (dp - 1).natAbs)

/-- The clean-up of `encoding/json` after `%e`: an exponent of two digits that starts
with `0` loses that digit (`e-09` becomes `e-9`). -/
def cleanExponent (b : List UInt8) : List UInt8 :=
  match b.reverse with
  | d :: z :: s :: m :: rest =>
    if m = 0x65 ∧ (s = 0x2D ∨ s = 0x2B) ∧ z = 0x30 then (d :: s :: m :: rest).reverse else b
  | _ => b

/-- Whether the first float64 magnitude is less than the second. -/
def magLt (a b : Nat × Int) : Bool :=
  decide ((scale2 a.1 1 (-a.2)).1 * (scale2 b.1 1 (-b.2)).2
    < (scale2 b.1 1 (-b.2)).1 * (scale2 a.1 1 (-a.2)).2)

/-- The float encoder of `encoding/json` for a float64 (`floatEncoder.encode`): the
shortest digits that are read back as the same float64, in the `%f` layout, and in the
`%e` layout with the cleaned exponent when the magnitude is not zero and is less than the
float64 `1e-6` or at least `1e21`. -/
def encodeFloat64 (f : Float64) : GoString :=
  (if f.neg then [0x2D] else []) ++
  (if f.mant = 0 then [0x30]
   else
    if magLt (f.mant, f.exp) ((roundFloat64 1 1000000).getD (0, 0))
        || !magLt (f.mant, f.exp) ((roundFloat64 (10 ^ 21) 1).getD (0, 0)) then
      cleanExponent (fmtE (shortestDecimal f.mant f.exp).1 (shortestDecimal f.mant f.exp).2)
    else fmtF (shortestDecimal f.mant f.exp).1 (shortestDecimal f.mant f.exp).2)

/-- The number the encoder writes for a number literal the decoder has read: the literal
is held as the float64 `strconv.ParseFloat` returns and written by the float encoder.
(A literal out of the float64 range is an error of the decoder and is never encoded.) -/
def formatFloat64 : FloatFormat := fun lit =>
  match ParseFloat lit with
  | some f => encodeFloat64 f
  | none => []


/-! ## JSON texts read strictly, and JSON-equal texts -/

/-- A string literal after its opening quote, read strictly: as `parseString` reads it,
except that an escaped surrogate that is not half of a pair and a byte that is not
well-formed UTF-8 have no reading (the decoder reads U+FFFD in their place). -/
def parseStringS : Nat → List UInt8 → GoString → Option (GoString × List UInt8)
  | 0, _, _ => none
  | _ + 1, [], _ => none
  | fuel + 1, c :: rest, acc =>
    if c = 0x22 then some (acc, rest)
    else if c = 0x5C then
      match rest with
      | [] => none
      | e :: rest1 =>
        if e = 0x75 then
          match hex4 rest1 with
          | none => none
          | some (rr, rest2) =>
            if 0xD800 ≤ rr ∧ rr < 0xE000 then
              match getu4 rest2 with
              | some (rr1, rest3) =>
                if rr < 0xDC00 ∧ 0xDC00 ≤ rr1 ∧ rr1 < 0xE000 then
                  parseStringS fuel rest3
                    (acc ++ encodeRune ((rr - 0xD800) * 1024 + (rr1 - 0xDC00) + 0x10000))
                else none
              | none => none
            else parseStringS fuel rest2 (acc ++ encodeRune rr)
        else
          match simpleEscape e with
          | some b => parseStringS fuel rest1 (acc ++ [b])
          | none => none
    else if c < 0x20 then none
    else if c < 0x80 then parseStringS fuel rest (acc ++ [c])
    else
      if runeLen (c :: rest) = 0 then none
      else
        parseStringS fuel ((c :: rest).drop (runeLen (c :: rest)))
          (acc ++ (c :: rest).take (runeLen (c :: rest)))

mutual
/-- The JSON value at the head of the input, read strictly, and the input after it: the
grammar of `parseValue` without the limits of the library, with strings read by
`parseStringS`, and with no reading for an object that has two members of one name (the
decoder keeps the last of them). -/
def parseValueS : Nat → List UInt8 → Option (Value × List UInt8)
  | 0, _ => none
  | fuel + 1, input =>
    match skipSpace input with
    | [] => none
    | c :: rest =>
      if c = 0x7B then
        match skipSpace rest with
        | 0x7D :: rest1 => some (Value.map [], rest1)
        | _ =>
          match parseMembersS fuel rest [] with
          | some (m, rest1) => some (Value.map m, rest1)
          | none => none
      else if c = 0x5B then
        match skipSpace rest with
        | 0x5D :: rest1 => some (Value.arr [], rest1)
        | _ =>
          match parseElemsS fuel rest [] with
          | some (xs, rest1) => some (Value.arr xs, rest1)
          | none => none
      else if c = 0x22 then
        match parseStringS (rest.length + 1) rest [] with
        | some (s, rest1) => some (Value.str s, rest1)
        | none => none
      else if c = 0x2D ∨ isDigit c then
        match parseNumber (c :: rest) with
        | some (lit, _, rest1) => some (Value.num lit, rest1)
        | none => none
      else if c = 0x74 then literal "true" (Value.bool true) (c :: rest)
      else if c = 0x66 then literal "false" (Value.bool false) (c :: rest)
      else if c = 0x6E then literal "null" Value.nil (c :: rest)
      else none
/-- The members of an object from a name on, up to its closing brace, read strictly. -/
def parseMembersS :
    Nat → List UInt8 → List (GoString × Value) →
      Option (List (GoString × Value) × List UInt8)
  | 0, _, _ => none
  | fuel + 1, input, acc =>
    match skipSpace input with
    | 0x22 :: rest =>
      match parseStringS (rest.length + 1) rest [] with
      | none => none
      | some (key, rest1) =>
        if key ∈ acc.map Prod.fst then none
        else
          match skipSpace rest1 with
          | 0x3A :: rest2 =>
            match parseValueS fuel rest2 with
            | none => none
            | some (v, rest3) =>
              match skipSpace rest3 with
              | 0x2C :: rest4 => parseMembersS fuel rest4 (acc ++ [(key, v)])
              | 0x7D :: rest4 => some (acc ++ [(key, v)], rest4)
              | _ => none
          | _ => none
    | _ => none
/-- The elements of an array from an element on, up to its closing bracket, read
strictly. -/
def parseElemsS :
    Nat → List UInt8 → List Value → Option (List Value × List UInt8)
  | 0, _, _ => none
  | fuel + 1, input, acc =>
    match parseValueS fuel input with
    | none => none
    | some (v, rest) =>
      match skipSpace rest with
      | 0x2C :: rest1 => parseElemsS fuel rest1 (acc ++ [v])
      | 0x5D :: rest1 => some (acc ++ [v], rest1)
      | _ => none
end

/-- The value a text is the JSON text of: the whole text is one value of the JSON
grammar with nothing but white space around it, every string in it is well-formed
Unicode and no object in it has two members of one name.  Other texts have no value.
Strings are held unescaped, numbers as their literals, the members of an object in the
order of the text. -/
def readStrict (t : GoString) : Option Value :=
  match parseValueS (2 * t.length + 2) t with
  | some (v, rest) => if skipSpace rest = [] then some v else none
  | none => none

/-- A number literal in a form that tells its decimal value: `0` for zero, otherwise the
sign, the digits without zeros at either end, the mark `e` and the power of ten they are
multiplied by.  Two literals have the same form exactly when they denote the same
number: `1.0`, `1` and `10e-1` all give `1e0`. -/
def numKey (lit : GoString) : GoString :=
  match numberParts lit with
  | none => lit
  | some (neg, int, frac, expNeg, exp) =>
    let ds := (int ++ frac).dropWhile (fun d => d = 0x30)
    let e : Int :=
      (if expNeg then -(natOfDigits exp : Int) else (natOfDigits exp : Int)) - frac.length
        + ((ds.length - (dropEndZeros ds).length : Nat) : Int)
    if dropEndZeros ds = [] then [0x30]
    else
      (if neg then [0x2D] else []) ++ dropEndZeros ds ++ [0x65]
        ++ (if e < 0 then [0x2D] else []) ++ natDigits e.natAbs

/-- The specification's notion of JSON-equal texts: both are JSON texts, and their values
have the same members with the same nested values, whatever the order of the members of
an object; numbers are the same when their decimal values are. -/
def jsonEqual (a b : GoString) : Bool :=
  match readStrict a, readStrict b with
  | some va, some vb => decide (canon numKey va = canon numKey vb)
  | _, _ => false

mutual
/-- Whether every number literal in a value satisfies `p`. -/
def allNumbers (p : GoString → Bool) : Value → Bool
  | Value.num lit => p lit
  | Value.arr xs => allNumbersElems p xs
  | Value.map m => allNumbersMembers p m
  | _ => true
/-- Whether every number literal in the elements of an array satisfies `p`. -/
def allNumbersElems (p : GoString → Bool) : List Value → Bool
  | [] => true
  | x :: xs => allNumbers p x && allNumbersElems p xs
/-- Whether every number literal in the members of an object satisfies `p`. -/
def allNumbersMembers (p : GoString → Bool) : List (GoString × Value) → Bool
  | [] => true
  | (_, x) :: m => allNumbers p x && allNumbersMembers p m
end

/-- Whether float64 keeps a number literal: the text the encoder writes for the float64
nearest to it is a number literal with the same decimal value.  It is so for `1`, `0.1`
and `1e2` (written `100`), not for `9007199254740993` (written `9007199254740992`). -/
def keptNumber (lit : GoString) : Bool :=
  decide (parseNumber (formatFloat64 lit) = some (formatFloat64 lit, false, []))
    && decide (numKey (formatFloat64 lit) = numKey lit)

/-- Whether float64 keeps every number in a value. -/
def numbersKept (v : Value) : Bool := allNumbers keptNumber v

/-- The response to a read of `/k` that follows a write of the body `b` to `/k`, both
handled by `IndexHandler` over the store of `db.go`, starting from the new store; `none`
if a handler panics. -/
def writeThenRead (k b : GoString) : Option ResponseWriter :=
  ((IndexHandler formatFloat64 Database.asIDatabase NewRecorder
      { Method := utf8 "PUT", Path := 0x2F :: k, Body := b } NewDatabase).bind
    (fun p => IndexHandler formatFloat64 Database.asIDatabase NewRecorder
      { Method := utf8 "GET", Path := 0x2F :: k, Body := [] } p.2)).map Prod.fst

/-! ## Store lemmas -/

theorem foldl_append_singleton (ks acc : List GoString) :
    ks.foldl (fun out k => out ++ [k]) acc = acc ++ ks := by
  induction ks generalizing acc with
  | nil => simp
  | cons k ks ih => simp [List.foldl_cons, ih]

theorem getAllKeys_of_some (d : Database) (m : GoMap) (h : d.Data = some m) :
    d.GetAllKeys = ((some m.keys, none), d) := by
  simp [Database.GetAllKeys, initCheck, h, mapRange, foldl_append_singleton]

theorem get_of_some (d : Database) (m : GoMap) (h : d.Data = some m) (k : GoString) :
    d.Get k = (((m.lookup k).getD Value.nil, none), d) := by
  simp [Database.Get, initCheck, h, mapIndex]

theorem set_of_some (d : Database) (m : GoMap) (h : d.Data = some m) (k : GoString)
    (v : Value) : d.Set k v = (none, { Data := some (m.insert k v) }) := by
  simp [Database.Set, initCheck, h]

theorem delete_of_some (d : Database) (m : GoMap) (h : d.Data = some m) (k : GoString) :
    d.Delete k = (none, { Data := some (m.erase k) }) := by
  simp [Database.Delete, initCheck, h, mapDelete]

theorem erase_of_not_mem (m : GoMap) (k : GoString) (h : k ∉ m) : m.erase k = m := by
  apply AList.ext
  rw [AList.mem_keys] at h
  simpa [AList.erase] using List.kerase_of_not_mem_keys h

theorem apply_data_ne_none (d : Database) (op : Op) (h : d.Data ≠ none) :
    (d.apply op).1 = none ∧ (d.apply op).2.Data ≠ none := by
  obtain ⟨m, hm⟩ := Option.ne_none_iff_exists'.mp h
  cases op with
  | getAllKeys => simp [Database.apply, getAllKeys_of_some d m hm, hm]
  | get key => simp [Database.apply, get_of_some d m hm, hm]
  | set key value => simp [Database.apply, set_of_some d m hm]
  | delete key => simp [Database.apply, delete_of_some d m hm]

theorem run_data_ne_none (ops : List Op) (d : Database) (h : d.Data ≠ none) :
    (d.run ops).Data ≠ none := by
  induction ops generalizing d with
  | nil => simpa [Database.run] using h
  | cons op ops ih => exact ih _ (apply_data_ne_none d op h).2

/-! ## The budgets of the decoder suffice -/

theorem skipSpace_length (i : List UInt8) : (skipSpace i).length ≤ i.length := by
  induction i with
  | nil => simp [skipSpace]
  | cons c cs ih =>
    rw [skipSpace]
    split
    · exact Nat.le_succ_of_le ih
    · exact Nat.le_refl _

theorem hex4_length (i rest : List UInt8) (n : Nat) (h : hex4 i = some (n, rest)) :
    rest.length + 4 = i.length := by
  unfold hex4 at h
  split at h
  · split at h
    · simp at h
      simp [h.2]
    · simp at h
  · simp at h

theorem getu4_length (i rest : List UInt8) (n : Nat) (h : getu4 i = some (n, rest)) :
    rest.length + 6 = i.length := by
  unfold getu4 at h
  split at h
  · have := hex4_length _ _ _ h
    simp
    omega
  · simp at h

theorem parseString_length (fuel : Nat) : ∀ (i acc s rest : List UInt8),
    parseString fuel i acc = some (s, rest) → rest.length < i.length := by
  induction fuel with
  | zero => intro i acc s rest h; simp [parseString] at h
  | succ fuel ih =>
    intro i acc s rest h
    cases i with
    | nil => simp [parseString] at h
    | cons c t =>
      simp only [parseString] at h
      repeat' split at h
      all_goals try (simp at h; done)
      all_goals try (have h1 := ih _ _ _ _ h)
      all_goals try (have h2 := hex4_length _ _ _ (by assumption))
      all_goals try (have h3 := getu4_length _ _ _ (by assumption))
      all_goals try (simp only [List.length_drop] at h1)
      all_goals try (simp only [List.length_cons] at *)
      all_goals first
        | omega
        | (simp at h; simp [← h.2])

theorem parseString_fuel (fuel : Nat) : ∀ (fuel' : Nat) (i acc : List UInt8),
    i.length + 1 ≤ fuel → fuel ≤ fuel' →
      parseString fuel i acc = parseString fuel' i acc := by
  induction fuel with
  | zero => intro fuel' i acc h; omega
  | succ fuel ih =>
    intro fuel' i acc h hf
    obtain ⟨f', rfl⟩ : ∃ f', fuel' = f' + 1 := ⟨fuel' - 1, by omega⟩
    cases i with
    | nil => simp [parseString]
    | cons c t =>
      simp only [parseString]
      repeat' split
      all_goals try rfl
      all_goals try (have h2 := hex4_length _ _ _ (by assumption))
      all_goals try (have h3 := getu4_length _ _ _ (by assumption))
      all_goals apply ih
      all_goals try (simp only [List.length_drop])
      all_goals try (simp only [List.length_cons] at *)
      all_goals omega


theorem spanDigits_length (i : List UInt8) : (spanDigits i).2.length ≤ i.length := by
  induction i with
  | nil => simp [spanDigits]
  | cons c cs ih =>
    rw [spanDigits]
    split
    · exact Nat.le_succ_of_le ih
    · exact Nat.le_refl _

theorem spanDigits_eq_length (i ds rest : List UInt8) (h : spanDigits i = (ds, rest)) :
    rest.length ≤ i.length := by
  have := spanDigits_length i
  rw [h] at this
  exact this

theorem optMinus_length (i : List UInt8) : (optMinus i).2.length ≤ i.length := by
  unfold optMinus
  split <;> simp

theorem intPart_length (i ds rest : List UInt8) (h : intPart i = some (ds, rest)) :
    rest.length < i.length := by
  unfold intPart at h
  split at h
  · simp at h
  · rename_i c s
    have := spanDigits_length s
    repeat' split at h
    all_goals simp at h
    all_goals simp [← h.2]
    all_goals omega

theorem fracPart_length (i ds rest : List UInt8) (h : fracPart i = some (ds, rest)) :
    rest.length ≤ i.length := by
  unfold fracPart at h
  split at h
  · rename_i s
    have := spanDigits_length s
    split at h
    · simp at h
    · rename_i ds1 s1 hne heq
      simp at h
      rw [heq] at this
      simp [← h.2]
      simp at this
      omega
  · simp at h
    simp [h.2]

theorem expPart_length (i mark ds rest : List UInt8) (neg : Bool)
    (h : expPart i = some (mark, neg, ds, rest)) : rest.length ≤ i.length := by
  unfold expPart at h
  repeat' split at h
  all_goals try (simp at h; done)
  all_goals try (have hsp := spanDigits_eq_length _ _ _ (by assumption))
  all_goals simp at h
  all_goals simp [← h.2.2.2]
  all_goals omega

theorem parseNumber_length (i lit rest : List UInt8) (over : Bool)
    (h : parseNumber i = some (lit, over, rest)) : rest.length < i.length := by
  unfold parseNumber at h
  repeat' split at h
  all_goals try (simp at h; done)
  all_goals
    have h1 := intPart_length _ _ _ (by assumption)
    have h2 := fracPart_length _ _ _ (by assumption)
    have h3 := expPart_length _ _ _ _ _ (by assumption)
    have h0 := optMinus_length i
    simp at h
    rw [← h.2.2]
    omega

theorem literal_length (word : String) (v x : Value) (i rest : List UInt8)
    (hw : 0 < (utf8 word).length) (h : literal word v i = some (x, rest)) :
    rest.length < i.length := by
  unfold literal at h
  split at h
  · rename_i hp
    simp at h
    have hle := (List.isPrefixOf_iff_prefix.mp hp).length_le
    rw [← h.2, List.length_drop]
    omega
  · simp at h


theorem skipSpace_cons_length (i t : List UInt8) (c : UInt8) (h : skipSpace i = c :: t) :
    t.length < i.length := by
  have := skipSpace_length i
  rw [h] at this
  exact this

theorem parse_length (g : Bool) (fuel : Nat) :
    (∀ (d : Nat) (i : List UInt8) (v : Value) (rest : List UInt8),
      parseValue g fuel d i = some (v, rest) → rest.length < i.length) ∧
    (∀ (d : Nat) (i : List UInt8) (acc m : List (GoString × Value)) (rest : List UInt8),
      parseMembers g fuel d i acc = some (m, rest) → rest.length < i.length) ∧
    (∀ (d : Nat) (i : List UInt8) (acc xs : List Value) (rest : List UInt8),
      parseElems g fuel d i acc = some (xs, rest) → rest.length < i.length) := by
  induction fuel with
  | zero => simp [parseValue, parseMembers, parseElems]
  | succ fuel ih =>
    obtain ⟨ihV, ihM, ihE⟩ := ih
    refine ⟨?_, ?_, ?_⟩
    · intro d i v rest h
      rw [parseValue] at h
      split at h
      · simp at h
      · rename_i c t hs
        have h0 := skipSpace_cons_length i t c hs
        split at h
        · split at h
          · simp at h
          · split at h
            · rename_i r1 hs1
              have h1 := skipSpace_cons_length _ _ _ hs1
              simp at h
              rw [← h.2]
              omega
            · split at h
              · rename_i m r1 hm
                have h1 := ihM _ _ _ _ _ hm
                simp at h
                rw [← h.2]
                omega
              · simp at h
        · split at h
          · split at h
            · simp at h
            · split at h
              · rename_i r1 hs1
                have h1 := skipSpace_cons_length _ _ _ hs1
                simp at h
                rw [← h.2]
                omega
              · split at h
                · rename_i xs r1 hm
                  have h1 := ihE _ _ _ _ _ hm
                  simp at h
                  rw [← h.2]
                  omega
                · simp at h
          · split at h
            · split at h
              · rename_i sv r1 hm
                have h1 := parseString_length _ _ _ _ _ hm
                simp at h
                rw [← h.2]
                omega
              · simp at h
            · split at h
              · split at h
                · rename_i lit over r1 hm
                  have h1 := parseNumber_length _ _ _ _ hm
                  simp only [List.length_cons] at h1
                  split at h
                  · simp at h
                  · simp at h
                    rw [← h.2]
                    omega
                · simp at h
              · have hl : ∀ (word : String) (x : Value), 0 < (utf8 word).length →
                    literal word x (c :: t) = some (v, rest) → rest.length < i.length := by
                  intro word x hw hlit
                  have h1 := literal_length word x v (c :: t) rest hw hlit
                  simp only [List.length_cons] at h1
                  omega
                split at h
                · exact hl _ _ (by decide) h
                · split at h
                  · exact hl _ _ (by decide) h
                  · split at h
                    · exact hl _ _ (by decide) h
                    · simp at h
    · intro d i acc m rest h
      rw [parseMembers] at h
      split at h
      · rename_i t hs
        have h0 := skipSpace_cons_length _ _ _ hs
        split at h
        · simp at h
        · rename_i key r1 hk
          have h1 := parseString_length _ _ _ _ _ hk
          split at h
          · rename_i r2 hs2
            have h2 := skipSpace_cons_length _ _ _ hs2
            split at h
            · simp at h
            · rename_i v r3 hv
              have h3 := ihV _ _ _ _ hv
              split at h
              · rename_i r4 hs4
                have h4 := skipSpace_cons_length _ _ _ hs4
                have h5 := ihM _ _ _ _ _ h
                omega
              · rename_i r4 hs4
                have h4 := skipSpace_cons_length _ _ _ hs4
                simp at h
                rw [← h.2]
                omega
              · simp at h
          · simp at h
      · simp at h
    · intro d i acc xs rest h
      rw [parseElems] at h
      split at h
      · simp at h
      · rename_i v r hv
        have h1 := ihV _ _ _ _ hv
        split at h
        · rename_i r1 hs1
          have h2 := skipSpace_cons_length _ _ _ hs1
          have h3 := ihE _ _ _ _ _ h
          omega
        · rename_i r1 hs1
          have h2 := skipSpace_cons_length _ _ _ hs1
          simp at h
          rw [← h.2]
          omega
        · simp at h

theorem parse_fuel (g : Bool) (fuel : Nat) :
    (∀ (fuel' d : Nat) (i : List UInt8), 2 * i.length + 2 ≤ fuel → fuel ≤ fuel' →
      parseValue g fuel d i = parseValue g fuel' d i) ∧
    (∀ (fuel' d : Nat) (i : List UInt8) (acc : List (GoString × Value)),
      2 * i.length + 3 ≤ fuel → fuel ≤ fuel' →
      parseMembers g fuel d i acc = parseMembers g fuel' d i acc) ∧
    (∀ (fuel' d : Nat) (i : List UInt8) (acc : List Value),
      2 * i.length + 3 ≤ fuel → fuel ≤ fuel' →
      parseElems g fuel d i acc = parseElems g fuel' d i acc) := by
  induction fuel with
  | zero =>
    refine ⟨?_, ?_, ?_⟩ <;> intros <;> omega
  | succ fuel ih =>
    obtain ⟨ihV, ihM, ihE⟩ := ih
    refine ⟨?_, ?_, ?_⟩
    · intro fuel' d i hb hf
      obtain ⟨f', rfl⟩ : ∃ f', fuel' = f' + 1 := ⟨fuel' - 1, by omega⟩
      rw [parseValue, parseValue]
      split
      · rfl
      · rename_i c t hs
        have h0 := skipSpace_cons_length i t c hs
        rw [ihM f' (d + 1) t [] (by omega) (by omega),
          ihE f' (d + 1) t [] (by omega) (by omega)]
    · intro fuel' d i acc hb hf
      obtain ⟨f', rfl⟩ : ∃ f', fuel' = f' + 1 := ⟨fuel' - 1, by omega⟩
      rw [parseMembers, parseMembers]
      split
      · rename_i t hs
        have h0 := skipSpace_cons_length _ _ _ hs
        split
        · rfl
        · rename_i key r1 hk
          have h1 := parseString_length _ _ _ _ _ hk
          split
          · rename_i r2 hs2
            have h2 := skipSpace_cons_length _ _ _ hs2
            rw [ihV f' d r2 (by omega) (by omega)]
            split
            · rfl
            · rename_i v r3 hv
              have h3 := (parse_length g f').1 _ _ _ _ hv
              split
              · rename_i r4 hs4
                have h4 := skipSpace_cons_length _ _ _ hs4
                exact ihM f' d r4 _ (by omega) (by omega)
              · rfl
              · rfl
          · rfl
      · rfl
    · intro fuel' d i acc hb hf
      obtain ⟨f', rfl⟩ : ∃ f', fuel' = f' + 1 := ⟨fuel' - 1, by omega⟩
      rw [parseElems, parseElems]
      rw [ihV f' d i (by omega) (by omega)]
      split
      · rfl
      · rename_i v r hv
        have h1 := (parse_length g f').1 _ _ _ _ hv
        split
        · rename_i r1 hs1
          have h2 := skipSpace_cons_length _ _ _ hs1
          exact ihE f' d r1 _ (by omega) (by omega)
        · rfl
        · rfl

/-- A larger budget than the one `Decode` and `jsonObjectText` give the parser never
changes what it returns: the budget is not what makes a body fail to decode. -/
theorem parseValue_fuel (g : Bool) (fuel depth : Nat) (b : List UInt8)
    (h : 2 * b.length + 2 ≤ fuel) :
    parseValue g fuel depth b = parseValue g (2 * b.length + 2) depth b :=
  ((parse_fuel g (2 * b.length + 2)).1 fuel depth b (Nat.le_refl _) h).symm

/-- A larger budget than the one the parser gives to a string never changes the result. -/
theorem parseString_enough (fuel : Nat) (i acc : List UInt8) (h : i.length + 1 ≤ fuel) :
    parseString fuel i acc = parseString (i.length + 1) i acc :=
  (parseString_fuel (i.length + 1) fuel i acc (Nat.le_refl _) h).symm


/-! ## What the first byte of a body decides -/

theorem literal_value (word : String) (v x : Value) (input rest : List UInt8)
    (h : literal word v input = some (x, rest)) : x = v := by
  unfold literal at h
  split at h
  · simp at h
    exact h.1.symm
  · simp at h

/-- A decoded object starts, after white space, with an opening brace. -/
theorem parseValue_map_head (g : Bool) (fuel depth : Nat) (b rest : List UInt8)
    (m : List (GoString × Value)) (h : parseValue g fuel depth b = some (Value.map m, rest)) :
    ∃ t, skipSpace b = 0x7B :: t := by
  cases fuel with
  | zero => simp [parseValue] at h
  | succ fuel =>
    rw [parseValue] at h
    split at h
    · simp at h
    · rename_i c t hs
      by_cases hc : c = 0x7B
      · exact ⟨t, by rw [hs, hc]⟩
      · exfalso
        simp only [hc, if_false] at h
        repeat' split at h
        all_goals first
          | (have hlit := literal_value _ _ _ _ _ h; simp at hlit)
          | (simp at h)

/-- A decoded nil interface comes from a word that starts with `n`. -/
theorem parseValue_nil_head (g : Bool) (fuel depth : Nat) (b rest : List UInt8)
    (h : parseValue g fuel depth b = some (Value.nil, rest)) :
    ∃ t, skipSpace b = 0x6E :: t := by
  cases fuel with
  | zero => simp [parseValue] at h
  | succ fuel =>
    rw [parseValue] at h
    split at h
    · simp at h
    · rename_i c t hs
      by_cases hc : c = 0x6E
      · exact ⟨t, by rw [hs, hc]⟩
      · exfalso
        simp only [hc, if_false] at h
        repeat' split at h
        all_goals first
          | (have hlit := literal_value _ _ _ _ _ h; simp at hlit)
          | (simp at h)

/-- What starts with an opening brace decodes, if at all, to an object. -/
theorem parseValue_brace (g : Bool) (fuel depth : Nat) (b t rest : List UInt8) (v : Value)
    (hb : skipSpace b = 0x7B :: t) (h : parseValue g fuel depth b = some (v, rest)) :
    ∃ m, v = Value.map m := by
  cases fuel with
  | zero => simp [parseValue] at h
  | succ fuel =>
    rw [parseValue, hb] at h
    simp only [if_true] at h
    repeat' split at h
    all_goals (simp at h; try exact ⟨_, h.1.symm⟩)

theorem Decode_head (b : GoString) (v : Value) (h : Decode b = some v) :
    (∃ t, skipSpace b = 0x7B :: t) ∨ (∃ t, skipSpace b = 0x6E :: t) := by
  unfold Decode at h
  split at h
  · rename_i m rest hp
    exact Or.inl (parseValue_map_head _ _ _ _ _ _ hp)
  · rename_i rest hp
    exact Or.inr (parseValue_nil_head _ _ _ _ _ hp)
  · simp at h

/-- Decoding reports an error for every body whose first byte after white space is
neither an opening brace nor an `n`, and for every body that is empty or blank. -/
theorem Decode_eq_none_of_head (b : GoString)
    (h : ∀ t, skipSpace b ≠ 0x7B :: t ∧ skipSpace b ≠ 0x6E :: t) : Decode b = none := by
  cases hd : Decode b with
  | none => rfl
  | some v =>
    rcases Decode_head b v hd with ⟨t, ht⟩ | ⟨t, ht⟩
    · exact absurd ht (h t).1
    · exact absurd ht (h t).2

theorem Decode_brace (b t : GoString) (v : Value) (hb : skipSpace b = 0x7B :: t)
    (h : Decode b = some v) : ∃ m, v = Value.map m := by
  unfold Decode at h
  split at h
  · exact ⟨_, (Option.some.inj h).symm⟩
  · rename_i rest hp
    obtain ⟨m, hm⟩ := parseValue_brace _ _ _ _ _ _ _ hb hp
    cases hm
  · simp at h

theorem jsonObjectText_head (b : GoString) (h : jsonObjectText b = true) :
    ∃ t, skipSpace b = 0x7B :: t := by
  unfold jsonObjectText at h
  split at h
  · rename_i m rest hp
    exact parseValue_map_head _ _ _ _ _ _ hp
  · simp at h

/-! ## Router lemmas -/

theorem putHandler_traced_of_key {σ : Type} (d : IDatabase σ) (s : σ) (w : ResponseWriter)
    (r : Request) (c : UInt8) (key : GoString) (v : Value) (msg : String)
    (hpath : r.Path = c :: key) (hkey : key ≠ [])
    (hv : (Decode r.Body = none ∧ v = Value.str r.Body ∧ msg = "error - putting kv pair") ∨
      (Decode r.Body = some v ∧ msg = "error - putting json kv pair")) :
    putHandler d.traced w r (s, []) =
      some (if (d.Set s key v).1 = none then w else http.Error w msg 500,
        ((d.Set s key v).2, [Op.set key v])) := by
  have hlen : key.length ≠ 0 := by simpa using hkey
  rcases hv with ⟨hd, rfl, rfl⟩ | ⟨hd, rfl⟩
  · simp only [putHandler, hpath, sliceFrom1, hlen, if_false, StreamToByte, hd,
      IDatabase.traced, List.nil_append]
    cases hs : (d.Set s key (Value.str r.Body)).1 <;> simp
  · simp only [putHandler, hpath, sliceFrom1, hlen, if_false, StreamToByte, hd,
      IDatabase.traced, List.nil_append]
    cases hs : (d.Set s key v).1 <;> simp

theorem httpError_newRecorder (msg : String) (code : Nat) :
    http.Error NewRecorder msg code
      = { wroteHeader := true, Code := code, Body := utf8 msg ++ [0x0A] } := by
  simp [http.Error, ResponseWriter.Write, ResponseWriter.WriteHeader, NewRecorder]

theorem deleteHandler_traced {σ : Type} (d : IDatabase σ) (s : σ) (w : ResponseWriter)
    (r : Request) (c : UInt8) (key : GoString) (hpath : r.Path = c :: key) (hkey : key ≠ []) :
    deleteHandler d.traced w r (s, []) =
      match d.Get s key with
      | ((_, some _), s1) => some (http.Error w "error - getting key" 500, (s1, [Op.get key]))
      | ((v, none), s1) =>
        if v = Value.nil then some (w.WriteHeader 404, (s1, [Op.get key]))
        else
          match d.Delete s1 key with
          | (some _, s2) =>
            some (http.Error w "error - deleting key" 500, (s2, [Op.get key, Op.delete key]))
          | (none, s2) => some (w, (s2, [Op.get key, Op.delete key])) := by
  have hlen : key.length ≠ 0 := by simpa using hkey
  simp only [deleteHandler, hpath, sliceFrom1, hlen, if_false, IDatabase.traced,
    List.nil_append]
  rcases hg : d.Get s key with ⟨⟨v, e⟩, s1⟩
  cases e with
  | some e => rfl
  | none =>
    by_cases hv : v = Value.nil
    · simp [hv]
    · simp only [hv, if_false]
      rcases hd : d.Delete s1 key with ⟨e2, s2⟩
      cases e2 <;> simp

theorem getHandler_traced_key {σ : Type} (formatFloat : FloatFormat) (d : IDatabase σ) (s : σ)
    (w : ResponseWriter) (r : Request) (c : UInt8) (key : GoString)
    (hpath : r.Path = c :: key) (hroot : r.Path ≠ utf8 "/") :
    getHandler formatFloat d.traced w r (s, []) =
      match d.Get s key with
      | ((_, some _), s1) => some (http.Error w "error - getting key" 500, (s1, [Op.get key]))
      | ((v, none), s1) =>
        if v = Value.nil then some (w.WriteHeader 404, (s1, [Op.get key]))
        else some (w.Write (encodeValue formatFloat v ++ [0x0A]), (s1, [Op.get key])) := by
  simp only [getHandler, hroot, if_false]
  simp only [hpath, sliceFrom1, IDatabase.traced, List.nil_append, json.Encode]
  rcases hg : d.Get s key with ⟨⟨v, e⟩, s1⟩
  cases e with
  | some e => rfl
  | none =>
    by_cases hv : v = Value.nil
    · simp [hv]
    · simp [hv]

theorem getHandler_traced_root {σ : Type} (formatFloat : FloatFormat) (d : IDatabase σ)
    (s : σ) (w : ResponseWriter) (r : Request) (hroot : r.Path = utf8 "/") :
    getHandler formatFloat d.traced w r (s, []) =
      match d.GetAllKeys s with
      | ((_, some _), s1) =>
        some (http.Error w "error - getting all keys" 500, (s1, [Op.getAllKeys]))
      | ((v, none), s1) =>
        some (w.Write (encodeStrings v ++ [0x0A]), (s1, [Op.getAllKeys])) := by
  simp only [getHandler, hroot, if_true, IDatabase.traced, List.nil_append,
    json.EncodeStrings]
  rcases hg : d.GetAllKeys s with ⟨⟨v, e⟩, s1⟩
  cases e <;> rfl

theorem putHandler_traced {σ : Type} (d : IDatabase σ) (s : σ) (w : ResponseWriter)
    (r : Request) (c : UInt8) (key : GoString) (hpath : r.Path = c :: key) (hkey : key ≠ []) :
    putHandler d.traced w r (s, []) =
      match Decode r.Body with
      | none =>
        match d.Set s key (Value.str r.Body) with
        | (some _, s1) =>
          some (http.Error w "error - putting kv pair" 500,
            (s1, [Op.set key (Value.str r.Body)]))
        | (none, s1) => some (w, (s1, [Op.set key (Value.str r.Body)]))
      | some data =>
        match d.Set s key data with
        | (some _, s1) =>
          some (http.Error w "error - putting json kv pair" 500, (s1, [Op.set key data]))
        | (none, s1) => some (w, (s1, [Op.set key data])) := by
  have hlen : key.length ≠ 0 := by simpa using hkey
  simp only [putHandler, hpath, sliceFrom1, hlen, if_false, StreamToByte, IDatabase.traced,
    List.nil_append]
  cases hd : Decode r.Body with
  | none =>
    simp only []
    rcases hs : d.Set s key (Value.str r.Body) with ⟨e, s1⟩
    cases e <;> rfl
  | some data =>
    simp only []
    rcases hs : d.Set s key data with ⟨e, s1⟩
    cases e <;> rfl

theorem noKey_traced {σ : Type} (d : IDatabase σ) (s : σ) (w : ResponseWriter)
    (r : Request) (c : UInt8) (hpath : r.Path = [c]) (log : List Op) :
    putHandler d.traced w r (s, log) = some (http.Error w "error - no key provided" 400, (s, log)) ∧
    deleteHandler d.traced w r (s, log)
      = some (http.Error w "error - no key provided" 400, (s, log)) := by
  simp [putHandler, deleteHandler, hpath, sliceFrom1]


theorem writeHeader_newRecorder (code : Nat) :
    NewRecorder.WriteHeader code = { wroteHeader := true, Code := code, Body := [] } := by
  simp [ResponseWriter.WriteHeader, NewRecorder]

theorem write_newRecorder (b : GoString) :
    NewRecorder.Write b = { wroteHeader := true, Code := 200, Body := b } := by
  simp [ResponseWriter.Write, ResponseWriter.WriteHeader, NewRecorder]

theorem deleteHandler_traced_log {σ : Type} (d : IDatabase σ) (s : σ) (w : ResponseWriter)
    (r : Request) (c : UInt8) (key : GoString) (hpath : r.Path = c :: key) (hkey : key ≠ []) :
    ∃ (w1 : ResponseWriter) (s1 : σ) (log : List Op),
      deleteHandler d.traced w r (s, []) = some (w1, (s1, log)) ∧
      (log = [Op.get key] ∨ log = [Op.get key, Op.delete key]) := by
  rw [deleteHandler_traced d s w r c key hpath hkey]
  rcases hg : d.Get s key with ⟨⟨v, e⟩, s1⟩
  cases e with
  | some e => exact ⟨_, _, _, rfl, Or.inl rfl⟩
  | none =>
    by_cases hv : v = Value.nil
    · simp only [hv, if_true]
      exact ⟨_, _, _, rfl, Or.inl rfl⟩
    · simp only [hv, if_false]
      rcases hd : d.Delete s1 key with ⟨e2, s2⟩
      cases e2
      · exact ⟨_, _, _, rfl, Or.inr rfl⟩
      · exact ⟨_, _, _, rfl, Or.inr rfl⟩

theorem path_ne_root (c : UInt8) (key : GoString) (hkey : key ≠ []) :
    c :: key ≠ utf8 "/" := by
  intro h
  have h2 : (c :: key).length = (utf8 "/").length := congrArg List.length h
  have h3 : (utf8 "/").length = 1 := by decide
  rw [h3] at h2
  simp at h2
  exact hkey h2

theorem Decode_ne_nil (b : GoString) (v : Value) (h : Decode b = some v) : v ≠ Value.nil := by
  unfold Decode at h
  split at h
  · simp at h
    rw [← h]
    simp
  · simp at h
    rw [← h]
    simp
  · simp at h

/-- A write with a non-empty key on the store of `db.go` with a made mapping: the value
passed to `Set` is stored under the key and the response writer is left as it was. -/
theorem putHandler_store (db : Database) (m : GoMap) (hdb : db.Data = some m)
    (w : ResponseWriter) (r : Request) (c : UInt8) (key : GoString)
    (hpath : r.Path = c :: key) (hkey : key ≠ []) :
    putHandler Database.asIDatabase w r db
      = some (w, { Data := some (m.insert key ((Decode r.Body).getD (Value.str r.Body))) }) := by
  have hlen : key.length ≠ 0 := by simpa using hkey
  simp only [putHandler, hpath, sliceFrom1, hlen, if_false, StreamToByte, Database.asIDatabase]
  cases hd : Decode r.Body with
  | none => simp [set_of_some db m hdb]
  | some data => simp [set_of_some db m hdb]

/-- A read with a non-empty key on the store of `db.go` with a made mapping. -/
theorem getHandler_store (formatFloat : FloatFormat) (db : Database) (m : GoMap)
    (hdb : db.Data = some m) (w : ResponseWriter) (r : Request) (c : UInt8) (key : GoString)
    (hpath : r.Path = c :: key) (hkey : key ≠ []) :
    getHandler formatFloat Database.asIDatabase w r db
      = some (if (m.lookup key).getD Value.nil = Value.nil then w.WriteHeader 404
          else w.Write (encodeValue formatFloat ((m.lookup key).getD Value.nil) ++ [0x0A]),
          db) := by
  have hroot : ¬ (c :: key = utf8 "/") := path_ne_root c key hkey
  simp only [getHandler, hpath, hroot, if_false, sliceFrom1, Database.asIDatabase,
    json.Encode, get_of_some db m hdb]
  split <;> rfl

/-- A delete with a non-empty key on the store of `db.go` with a made mapping. -/
theorem deleteHandler_store (db : Database) (m : GoMap) (hdb : db.Data = some m)
    (w : ResponseWriter) (r : Request) (c : UInt8) (key : GoString)
    (hpath : r.Path = c :: key) (hkey : key ≠ []) :
    deleteHandler Database.asIDatabase w r db
      = some (if (m.lookup key).getD Value.nil = Value.nil then (w.WriteHeader 404, db)
          else (w, { Data := some (m.erase key) })) := by
  have hlen : key.length ≠ 0 := by simpa using hkey
  simp only [deleteHandler, hpath, sliceFrom1, hlen, if_false, Database.asIDatabase,
    get_of_some db m hdb]
  split
  · rfl
  · simp [delete_of_some db m hdb]

/-! ## Reading back what the encoder writes -/

theorem runeLen_le (s : GoString) : runeLen s ≤ s.length := by
  unfold runeLen
  repeat' split
  all_goals simp

theorem runeLen_append (s t : GoString) (h : runeLen s ≠ 0) :
    runeLen (s ++ t) = runeLen s := by
  rcases s with _ | ⟨c, _ | ⟨c1, _ | ⟨c2, _ | ⟨c3, r⟩⟩⟩⟩
  · simp [runeLen] at h
  all_goals
    simp only [runeLen, List.cons_append, List.nil_append] at h ⊢
    try (split_ifs at h ⊢ <;> first | rfl | (exfalso; exact h rfl))

theorem ValidUTF8.append {a b : GoString} (ha : ValidUTF8 a) (hb : ValidUTF8 b) :
    ValidUTF8 (a ++ b) := by
  induction ha with
  | nil => simpa using hb
  | rune s h t ih =>
    refine ValidUTF8.rune (s ++ b) (by rw [runeLen_append s b h]; exact h) ?_
    rw [runeLen_append s b h, List.drop_append_of_le_length (runeLen_le s)]
    exact ih

/-- A sequence that is one well-formed encoding. -/
theorem ValidUTF8.one (s : GoString) (h : runeLen s = s.length) (hs : s ≠ []) :
    ValidUTF8 s := by
  refine ValidUTF8.rune s ?_ ?_
  · rw [h]
    intro h0
    exact hs (List.length_eq_zero.mp h0)
  · rw [h, List.drop_length]
    exact ValidUTF8.nil

theorem runeLen_cases (s : GoString) :
    runeLen s = 0 ∨ runeLen s = 1 ∨ runeLen s = 2 ∨ runeLen s = 3 ∨ runeLen s = 4 := by
  unfold runeLen
  repeat' split
  all_goals simp

theorem runeLen_eq_one (c : UInt8) (t : GoString) :
    runeLen (c :: t) = 1 ↔ c < 0x80 := by
  unfold runeLen
  constructor
  · intro h
    by_contra hc
    simp only [hc, if_false] at h
    repeat' split at h
    all_goals simp at h
  · intro h
    simp [h]

theorem runeLen_eq_two (c : UInt8) (t : GoString) :
    runeLen (c :: t) = 2 ↔
      ¬ c < 0x80 ∧ (0xC2 ≤ c ∧ c ≤ 0xDF) ∧ ∃ c1 r, t = c1 :: r ∧ isCont c1 = true := by
  unfold runeLen
  constructor
  · intro h
    by_cases hc : c < 0x80
    · simp [hc] at h
    · simp only [hc, if_false] at h
      by_cases h2 : 0xC2 ≤ c ∧ c ≤ 0xDF
      · simp only [h2, and_self, if_true] at h
        refine ⟨hc, h2, ?_⟩
        split at h
        · rename_i c1 r
          split at h
          · exact ⟨c1, r, rfl, by assumption⟩
          · simp at h
        · simp at h
      · simp only [h2, if_false] at h
        repeat' split at h
        all_goals simp at h
  · rintro ⟨hc, h2, c1, r, rfl, h1⟩
    simp [hc, h2, h1]


theorem runeLen_eq_three (c : UInt8) (t : GoString) :
    runeLen (c :: t) = 3 ↔
      ¬ c < 0x80 ∧ ¬ (0xC2 ≤ c ∧ c ≤ 0xDF) ∧ (0xE0 ≤ c ∧ c ≤ 0xEF) ∧
      ∃ c1 c2 r, t = c1 :: c2 :: r ∧
        (if c = 0xE0 then 0xA0 ≤ c1 ∧ c1 ≤ 0xBF else if c = 0xED then 0x80 ≤ c1 ∧ c1 ≤ 0x9F
          else isCont c1 = true) ∧ isCont c2 = true := by
  unfold runeLen
  constructor
  · intro h
    by_cases hc : c < 0x80
    · simp [hc] at h
    · simp only [hc, if_false] at h
      by_cases h2 : 0xC2 ≤ c ∧ c ≤ 0xDF
      · simp only [h2, and_self, if_true] at h
        repeat' split at h
        all_goals simp at h
      · simp only [h2, if_false] at h
        by_cases h3 : 0xE0 ≤ c ∧ c ≤ 0xEF
        · simp only [h3, and_self, if_true] at h
          refine ⟨hc, h2, h3, ?_⟩
          split at h
          · rename_i c1 c2 r
            by_cases hcond : (if c = 0xE0 then 0xA0 ≤ c1 ∧ c1 ≤ 0xBF
                else if c = 0xED then 0x80 ≤ c1 ∧ c1 ≤ 0x9F else isCont c1 = true) ∧
                isCont c2 = true
            · exact ⟨c1, c2, r, rfl, hcond⟩
            · rw [if_neg hcond] at h
              simp at h
          · simp at h
        · simp only [h3, if_false] at h
          repeat' split at h
          all_goals simp at h
  · rintro ⟨hc, h2, h3, c1, c2, r, rfl, h1⟩
    simp only [hc, h2, h3, h1, and_self, if_true, if_false]

theorem runeLen_eq_four (c : UInt8) (t : GoString) :
    runeLen (c :: t) = 4 ↔
      ¬ c < 0x80 ∧ ¬ (0xC2 ≤ c ∧ c ≤ 0xDF) ∧ ¬ (0xE0 ≤ c ∧ c ≤ 0xEF) ∧
      (0xF0 ≤ c ∧ c ≤ 0xF4) ∧
      ∃ c1 c2 c3 r, t = c1 :: c2 :: c3 :: r ∧
        (if c = 0xF0 then 0x90 ≤ c1 ∧ c1 ≤ 0xBF else if c = 0xF4 then 0x80 ≤ c1 ∧ c1 ≤ 0x8F
          else isCont c1 = true) ∧ isCont c2 = true ∧ isCont c3 = true := by
  unfold runeLen
  constructor
  · intro h
    by_cases hc : c < 0x80
    · simp [hc] at h
    · simp only [hc, if_false] at h
      by_cases h2 : 0xC2 ≤ c ∧ c ≤ 0xDF
      · simp only [h2, and_self, if_true] at h
        repeat' split at h
        all_goals simp at h
      · simp only [h2, if_false] at h
        by_cases h3 : 0xE0 ≤ c ∧ c ≤ 0xEF
        · simp only [h3, and_self, if_true] at h
          repeat' split at h
          all_goals simp at h
        · simp only [h3, if_false] at h
          by_cases h4 : 0xF0 ≤ c ∧ c ≤ 0xF4
          · simp only [h4, and_self, if_true] at h
            refine ⟨hc, h2, h3, h4, ?_⟩
            split at h
            · rename_i c1 c2 c3 r
              by_cases hcond : (if c = 0xF0 then 0x90 ≤ c1 ∧ c1 ≤ 0xBF
                  else if c = 0xF4 then 0x80 ≤ c1 ∧ c1 ≤ 0x8F else isCont c1 = true) ∧
                  isCont c2 = true ∧ isCont c3 = true
              · exact ⟨c1, c2, c3, r, rfl, hcond⟩
              · rw [if_neg hcond] at h
                simp at h
            · simp at h
          · simp [h4] at h
  · rintro ⟨hc, h2, h3, h4, c1, c2, c3, r, rfl, h1⟩
    simp only [hc, h2, h3, h4, h1, and_self, if_true, if_false]

/-- A well-formed encoding at the head of a sequence stays one whatever follows its
bytes. -/
theorem runeLen_take_append (s x : GoString) (h : runeLen s ≠ 0) :
    runeLen (s.take (runeLen s) ++ x) = runeLen s := by
  cases s with
  | nil => simp [runeLen] at h
  | cons c t =>
    rcases runeLen_cases (c :: t) with h0 | h1 | h1 | h1 | h1
    · exact absurd h0 h
    · rw [h1]
      have hc := (runeLen_eq_one c t).mp h1
      exact (runeLen_eq_one c _).mpr hc
    · rw [h1]
      obtain ⟨hc, h2, c1, r, rfl, hc1⟩ := (runeLen_eq_two c t).mp h1
      exact (runeLen_eq_two c _).mpr ⟨hc, h2, c1, _, rfl, hc1⟩
    · rw [h1]
      obtain ⟨hc, h2, h3, c1, c2, r, rfl, hcond⟩ := (runeLen_eq_three c t).mp h1
      exact (runeLen_eq_three c _).mpr ⟨hc, h2, h3, c1, c2, _, rfl, hcond⟩
    · rw [h1]
      obtain ⟨hc, h2, h3, h4, c1, c2, c3, r, rfl, hcond⟩ := (runeLen_eq_four c t).mp h1
      exact (runeLen_eq_four c _).mpr ⟨hc, h2, h3, h4, c1, c2, c3, _, rfl, hcond⟩

theorem ValidUTF8.take (s : GoString) (h : runeLen s ≠ 0) :
    ValidUTF8 (s.take (runeLen s)) := by
  have hle := runeLen_le s
  have h2 := runeLen_take_append s [] h
  rw [List.append_nil] at h2
  apply ValidUTF8.one
  · rw [h2, List.length_take]
    omega
  · intro h0
    rw [h0] at h2
    simp [runeLen] at h2
    exact h h2.symm

theorem ValidUTF8.ascii (c : UInt8) (h : c < 0x80) : ValidUTF8 [c] :=
  ValidUTF8.one [c] (by simp [runeLen, h]) (by simp)

theorem ValidUTF8.replacement : ValidUTF8 [0xEF, 0xBF, 0xBD] :=
  ValidUTF8.one _ (by decide) (by simp)


theorem lead1_byte : ∀ r, r < 0x80 → r.toUInt8 < 0x80 := by decide

theorem lead2_byte : ∀ q, q < 32 → 2 ≤ q →
    ¬ (0xC0 + q).toUInt8 < 0x80 ∧ (0xC2 ≤ (0xC0 + q).toUInt8 ∧ (0xC0 + q).toUInt8 ≤ 0xDF) := by
  decide

theorem lead3_byte : ∀ q, q < 16 →
    ¬ (0xE0 + q).toUInt8 < 0x80 ∧
    ¬ (0xC2 ≤ (0xE0 + q).toUInt8 ∧ (0xE0 + q).toUInt8 ≤ 0xDF) ∧
    (0xE0 ≤ (0xE0 + q).toUInt8 ∧ (0xE0 + q).toUInt8 ≤ 0xEF) ∧
    ((0xE0 + q).toUInt8 = 0xE0 ↔ q = 0) ∧ ((0xE0 + q).toUInt8 = 0xED ↔ q = 13) := by
  decide

theorem lead4_byte : ∀ q, q < 5 →
    ¬ (0xF0 + q).toUInt8 < 0x80 ∧
    ¬ (0xC2 ≤ (0xF0 + q).toUInt8 ∧ (0xF0 + q).toUInt8 ≤ 0xDF) ∧
    ¬ (0xE0 ≤ (0xF0 + q).toUInt8 ∧ (0xF0 + q).toUInt8 ≤ 0xEF) ∧
    (0xF0 ≤ (0xF0 + q).toUInt8 ∧ (0xF0 + q).toUInt8 ≤ 0xF4) ∧
    ((0xF0 + q).toUInt8 = 0xF0 ↔ q = 0) ∧ ((0xF0 + q).toUInt8 = 0xF4 ↔ q = 4) := by
  decide

theorem cont_byte : ∀ m, m < 64 →
    isCont (0x80 + m).toUInt8 = true ∧
    ((0xA0 ≤ (0x80 + m).toUInt8 ∧ (0x80 + m).toUInt8 ≤ 0xBF) ↔ 32 ≤ m) ∧
    ((0x80 ≤ (0x80 + m).toUInt8 ∧ (0x80 + m).toUInt8 ≤ 0x9F) ↔ m < 32) ∧
    ((0x90 ≤ (0x80 + m).toUInt8 ∧ (0x80 + m).toUInt8 ≤ 0xBF) ↔ 16 ≤ m) ∧
    ((0x80 ≤ (0x80 + m).toUInt8 ∧ (0x80 + m).toUInt8 ≤ 0x8F) ↔ m < 16) := by
  decide

/-- What `utf8.EncodeRune` writes is one well-formed encoding, whatever follows it. -/
theorem runeLen_encodeRune (r : Nat) (x : GoString) :
    runeLen (encodeRune r ++ x) = (encodeRune r).length := by
  unfold encodeRune
  split
  · rename_i h1
    exact (runeLen_eq_one _ _).mpr (lead1_byte r h1)
  · rename_i h1
    split
    · rename_i h2
      have hq := lead2_byte (r / 64) (by omega) (by omega)
      have hm := cont_byte (r % 64) (by omega)
      exact (runeLen_eq_two _ _).mpr ⟨hq.1, hq.2, _, _, rfl, hm.1⟩
    · rename_i h2
      split
      · exact (runeLen_eq_three _ _).mpr
          ⟨by decide, by decide, by decide, _, _, _, rfl, by decide, by decide⟩
      · rename_i h3
        split
        · rename_i h4
          have hq := lead3_byte (r / 4096) (by omega)
          have hm1 := cont_byte (r / 64 % 64) (by omega)
          have hm2 := cont_byte (r % 64) (by omega)
          refine (runeLen_eq_three _ _).mpr ⟨hq.1, hq.2.1, hq.2.2.1, _, _, _, rfl, ?_, hm2.1⟩
          by_cases h0 : r / 4096 = 0
          · rw [if_pos (hq.2.2.2.1.mpr h0)]
            exact hm1.2.1.mpr (by omega)
          · rw [if_neg (fun h => h0 (hq.2.2.2.1.mp h))]
            by_cases h13 : r / 4096 = 13
            · rw [if_pos (hq.2.2.2.2.mpr h13)]
              exact hm1.2.2.1.mpr (by omega)
            · rw [if_neg (fun h => h13 (hq.2.2.2.2.mp h))]
              exact hm1.1
        · rename_i h4
          have hq := lead4_byte (r / 262144) (by omega)
          have hm1 := cont_byte (r / 4096 % 64) (by omega)
          have hm2 := cont_byte (r / 64 % 64) (by omega)
          have hm3 := cont_byte (r % 64) (by omega)
          refine (runeLen_eq_four _ _).mpr
            ⟨hq.1, hq.2.1, hq.2.2.1, hq.2.2.2.1, _, _, _, _, rfl, ?_, hm2.1, hm3.1⟩
          by_cases h0 : r / 262144 = 0
          · rw [if_pos (hq.2.2.2.2.1.mpr h0)]
            exact hm1.2.2.2.1.mpr (by omega)
          · rw [if_neg (fun h => h0 (hq.2.2.2.2.1.mp h))]
            by_cases h4' : r / 262144 = 4
            · rw [if_pos (hq.2.2.2.2.2.mpr h4')]
              exact hm1.2.2.2.2.mpr (by omega)
            · rw [if_neg (fun h => h4' (hq.2.2.2.2.2.mp h))]
              exact hm1.1

theorem encodeRune_ne_nil (r : Nat) : encodeRune r ≠ [] := by
  unfold encodeRune
  repeat' split
  all_goals simp

theorem ValidUTF8.encodeRune (r : Nat) : ValidUTF8 (encodeRune r) := by
  have h := runeLen_encodeRune r []
  rw [List.append_nil] at h
  exact ValidUTF8.one _ h (encodeRune_ne_nil r)

theorem hexVal_hexDigit : ∀ n, n < 16 → hexVal (hexDigit n) = some n := by decide

theorem toNat_lt_256 (c : UInt8) : c.toNat < 256 := c.toBitVec.isLt

theorem toUInt8_toNat (c : UInt8) : c.toNat.toUInt8 = c := by
  apply UInt8.ext
  show (UInt8.ofNat c.toNat).toNat = c.toNat
  exact UInt8.toNat_ofNat_of_lt (toNat_lt_256 c)

theorem lt_iff_toNat (a b : UInt8) : a < b ↔ a.toNat < b.toNat := by
  rw [UInt8.lt_def, BitVec.lt_def]
  rfl

theorem le_iff_toNat (a b : UInt8) : a ≤ b ↔ a.toNat ≤ b.toNat := by
  rw [UInt8.le_def, BitVec.le_def]
  rfl

theorem encodeRune_ascii (c : UInt8) (h : c < 0x80) : encodeRune c.toNat = [c] := by
  have h1 : c.toNat < 128 := (lt_iff_toNat c 0x80).mp h
  unfold encodeRune
  rw [if_pos h1, toUInt8_toNat]


theorem hex4_hexDigit (c : UInt8) (h : c < 0x80) (input : GoString) :
    hex4 (0x30 :: 0x30 :: hexDigit (c.toNat / 16) :: hexDigit (c.toNat % 16) :: input)
      = some (c.toNat, input) := by
  have h1 : c.toNat < 128 := (lt_iff_toNat c 0x80).mp h
  have h0 : hexVal 0x30 = some 0 := by decide
  have hq := hexVal_hexDigit (c.toNat / 16) (by omega)
  have hr := hexVal_hexDigit (c.toNat % 16) (by omega)
  simp only [hex4, h0, hq, hr]
  have : ((0 * 16 + 0) * 16 + c.toNat / 16) * 16 + c.toNat % 16 = c.toNat := by omega
  rw [this]

theorem escapeByte_length (c : UInt8) : 2 ≤ (escapeByte c).length := by
  unfold escapeByte
  split_ifs <;> simp

theorem high_byte (c : UInt8) (h : ¬ c < 0x80) : c ≠ 0x22 ∧ c ≠ 0x5C ∧ ¬ c < 0x20 := by
  refine ⟨?_, ?_, ?_⟩
  · intro he
    rw [he] at h
    exact h (by decide)
  · intro he
    rw [he] at h
    exact h (by decide)
  · intro hlt
    rw [lt_iff_toNat] at h hlt
    have h1 : (0x80 : UInt8).toNat = 128 := rfl
    have h2 : (0x20 : UInt8).toNat = 32 := rfl
    omega

theorem escapeString_nil (fuel : Nat) : escapeString fuel [] = [] := by
  cases fuel <;> rfl

theorem spanDigits_append (ds t : List UInt8) (hds : ∀ c ∈ ds, isDigit c = true)
    (ht : ∀ c t', t = c :: t' → isDigit c = false) : spanDigits (ds ++ t) = (ds, t) := by
  induction ds with
  | nil =>
    cases t with
    | nil => rfl
    | cons c t' =>
      have := ht c t' rfl
      simp [spanDigits, this]
  | cons d ds ih =>
    have hd := hds d (List.mem_cons_self _ _)
    have ih' := ih (fun c hc => hds c (List.mem_cons_of_mem _ hc))
    simp [spanDigits, hd, ih']

theorem spanDigits_spec (s : List UInt8) :
    (∀ c ∈ (spanDigits s).1, isDigit c = true) ∧
    (∀ c t', (spanDigits s).2 = c :: t' → isDigit c = false) := by
  induction s with
  | nil => simp [spanDigits]
  | cons c cs ih =>
    rw [spanDigits]
    by_cases hc : isDigit c = true
    · rw [if_pos hc]
      refine ⟨?_, ih.2⟩
      intro x hx
      rcases List.mem_cons.mp hx with rfl | hx
      · exact hc
      · exact ih.1 x hx
    · rw [if_neg hc]
      refine ⟨by simp, ?_⟩
      intro x t' he
      rw [← (List.cons.inj he).1]
      simpa using hc

theorem intPart_append (s int t : List UInt8) (h : intPart s = some (int, t)) :
    (∃ c r, int = c :: r ∧ isDigit c = true) ∧
    ∀ x : List UInt8, (∀ c t', x = c :: t' → isDigit c = false) →
      intPart (int ++ x) = some (int, x) := by
  unfold intPart at h
  split at h
  · simp at h
  · rename_i c s'
    by_cases h0 : c = 0x30
    · rw [if_pos h0] at h
      simp only [Option.some.injEq, Prod.mk.injEq] at h
      obtain ⟨rfl, rfl⟩ := h
      refine ⟨⟨c, [], rfl, by rw [h0]; decide⟩, ?_⟩
      intro x _
      simp [intPart, h0]
    · rw [if_neg h0] at h
      by_cases hd : isDigit c = true
      · rw [if_pos hd] at h
        simp only [Option.some.injEq, Prod.mk.injEq] at h
        obtain ⟨rfl, rfl⟩ := h
        refine ⟨⟨c, _, rfl, hd⟩, ?_⟩
        intro x hx
        have hsp := spanDigits_append (spanDigits s').1 x (spanDigits_spec s').1 hx
        simp [intPart, h0, hd, hsp]
      · rw [if_neg hd] at h
        simp at h

theorem fracPart_append (s frac t : List UInt8) (h : fracPart s = some (frac, t)) :
    ∀ x : List UInt8, (∀ c t', x = c :: t' → isDigit c = false ∧ c ≠ 0x2E) →
      fracPart ((if frac = [] then [] else 0x2E :: frac) ++ x) = some (frac, x) := by
  intro x hx
  unfold fracPart at h
  split at h
  · rename_i s'
    have hspec := spanDigits_spec s'
    split at h
    · simp at h
    · rename_i ds s1 hne heq
      simp only [Option.some.injEq, Prod.mk.injEq] at h
      obtain ⟨rfl, rfl⟩ := h
      rw [heq] at hspec
      have hne' : ds ≠ [] := hne
      have hsp := spanDigits_append ds x hspec.1 (fun c t' he => (hx c t' he).1)
      rw [if_neg hne']
      cases ds with
      | nil => exact absurd rfl hne'
      | cons d ds' =>
        simp only [List.cons_append] at hsp ⊢
        simp only [fracPart, hsp]
  · rename_i hnd
    simp only [Option.some.injEq, Prod.mk.injEq] at h
    obtain ⟨rfl, rfl⟩ := h
    simp only [if_true, List.nil_append]
    unfold fracPart
    split
    · rename_i s'
      exact absurd rfl (hx 0x2E s' rfl).2
    · rfl


theorem isDigit_ne (c : UInt8) (h : isDigit c = true) :
    c ≠ 0x2B ∧ c ≠ 0x2D ∧ c ≠ 0x2E ∧ c ≠ 0x65 ∧ c ≠ 0x45 ∧ isSpace c = false := by
  refine ⟨?_, ?_, ?_, ?_, ?_, ?_⟩
  · rintro rfl; exact absurd h (by decide)
  · rintro rfl; exact absurd h (by decide)
  · rintro rfl; exact absurd h (by decide)
  · rintro rfl; exact absurd h (by decide)
  · rintro rfl; exact absurd h (by decide)
  · cases hs : isSpace c with
    | false => rfl
    | true =>
      simp only [isSpace, decide_eq_true_eq] at hs
      rcases hs with rfl | rfl | rfl | rfl <;> exact absurd h (by decide)

theorem expDigits_append (s ds s2 x : List UInt8) (h : spanDigits s = (ds, s2))
    (hne : ds ≠ []) (hx : ∀ c t', x = c :: t' → isDigit c = false) :
    spanDigits (ds ++ x) = (ds, x) ∧ ∃ d ds', ds = d :: ds' ∧ isDigit d = true := by
  have hspec := spanDigits_spec s
  rw [h] at hspec
  refine ⟨spanDigits_append ds x hspec.1 hx, ?_⟩
  cases ds with
  | nil => exact absurd rfl hne
  | cons d ds' => exact ⟨d, ds', rfl, hspec.1 d (List.mem_cons_self _ _)⟩

theorem expPart_append (s mark exp t : List UInt8) (neg : Bool)
    (h : expPart s = some (mark, neg, exp, t)) :
    (mark = [] → exp = []) ∧ (∀ c r, mark = c :: r → c = 0x65 ∨ c = 0x45) ∧
    ∀ x : List UInt8, (∀ c t', x = c :: t' → isDigit c = false ∧ c ≠ 0x65 ∧ c ≠ 0x45) →
      expPart (mark ++ exp ++ x) = some (mark, neg, exp, x) := by
  unfold expPart at h
  split at h
  · simp only [Option.some.injEq, Prod.mk.injEq] at h
    obtain ⟨rfl, rfl, rfl, rfl⟩ := h
    refine ⟨fun _ => rfl, by simp, ?_⟩
    intro x hx
    cases x with
    | nil => rfl
    | cons c t' =>
      have := hx c t' rfl
      simp [expPart, this.2.1, this.2.2]
  · rename_i e s'
    by_cases he : e = 0x65 ∨ e = 0x45
    · rw [if_pos he] at h
      split at h
      · rename_i s1
        split at h
        · simp at h
        · rename_i ds s2 hne heq
          simp only [Option.some.injEq, Prod.mk.injEq] at h
          obtain ⟨rfl, rfl, rfl, rfl⟩ := h
          refine ⟨by simp, ?_, ?_⟩
          · intro c r hc
            rw [← (List.cons.inj hc).1]
            exact he
          · intro x hx
            obtain ⟨hsp, d, ds', rfl, hd⟩ :=
              expDigits_append s1 ds s2 x heq hne (fun c t' hc => (hx c t' hc).1)
            simp only [List.cons_append, List.nil_append] at hsp ⊢
            simp only [expPart, he, if_true, hsp]
      · rename_i s1
        split at h
        · simp at h
        · rename_i ds s2 hne heq
          simp only [Option.some.injEq, Prod.mk.injEq] at h
          obtain ⟨rfl, rfl, rfl, rfl⟩ := h
          refine ⟨by simp, ?_, ?_⟩
          · intro c r hc
            rw [← (List.cons.inj hc).1]
            exact he
          · intro x hx
            obtain ⟨hsp, d, ds', rfl, hd⟩ :=
              expDigits_append s1 ds s2 x heq hne (fun c t' hc => (hx c t' hc).1)
            simp only [List.cons_append, List.nil_append] at hsp ⊢
            simp only [expPart, he, if_true, hsp]
      · rename_i s1 hn1 hn2
        split at h
        · simp at h
        · rename_i ds s2 hne heq
          simp only [Option.some.injEq, Prod.mk.injEq] at h
          obtain ⟨rfl, rfl, rfl, rfl⟩ := h
          refine ⟨by simp, ?_, ?_⟩
          · intro c r hc
            rw [← (List.cons.inj hc).1]
            exact he
          · intro x hx
            obtain ⟨hsp, d, ds', rfl, hd⟩ :=
              expDigits_append s' ds s2 x heq hne (fun c t' hc => (hx c t' hc).1)
            obtain ⟨hd1, hd2, _⟩ := isDigit_ne d hd
            simp only [List.cons_append, List.nil_append] at hsp ⊢
            rw [expPart, if_pos he]
            split
            · rename_i heq2
              rw [hsp] at heq2
              simp at heq2
            · rename_i heq2
              rw [hsp] at heq2
              simp only [Prod.mk.injEq] at heq2
              obtain ⟨rfl, rfl⟩ := heq2
              rfl
            · intro s1 hc
              exact hd1 (List.cons.inj hc).1
            · intro s1 hc
              exact hd2 (List.cons.inj hc).1
    · rw [if_neg he] at h
      simp only [Option.some.injEq, Prod.mk.injEq] at h
      obtain ⟨rfl, rfl, rfl, rfl⟩ := h
      refine ⟨fun _ => rfl, by simp, ?_⟩
      intro x hx
      cases x with
      | nil => rfl
      | cons c t' =>
        have := hx c t' rfl
        simp [expPart, this.2.1, this.2.2]

theorem optMinus_append (i A : List UInt8) (c : UInt8) (r : List UInt8) (hA : A = c :: r)
    (hc : isDigit c = true) : optMinus ((optMinus i).1 ++ A) = ((optMinus i).1, A) := by
  obtain ⟨_, hd, _⟩ := isDigit_ne c hc
  subst hA
  unfold optMinus
  split
  · rename_i s heq
    split at heq
    · simp only [List.cons_append, List.nil_append, List.cons.injEq, true_and] at heq
      simp [heq]
    · simp only [List.nil_append, List.cons.injEq] at heq
      exact absurd heq.1 hd
  · rename_i hno
    split
    · exact absurd rfl (hno _)
    · rfl


theorem endsNumber_spec (x : List UInt8) (h : endsNumber x = true) :
    ∀ c t', x = c :: t' → isDigit c = false ∧ c ≠ 0x2E ∧ c ≠ 0x65 ∧ c ≠ 0x45 := by
  intro c t' hc
  subst hc
  simp only [endsNumber, Bool.and_eq_true, Bool.not_eq_true', bne_iff_ne, ne_eq] at h
  exact ⟨h.1.1.1, h.1.1.2, h.1.2, h.2⟩

theorem head_mark (mark exp x : List UInt8) (hm1 : mark = [] → exp = [])
    (hm2 : ∀ c r, mark = c :: r → c = 0x65 ∨ c = 0x45)
    (hx : ∀ c t', x = c :: t' → isDigit c = false ∧ c ≠ 0x2E ∧ c ≠ 0x65 ∧ c ≠ 0x45) :
    ∀ c t', mark ++ exp ++ x = c :: t' → isDigit c = false ∧ c ≠ 0x2E := by
  intro c t' hc
  cases mark with
  | nil =>
    rw [hm1 rfl] at hc
    have := hx c t' hc
    exact ⟨this.1, this.2.1⟩
  | cons m mr =>
    have hm := hm2 m mr rfl
    simp only [List.cons_append, List.cons.injEq] at hc
    rw [← hc.1]
    rcases hm with rfl | rfl <;> exact ⟨by decide, by decide⟩

/-- A number literal read at the head of an input is read again, as the same literal,
when anything that ends a number follows it. -/
theorem parseNumber_append (i lit rest : List UInt8) (over : Bool)
    (h : parseNumber i = some (lit, over, rest)) :
    (∃ c r, lit = c :: r ∧ (c = 0x2D ∨ isDigit c = true)) ∧
    ∀ x : List UInt8, endsNumber x = true → parseNumber (lit ++ x) = some (lit, over, x) := by
  unfold parseNumber at h
  split at h
  · simp at h
  · rename_i int s1 hint
    split at h
    · simp at h
    · rename_i frac s2 hfrac
      split at h
      · simp at h
      · rename_i mark neg exp s3 hexp
        simp only [Option.some.injEq, Prod.mk.injEq] at h
        obtain ⟨rfl, rfl, rfl⟩ := h
        obtain ⟨⟨c, r, hintc, hc⟩, hI⟩ := intPart_append _ _ _ hint
        obtain ⟨hm1, hm2, hE⟩ := expPart_append _ _ _ _ _ hexp
        have hF := fracPart_append _ _ _ hfrac
        constructor
        · subst hintc
          unfold optMinus
          split
          · exact ⟨0x2D, _, rfl, Or.inl rfl⟩
          · exact ⟨c, _, rfl, Or.inr hc⟩
        · intro x hx
          have hxs := endsNumber_spec x hx
          have hhead := head_mark mark exp x hm1 hm2 hxs
          have h3 := hE x (fun c t' hc => ⟨(hxs c t' hc).1, (hxs c t' hc).2.2⟩)
          have h2 := hF (mark ++ exp ++ x) hhead
          have h1 := hI ((if frac = [] then [] else 0x2E :: frac) ++ (mark ++ exp ++ x))
            (by
              intro c' t' hc'
              by_cases hf : frac = []
              · rw [if_pos hf, List.nil_append] at hc'
                exact (hhead c' t' hc').1
              · rw [if_neg hf] at hc'
                simp only [List.cons_append, List.cons.injEq] at hc'
                rw [← hc'.1]
                decide)
          have h0 := optMinus_append i
            (int ++ ((if frac = [] then [] else 0x2E :: frac) ++ (mark ++ exp ++ x))) c
            (r ++ ((if frac = [] then [] else 0x2E :: frac) ++ (mark ++ exp ++ x)))
            (by rw [hintc]; rfl) hc
          have hre : ((optMinus i).1 ++ int ++ (if frac = [] then [] else 0x2E :: frac)
                ++ mark ++ exp) ++ x
              = (optMinus i).1
                ++ (int ++ ((if frac = [] then [] else 0x2E :: frac) ++ (mark ++ exp ++ x))) := by
            simp only [List.append_assoc]
          rw [hre]
          unfold parseNumber
          simp only [h0, h1, h2, h3]

/-- Whatever the decoder reads under the limits of the library, the grammar alone reads
the same way. -/
theorem parse_limits (fuel : Nat) :
    (∀ (d : Nat) (i : List UInt8) (x : Value × List UInt8),
      parseValue true fuel d i = some x → parseValue false fuel d i = some x) ∧
    (∀ (d : Nat) (i : List UInt8) (acc : List (GoString × Value))
      (x : List (GoString × Value) × List UInt8),
      parseMembers true fuel d i acc = some x → parseMembers false fuel d i acc = some x) ∧
    (∀ (d : Nat) (i : List UInt8) (acc : List Value) (x : List Value × List UInt8),
      parseElems true fuel d i acc = some x → parseElems false fuel d i acc = some x) := by
  induction fuel with
  | zero => simp [parseValue, parseMembers, parseElems]
  | succ fuel ih =>
    obtain ⟨ihV, ihM, ihE⟩ := ih
    refine ⟨?_, ?_, ?_⟩
    · intro d i x
      rw [parseValue, parseValue]
      split
      · exact id
      · rename_i c t hs
        split
        · intro h
          split at h
          · simp at h
          · rw [if_neg (by simp)]
            split at h
            · exact h
            · rename_i hne
              split at h
              · rename_i m r1 hm
                have hm' := ihM _ _ _ _ hm
                simp only [hm']
                exact h
              · simp at h
        · split
          · intro h
            split at h
            · simp at h
            · rw [if_neg (by simp)]
              split at h
              · exact h
              · rename_i hne
                split at h
                · rename_i m r1 hm
                  have hm' := ihE _ _ _ _ hm
                  simp only [hm']
                  exact h
                · simp at h
          · split
            · exact id
            · split
              · intro h
                split at h
                · split at h
                  · simp at h
                  · simp only [Bool.false_eq_true, false_and, if_false]
                    exact h
                · simp at h
              · exact id
    · intro d i acc x h
      rw [parseMembers] at h ⊢
      split at h
      · split at h
        · simp at h
        · split at h
          · split at h
            · simp at h
            · rename_i v r3 hv
              rw [ihV _ _ _ hv]
              split at h
              · rename_i r4 hs4
                simp only [hs4]
                exact ihM _ _ _ _ h
              · rename_i r4 hs4
                simp only [hs4]
                exact h
              · simp at h
          · simp at h
      · simp at h
    · intro d i acc x h
      rw [parseElems] at h ⊢
      split at h
      · simp at h
      · rename_i v r hv
        rw [ihV _ _ _ hv]
        split at h
        · rename_i r1 hs1
          simp only [hs1]
          exact ihE _ _ _ _ h
        · rename_i r1 hs1
          simp only [hs1]
          exact h
        · simp at h

theorem simpleEscape_ascii (e b : UInt8) (h : simpleEscape e = some b) : b < 0x80 := by
  unfold simpleEscape at h
  repeat' split at h
  all_goals try (simp only [Option.some.injEq] at h; rw [← h]; decide)
  all_goals simp at h

theorem parseString_valid (fuel : Nat) : ∀ (i acc s rest : List UInt8),
    parseString fuel i acc = some (s, rest) → ValidUTF8 acc → ValidUTF8 s := by
  induction fuel with
  | zero =>
    intro i acc s rest h
    simp [parseString] at h
  | succ fuel ih =>
    intro i acc s rest h hacc
    cases i with
    | nil => simp [parseString] at h
    | cons c t =>
      simp only [parseString] at h
      repeat' split at h
      all_goals try (simp at h; done)
      all_goals try (simp only [Option.some.injEq, Prod.mk.injEq] at h; rw [← h.1]; exact hacc)
      all_goals apply ih _ _ _ _ h
      all_goals apply ValidUTF8.append hacc
      all_goals first
        | exact ValidUTF8.encodeRune _
        | exact ValidUTF8.replacement
        | exact ValidUTF8.ascii _ (simpleEscape_ascii _ _ (by assumption))
        | exact ValidUTF8.ascii _ (by assumption)
        | exact ValidUTF8.take _ (by assumption)


theorem mapStore_mem (m : List (GoString × Value)) (k : GoString) (v : Value) :
    ∀ p ∈ mapStore m k v, p = (k, v) ∨ p ∈ m := by
  induction m with
  | nil =>
    intro p hp
    simp only [mapStore, List.mem_singleton] at hp
    exact Or.inl hp
  | cons q m ih =>
    intro p hp
    obtain ⟨k0, x0⟩ := q
    simp only [mapStore] at hp
    split at hp
    · rcases List.mem_cons.mp hp with h | h
      · exact Or.inl h
      · exact Or.inr (List.mem_cons_of_mem _ h)
    · rcases List.mem_cons.mp hp with h | h
      · exact Or.inr (h ▸ List.mem_cons_self _ _)
      · rcases ih p h with h | h
        · exact Or.inl h
        · exact Or.inr (List.mem_cons_of_mem _ h)

theorem mapStore_nodup (m : List (GoString × Value)) (k : GoString) (v : Value)
    (h : (m.map Prod.fst).Nodup) : ((mapStore m k v).map Prod.fst).Nodup := by
  induction m with
  | nil => simp [mapStore]
  | cons q m ih =>
    obtain ⟨k0, x0⟩ := q
    simp only [List.map_cons, List.nodup_cons] at h
    simp only [mapStore]
    split
    · rename_i hk
      simp only [List.map_cons, List.nodup_cons]
      rw [← hk]
      exact h
    · rename_i hk
      simp only [List.map_cons, List.nodup_cons]
      refine ⟨?_, ih h.2⟩
      intro hmem
      obtain ⟨p, hp, hpk⟩ := List.mem_map.mp hmem
      rcases mapStore_mem m k v p hp with hp | hp
      · rw [hp] at hpk
        exact hk hpk.symm
      · exact h.1 (List.mem_map.mpr ⟨p, hp, hpk⟩)

theorem mapStore_clean (m : List (GoString × Value)) (k : GoString) (v : Value)
    (hm : Clean (Value.map m)) (hk : ValidUTF8 k) (hv : Clean v) :
    Clean (Value.map (mapStore m k v)) := by
  cases hm with
  | map _ hn hks hvs =>
    refine Clean.map _ (mapStore_nodup m k v hn) ?_ ?_
    · intro p hp
      rcases mapStore_mem m k v p hp with h | h
      · rw [h]
        exact hk
      · exact hks p h
    · intro p hp
      rcases mapStore_mem m k v p hp with h | h
      · rw [h]
        exact hv
      · exact hvs p h

theorem arr_clean (acc : List Value) (v : Value) (ha : Clean (Value.arr acc)) (hv : Clean v) :
    Clean (Value.arr (acc ++ [v])) := by
  cases ha with
  | arr _ h =>
    refine Clean.arr _ ?_
    intro x hx
    rcases List.mem_append.mp hx with hx | hx
    · exact h x hx
    · rw [List.mem_singleton.mp hx]
      exact hv

/-- Every value the decoder reads under the limits of the library is clean. -/
theorem parse_clean (fuel : Nat) :
    (∀ (d : Nat) (i : List UInt8) (v : Value) (rest : List UInt8),
      parseValue true fuel d i = some (v, rest) → Clean v) ∧
    (∀ (d : Nat) (i : List UInt8) (acc m : List (GoString × Value)) (rest : List UInt8),
      parseMembers true fuel d i acc = some (m, rest) → Clean (Value.map acc) →
        Clean (Value.map m)) ∧
    (∀ (d : Nat) (i : List UInt8) (acc xs : List Value) (rest : List UInt8),
      parseElems true fuel d i acc = some (xs, rest) → Clean (Value.arr acc) →
        Clean (Value.arr xs)) := by
  induction fuel with
  | zero => simp [parseValue, parseMembers, parseElems]
  | succ fuel ih =>
    obtain ⟨ihV, ihM, ihE⟩ := ih
    have hmap0 : Clean (Value.map []) := Clean.map _ (by simp) (by simp) (by simp)
    have harr0 : Clean (Value.arr []) := Clean.arr _ (by simp)
    refine ⟨?_, ?_, ?_⟩
    · intro d i v rest h
      rw [parseValue] at h
      split at h
      · simp at h
      · rename_i c t hs
        split at h
        · split at h
          · simp at h
          · split at h
            · simp only [Option.some.injEq, Prod.mk.injEq] at h
              rw [← h.1]
              exact hmap0
            · split at h
              · rename_i m r1 hm
                simp only [Option.some.injEq, Prod.mk.injEq] at h
                rw [← h.1]
                exact ihM _ _ _ _ _ hm hmap0
              · simp at h
        · split at h
          · split at h
            · simp at h
            · split at h
              · simp only [Option.some.injEq, Prod.mk.injEq] at h
                rw [← h.1]
                exact harr0
              · split at h
                · rename_i xs r1 hm
                  simp only [Option.some.injEq, Prod.mk.injEq] at h
                  rw [← h.1]
                  exact ihE _ _ _ _ _ hm harr0
                · simp at h
          · split at h
            · split at h
              · rename_i sv r1 hm
                simp only [Option.some.injEq, Prod.mk.injEq] at h
                rw [← h.1]
                exact Clean.str _ (parseString_valid _ _ _ _ _ hm ValidUTF8.nil)
              · simp at h
            · split at h
              · split at h
                · rename_i lit over r1 hm
                  split at h
                  · simp at h
                  · rename_i hover
                    simp only [Option.some.injEq, Prod.mk.injEq] at h
                    rw [← h.1]
                    have hn := (parseNumber_append _ _ _ _ hm).2 [] rfl
                    rw [List.append_nil] at hn
                    have hov : over = false := by simpa using hover
                    rw [hov] at hn
                    exact Clean.num _ hn
                · simp at h
              · split at h
                · rw [literal_value _ _ _ _ _ h]
                  exact Clean.bool _
                · split at h
                  · rw [literal_value _ _ _ _ _ h]
                    exact Clean.bool _
                  · split at h
                    · rw [literal_value _ _ _ _ _ h]
                      exact Clean.nil
                    · simp at h
    · intro d i acc m rest h hacc
      rw [parseMembers] at h
      split at h
      · split at h
        · simp at h
        · rename_i key r1 hk
          have hkey := parseString_valid _ _ _ _ _ hk ValidUTF8.nil
          split at h
          · split at h
            · simp at h
            · rename_i v r3 hv
              have hcv := ihV _ _ _ _ hv
              have hst := mapStore_clean acc key v hacc hkey hcv
              split at h
              · exact ihM _ _ _ _ _ h hst
              · simp only [Option.some.injEq, Prod.mk.injEq] at h
                rw [← h.1]
                exact hst
              · simp at h
          · simp at h
      · simp at h
    · intro d i acc xs rest h hacc
      rw [parseElems] at h
      split at h
      · simp at h
      · rename_i v r hv
        have hcv := ihV _ _ _ _ hv
        have hst := arr_clean acc v hacc hcv
        split at h
        · exact ihE _ _ _ _ _ h hst
        · simp only [Option.some.injEq, Prod.mk.injEq] at h
          rw [← h.1]
          exact hst
        · simp at h

theorem skipSpace_cons (c : UInt8) (t : List UInt8) (h : isSpace c = false) :
    skipSpace (c :: t) = c :: t := by
  simp [skipSpace, h]

theorem intercalate_one (sep a : List UInt8) : sep.intercalate [a] = a := by
  simp [List.intercalate]

theorem intercalate_two (sep a b : List UInt8) (l : List (List UInt8)) :
    sep.intercalate (a :: b :: l) = a ++ sep ++ sep.intercalate (b :: l) := by
  simp [List.intercalate]

theorem sortMembers_eq (l : List (GoString × GoString)) : sortMembers l = sortByKey l := by
  have hins : ∀ (p : GoString × GoString) (q : List (GoString × GoString)),
      insertMember p q = insertByKey p q := by
    intro p q
    induction q with
    | nil => rfl
    | cons a q ih => simp only [insertMember, insertByKey, ih]
  induction l with
  | nil => rfl
  | cons p l ih => simp only [sortMembers, sortByKey, ih, hins]

theorem insertByKey_map {α β : Type} (g : α → β) (p : GoString × α)
    (l : List (GoString × α)) :
    insertByKey (p.1, g p.2) (l.map (fun q => (q.1, g q.2)))
      = (insertByKey p l).map (fun q => (q.1, g q.2)) := by
  induction l with
  | nil => rfl
  | cons a l ih =>
    simp only [List.map_cons, insertByKey]
    split
    · rfl
    · rw [ih]
      rfl

theorem sortByKey_map {α β : Type} (g : α → β) (l : List (GoString × α)) :
    sortByKey (l.map (fun q => (q.1, g q.2))) = (sortByKey l).map (fun q => (q.1, g q.2)) := by
  induction l with
  | nil => rfl
  | cons a l ih =>
    simp only [List.map_cons, sortByKey, ih]
    exact insertByKey_map g a (sortByKey l)

theorem encodeMembers_eq_map (ff : FloatFormat) (m : List (GoString × Value)) :
    encodeMembers ff m = m.map (fun q => (q.1, encodeValue ff q.2)) := by
  induction m with
  | nil => rfl
  | cons a m ih =>
    obtain ⟨k, x⟩ := a
    simp only [encodeMembers, List.map_cons, ih]

theorem canonMembers_eq_map (ff : FloatFormat) (m : List (GoString × Value)) :
    canonMembers ff m = m.map (fun q => (q.1, canon ff q.2)) := by
  induction m with
  | nil => rfl
  | cons a m ih =>
    obtain ⟨k, x⟩ := a
    simp only [canonMembers, List.map_cons, ih]

theorem canonElems_eq_map (ff : FloatFormat) (xs : List Value) :
    canonElems ff xs = xs.map (canon ff) := by
  induction xs with
  | nil => rfl
  | cons a m ih => simp only [canonElems, List.map_cons, ih]

theorem insertByKey_perm {α : Type} (p : GoString × α) (l : List (GoString × α)) :
    (insertByKey p l).Perm (p :: l) := by
  induction l with
  | nil => exact List.Perm.refl _
  | cons a l ih =>
    simp only [insertByKey]
    split
    · exact List.Perm.refl _
    · exact (List.Perm.cons a ih).trans (List.Perm.swap p a l)

theorem sortByKey_perm {α : Type} (l : List (GoString × α)) : (sortByKey l).Perm l := by
  induction l with
  | nil => exact List.Perm.refl _
  | cons a l ih =>
    simp only [sortByKey]
    exact (insertByKey_perm a (sortByKey l)).trans (List.Perm.cons a ih)

theorem mapStore_new (acc : List (GoString × Value)) (k : GoString) (v : Value)
    (h : k ∉ acc.map Prod.fst) : mapStore acc k v = acc ++ [(k, v)] := by
  induction acc with
  | nil => rfl
  | cons a acc ih =>
    obtain ⟨k0, x0⟩ := a
    simp only [List.map_cons, List.mem_cons, not_or] at h
    simp only [mapStore, List.cons_append]
    rw [if_neg (fun he => h.1 he.symm), ih h.2]

theorem elems_head (ff : FloatFormat) (x : Value) (xs : List Value) (rest : List UInt8) :
    ∃ tail, [0x2C].intercalate (encodeElems ff (x :: xs)) ++ 0x5D :: rest
        = encodeValue ff x ++ tail ∧ endsNumber tail = true := by
  cases xs with
  | nil => exact ⟨0x5D :: rest, by simp [encodeElems, intercalate_one], rfl⟩
  | cons y ys =>
    exact ⟨0x2C :: ([0x2C].intercalate (encodeElems ff (y :: ys)) ++ 0x5D :: rest),
      by simp [encodeElems, intercalate_two], rfl⟩

theorem members_head (ff : FloatFormat) (q : GoString × Value) (m : List (GoString × Value))
    (rest : List UInt8) :
    ∃ tail, [0x2C].intercalate ((encodeMembers ff (q :: m)).map
        (fun p : GoString × GoString => appendString p.1 ++ [0x3A] ++ p.2)) ++ 0x7D :: rest
      = 0x22 :: tail := by
  obtain ⟨k, x⟩ := q
  cases m with
  | nil => exact ⟨_, by simp [encodeMembers, intercalate_one, appendString]; rfl⟩
  | cons y ys =>
    obtain ⟨k2, x2⟩ := y
    exact ⟨_, by simp [encodeMembers, intercalate_two, appendString]; rfl⟩

theorem keyLE_total (a b : GoString) (h : keyLE a b = false) : keyLE b a = true := by
  induction a generalizing b with
  | nil => simp [keyLE] at h
  | cons x a ih =>
    cases b with
    | nil => rfl
    | cons y b =>
      simp only [keyLE] at h ⊢
      by_cases h1 : x < y
      · rw [if_pos h1] at h
        simp at h
      · rw [if_neg h1] at h
        by_cases h2 : y < x
        · rw [if_pos h2]
        · rw [if_neg h2] at h ⊢
          rw [if_neg h1]
          exact ih b h

theorem insertByKey_sorted {α : Type} (p : GoString × α) (l : List (GoString × α))
    (h : l.Chain' (fun a b => keyLE a.1 b.1 = true)) :
    (insertByKey p l).Chain' (fun a b => keyLE a.1 b.1 = true) := by
  induction l with
  | nil => simp [insertByKey]
  | cons q l ih =>
    simp only [insertByKey]
    by_cases hle : keyLE p.1 q.1 = true
    · rw [if_pos hle]
      exact List.Chain'.cons hle h
    · rw [if_neg hle]
      have hqp : keyLE q.1 p.1 = true := keyLE_total _ _ (by simpa using hle)
      have ih' := ih h.tail
      cases l with
      | nil =>
        simp only [insertByKey]
        exact List.Chain'.cons hqp (List.chain'_singleton _)
      | cons r l =>
        simp only [insertByKey] at ih' ⊢
        have hqr : keyLE q.1 r.1 = true := (List.chain'_cons.mp h).1
        split
        · rename_i hpr
          rw [if_pos hpr] at ih'
          exact List.Chain'.cons hqp ih'
        · rename_i hpr
          rw [if_neg hpr] at ih'
          exact List.Chain'.cons hqr ih'

theorem sortByKey_sorted {α : Type} (l : List (GoString × α)) :
    (sortByKey l).Chain' (fun a b => keyLE a.1 b.1 = true) := by
  induction l with
  | nil => simp [sortByKey]
  | cons p l ih => exact insertByKey_sorted p _ ih

theorem sortByKey_of_sorted {α : Type} (l : List (GoString × α))
    (h : l.Chain' (fun a b => keyLE a.1 b.1 = true)) : sortByKey l = l := by
  induction l with
  | nil => rfl
  | cons p l ih =>
    simp only [sortByKey]
    rw [ih h.tail]
    cases l with
    | nil => rfl
    | cons q l =>
      simp only [insertByKey]
      rw [if_pos (List.chain'_cons.mp h).1]

theorem sortByKey_idem {α : Type} (l : List (GoString × α)) :
    sortByKey (sortByKey l) = sortByKey l :=
  sortByKey_of_sorted _ (sortByKey_sorted l)

/-- A body that is a JSON object and that the decoder accepts: the decoder and the grammar
read the same object from it, the object is clean and only white space follows it. -/
theorem decode_object (b : GoString) (v : Value) (hobj : jsonObjectText b = true)
    (hdec : Decode b = some v) :
    ∃ mv r, v = Value.map mv ∧
      parseValue false (2 * b.length + 2) 0 b = some (Value.map mv, r) ∧
      skipSpace r = [] ∧ Clean (Value.map mv) := by
  unfold Decode at hdec
  split at hdec
  · rename_i mv r hp
    have hf := (parse_limits _).1 _ _ _ hp
    have hc := (parse_clean _).1 _ _ _ _ hp
    unfold jsonObjectText at hobj
    rw [hf] at hobj
    simp only [decide_eq_true_eq] at hobj
    exact ⟨mv, r, (Option.some.inj hdec).symm, hf, hobj, hc⟩
  · rename_i r hp
    have hf := (parse_limits _).1 _ _ _ hp
    unfold jsonObjectText at hobj
    rw [hf] at hobj
    simp at hobj
  · simp at hdec

/-- A read leaves the store of `db.go` as it was, whatever the path. -/
theorem getHandler_state (formatFloat : FloatFormat) (w : ResponseWriter) (r : Request)
    (db : Database) (x : ResponseWriter × Database)
    (h : getHandler formatFloat Database.asIDatabase w r db = some x) : x.2 = db := by
  have hg : ∀ key, (db.Get key).2 = db := by
    intro key
    unfold Database.Get
    split <;> rfl
  have ha : db.GetAllKeys.2 = db := by
    unfold Database.GetAllKeys
    split <;> rfl
  unfold getHandler at h
  split at h
  · simp only [Database.asIDatabase] at h
    rcases hk : db.GetAllKeys with ⟨⟨v, e⟩, s1⟩
    rw [hk] at h ha
    simp only at ha
    cases e <;> simp [json.EncodeStrings] at h <;> rw [← h] <;> exact ha
  · split at h
    · simp at h
    · rename_i key _
      simp only [Database.asIDatabase] at h
      have hgk := hg key
      rcases hk : db.Get key with ⟨⟨v, e⟩, s1⟩
      rw [hk] at h hgk
      simp only at hgk
      cases e
      · simp only [json.Encode] at h
        split at h <;> simp at h <;> rw [← h] <;> exact hgk
      · simp at h
        rw [← h]
        exact hgk

/-- The store a request leaves holds no nil interface and nothing under the empty key
when the store it found did not: a write needs a non-empty key and stores the body as a
string or what the decoder returned, neither of which is the nil interface; a delete
removes an entry; every other request leaves the store as it was. -/
theorem serve_no_nil (formatFloat : FloatFormat) (db : Database) (m : GoMap)
    (hdb : db.Data = some m) (hm : ∀ k, m.lookup k ≠ some Value.nil)
    (he : m.lookup [] = none) (r : Request) :
    ∃ m1, (serve formatFloat db r).Data = some m1 ∧ (∀ k, m1.lookup k ≠ some Value.nil) ∧
      m1.lookup [] = none := by
  have hsame : ∃ m1, db.Data = some m1 ∧ (∀ k, m1.lookup k ≠ some Value.nil) ∧
      m1.lookup [] = none := ⟨m, hdb, hm, he⟩
  unfold serve
  cases hr : IndexHandler formatFloat Database.asIDatabase NewRecorder r db with
  | none => exact hsame
  | some x =>
    obtain ⟨w1, db1⟩ := x
    simp only
    unfold IndexHandler at hr
    split at hr
    · have := getHandler_state formatFloat _ _ _ _ hr
      simp only at this
      rw [this]
      exact hsame
    · split at hr
      · cases hp : r.Path with
        | nil => simp [putHandler, hp, sliceFrom1] at hr
        | cons c key =>
          by_cases hkey : key = []
          · simp [putHandler, hp, sliceFrom1, hkey] at hr
            rw [← hr.2]
            exact hsame
          · rw [putHandler_store db m hdb NewRecorder r c key hp hkey] at hr
            simp only [Option.some.injEq, Prod.mk.injEq] at hr
            rw [← hr.2]
            refine ⟨_, rfl, ?_, ?_⟩
            swap
            · rw [AList.lookup_insert_ne (fun h => hkey h.symm)]
              exact he
            have hv : (Decode r.Body).getD (Value.str r.Body) ≠ Value.nil := by
              cases hd : Decode r.Body with
              | none => simp
              | some data => simpa using Decode_ne_nil r.Body data hd
            intro k
            by_cases hkk : k = key
            · rw [hkk, AList.lookup_insert]
              intro he
              exact hv (Option.some.inj he)
            · rw [AList.lookup_insert_ne hkk]
              exact hm k
      · split at hr
        · cases hp : r.Path with
          | nil => simp [deleteHandler, hp, sliceFrom1] at hr
          | cons c key =>
            by_cases hkey : key = []
            · simp [deleteHandler, hp, sliceFrom1, hkey] at hr
              rw [← hr.2]
              exact hsame
            · rw [deleteHandler_store db m hdb NewRecorder r c key hp hkey] at hr
              simp only [Option.some.injEq] at hr
              split at hr
              · simp only [Prod.mk.injEq] at hr
                rw [← hr.2]
                exact hsame
              · simp only [Prod.mk.injEq] at hr
                rw [← hr.2]
                refine ⟨_, rfl, ?_, ?_⟩
                swap
                · rw [AList.lookup_erase_ne (fun h => hkey h.symm)]
                  exact he
                intro k
                by_cases hkk : k = key
                · rw [hkk, AList.lookup_erase]
                  simp
                · rw [AList.lookup_erase_ne hkk]
                  exact hm k
        · simp only [Option.some.injEq, Prod.mk.injEq] at hr
          rw [← hr.2]
          exact hsame

theorem serveAll_no_nil (formatFloat : FloatFormat) (rs : List Request) :
    ∀ (db : Database) (m : GoMap), db.Data = some m → (∀ k, m.lookup k ≠ some Value.nil) →
      m.lookup [] = none →
      ∃ m1, (serveAll formatFloat db rs).Data = some m1 ∧
        (∀ k, m1.lookup k ≠ some Value.nil) ∧ m1.lookup [] = none := by
  induction rs with
  | nil => exact fun db m hdb hm he => ⟨m, hdb, hm, he⟩
  | cons r rs ih =>
    intro db m hdb hm he
    obtain ⟨m1, h1, h2, h3⟩ := serve_no_nil formatFloat db m hdb hm he r
    exact ih _ m1 h1 h2 h3

theorem lookup_getD_nil_iff (m : GoMap) (hm : ∀ k, m.lookup k ≠ some Value.nil)
    (k : GoString) : (m.lookup k).getD Value.nil = Value.nil ↔ k ∉ m.keys := by
  rw [← AList.mem_keys, ← AList.lookup_eq_none]
  cases hl : m.lookup k with
  | none => simp
  | some v =>
    simp only [Option.getD_some]
    constructor
    · intro hv
      rw [hv] at hl
      exact absurd hl (hm k)
    · intro h
      simp at h

/-! ## JSON-equal texts: the strict reader on what the encoder writes -/

/-- What the strict reader reads from a string literal, the decoder reads as well. -/
theorem parseStringS_lenient (fuel : Nat) : ∀ (i acc : List UInt8) (r : GoString × List UInt8),
    parseStringS fuel i acc = some r → parseString fuel i acc = some r := by
  induction fuel with
  | zero => intro i acc r h; simp [parseStringS] at h
  | succ fuel ih =>
    intro i acc r h
    cases i with
    | nil => simp [parseStringS] at h
    | cons c t =>
      simp only [parseStringS] at h
      simp only [parseString]
      repeat' split at h
      all_goals try (simp at h; done)
      all_goals simp only [*, if_true, if_false, and_self, not_false_eq_true, true_and]
      all_goals try (exact ih _ _ _ h)

/-- What the strict reader reads, the grammar of the decoder reads as well. -/
theorem parseS_lenient (fuel : Nat) :
    (∀ (d : Nat) (i : List UInt8) (r : Value × List UInt8),
      parseValueS fuel i = some r → parseValue false fuel d i = some r) ∧
    (∀ (d : Nat) (i : List UInt8) (acc : List (GoString × Value))
        (r : List (GoString × Value) × List UInt8),
      parseMembersS fuel i acc = some r → parseMembers false fuel d i acc = some r) ∧
    (∀ (d : Nat) (i : List UInt8) (acc : List Value) (r : List Value × List UInt8),
      parseElemsS fuel i acc = some r → parseElems false fuel d i acc = some r) := by
  induction fuel with
  | zero => simp [parseValueS, parseMembersS, parseElemsS]
  | succ fuel ih =>
    obtain ⟨ihV, ihM, ihE⟩ := ih
    refine ⟨?_, ?_, ?_⟩
    · intro d i r h
      rw [parseValueS] at h
      rw [parseValue]
      split at h
      · simp at h
      · rename_i c t hs
        simp only [Bool.false_eq_true, false_and, if_false]
        split at h
        · rename_i hc
          rw [if_pos hc]
          split at h
          · exact h
          · split at h
            · rename_i m r1 hm
              rw [ihM _ _ _ _ hm]
              exact h
            · simp at h
        · rename_i hc
          rw [if_neg hc]
          split at h
          · rename_i hc2
            rw [if_pos hc2]
            split at h
            · exact h
            · split at h
              · rename_i xs r1 hm
                rw [ihE _ _ _ _ hm]
                exact h
              · simp at h
          · rename_i hc2
            rw [if_neg hc2]
            split at h
            · rename_i hc3
              rw [if_pos hc3]
              split at h
              · rename_i s r1 hm
                rw [parseStringS_lenient _ _ _ _ hm]
                exact h
              · simp at h
            · rename_i hc3
              rw [if_neg hc3]
              split at h
              · rename_i hc4
                rw [if_pos hc4]
                split at h
                · rename_i lit over r1 hm
                  exact h
                · simp at h
              · rename_i hc4
                rw [if_neg hc4]
                exact h
    · intro d i acc r h
      rw [parseMembersS] at h
      rw [parseMembers]
      split at h
      · rename_i t hs
        split at h
        · simp at h
        · rename_i key r1 hk
          rw [parseStringS_lenient _ _ _ _ hk]
          split at h
          · simp at h
          · rename_i hnew
            simp only []
            split at h
            · rename_i r2 hs2
              split at h
              · simp at h
              · rename_i v r3 hv
                rw [ihV _ _ _ hv]
                simp only []
                rw [mapStore_new acc key v hnew]
                split at h
                · exact ihM _ _ _ _ h
                · exact h
                · simp at h
            · simp at h
      · simp at h
    · intro d i acc r h
      rw [parseElemsS] at h
      rw [parseElems]
      split at h
      · simp at h
      · rename_i v r1 hv
        rw [ihV _ _ _ hv]
        simp only []
        split at h
        · exact ihE _ _ _ _ h
        · exact h
        · simp at h

theorem parseStringS_fuel (fuel : Nat) : ∀ (fuel' : Nat) (i acc : List UInt8),
    i.length + 1 ≤ fuel → fuel ≤ fuel' →
      parseStringS fuel i acc = parseStringS fuel' i acc := by
  induction fuel with
  | zero => intro fuel' i acc h; omega
  | succ fuel ih =>
    intro fuel' i acc h hf
    obtain ⟨f', rfl⟩ : ∃ f', fuel' = f' + 1 := ⟨fuel' - 1, by omega⟩
    cases i with
    | nil => simp [parseStringS]
    | cons c t =>
      simp only [parseStringS]
      repeat' split
      all_goals try rfl
      all_goals try (have h2 := hex4_length _ _ _ (by assumption))
      all_goals try (have h3 := getu4_length _ _ _ (by assumption))
      all_goals apply ih
      all_goals try (simp only [List.length_drop])
      all_goals try (simp only [List.length_cons] at *)
      all_goals omega

theorem parseS_fuel (fuel : Nat) :
    (∀ (fuel' : Nat) (i : List UInt8), 2 * i.length + 2 ≤ fuel → fuel ≤ fuel' →
      parseValueS fuel i = parseValueS fuel' i) ∧
    (∀ (fuel' : Nat) (i : List UInt8) (acc : List (GoString × Value)),
      2 * i.length + 3 ≤ fuel → fuel ≤ fuel' →
      parseMembersS fuel i acc = parseMembersS fuel' i acc) ∧
    (∀ (fuel' : Nat) (i : List UInt8) (acc : List Value),
      2 * i.length + 3 ≤ fuel → fuel ≤ fuel' →
      parseElemsS fuel i acc = parseElemsS fuel' i acc) := by
  induction fuel with
  | zero =>
    refine ⟨?_, ?_, ?_⟩ <;> intros <;> omega
  | succ fuel ih =>
    obtain ⟨ihV, ihM, ihE⟩ := ih
    refine ⟨?_, ?_, ?_⟩
    · intro fuel' i hb hf
      obtain ⟨f', rfl⟩ : ∃ f', fuel' = f' + 1 := ⟨fuel' - 1, by omega⟩
      rw [parseValueS, parseValueS]
      split
      · rfl
      · rename_i c t hs
        have h0 := skipSpace_cons_length i t c hs
        rw [ihM f' t [] (by omega) (by omega),
          ihE f' t [] (by omega) (by omega)]
    · intro fuel' i acc hb hf
      obtain ⟨f', rfl⟩ : ∃ f', fuel' = f' + 1 := ⟨fuel' - 1, by omega⟩
      rw [parseMembersS, parseMembersS]
      split
      · rename_i t hs
        have h0 := skipSpace_cons_length _ _ _ hs
        split
        · rfl
        · rename_i key r1 hk
          have h1 := parseString_length _ _ _ _ _ (parseStringS_lenient _ _ _ _ hk)
          split
          · rfl
          · split
            · rename_i r2 hs2
              have h2 := skipSpace_cons_length _ _ _ hs2
              rw [ihV f' r2 (by omega) (by omega)]
              split
              · rfl
              · rename_i v r3 hv
                have h3 := (parse_length false f').1 0 _ _ _ ((parseS_lenient f').1 0 _ _ hv)
                split
                · rename_i r4 hs4
                  have h4 := skipSpace_cons_length _ _ _ hs4
                  exact ihM f' r4 _ (by omega) (by omega)
                · rfl
                · rfl
            · rfl
      · rfl
    · intro fuel' i acc hb hf
      obtain ⟨f', rfl⟩ : ∃ f', fuel' = f' + 1 := ⟨fuel' - 1, by omega⟩
      rw [parseElemsS, parseElemsS]
      rw [ihV f' i (by omega) (by omega)]
      split
      · rfl
      · rename_i v r hv
        have h1 := (parse_length false f').1 0 _ _ _ ((parseS_lenient f').1 0 _ _ hv)
        split
        · rename_i r1 hs1
          have h2 := skipSpace_cons_length _ _ _ hs1
          exact ihE f' r1 _ (by omega) (by omega)
        · rfl
        · rfl

/-- A larger budget than the one `readStrict` gives the strict reader never changes what
it returns: the budget is not what makes a text have no value. -/
theorem parseValueS_fuel (fuel : Nat) (b : List UInt8) (h : 2 * b.length + 2 ≤ fuel) :
    parseValueS fuel b = parseValueS (2 * b.length + 2) b :=
  ((parseS_fuel (2 * b.length + 2)).1 fuel b (Nat.le_refl _) h).symm

theorem parseStringS_escapeByte (c : UInt8) (h : c < 0x80) (fuel : Nat) (input acc : GoString) :
    parseStringS (fuel + 1) (escapeByte c ++ input) acc = parseStringS fuel input (acc ++ [c]) := by
  by_cases h1 : c = 0x5C
  · subst h1; rfl
  by_cases h2 : c = 0x22
  · subst h2; rfl
  by_cases h3 : c = 0x08
  · subst h3; rfl
  by_cases h4 : c = 0x0C
  · subst h4; rfl
  by_cases h5 : c = 0x0A
  · subst h5; rfl
  by_cases h6 : c = 0x0D
  · subst h6; rfl
  by_cases h7 : c = 0x09
  · subst h7; rfl
  have he : escapeByte c
      = [0x5C, 0x75, 0x30, 0x30, hexDigit (c.toNat / 16), hexDigit (c.toNat % 16)] := by
    simp [escapeByte, h1, h2, h3, h4, h5, h6, h7]
  have h128 : c.toNat < 128 := (lt_iff_toNat c 0x80).mp h
  have hs : ¬ (0xD800 ≤ c.toNat ∧ c.toNat < 0xE000) := by omega
  rw [he]
  show parseStringS (fuel + 1)
    (0x5C :: 0x75 :: 0x30 :: 0x30 :: hexDigit (c.toNat / 16) :: hexDigit (c.toNat % 16) :: input)
    acc = _
  rw [parseStringS]
  simp +decide only [if_false, if_true, hex4_hexDigit c h, hs, encodeRune_ascii c h]


/-- One step of the strict string reader on a well-formed encoding of a rune outside ASCII. -/
theorem parseStringS_rune (i : GoString) (hi : runeLen i ≠ 0)
    (hhigh : ∀ c t, i = c :: t → ¬ c < 0x80) (fuel : Nat) (acc : GoString) :
    parseStringS (fuel + 1) i acc
      = parseStringS fuel (i.drop (runeLen i)) (acc ++ i.take (runeLen i)) := by
  cases i with
  | nil => exact absurd rfl hi
  | cons c t =>
    have hc := hhigh c t rfl
    obtain ⟨h22, h5c, h20⟩ := high_byte c hc
    simp only [parseStringS, h22, h5c, h20, hc, hi, if_false]

/-- One step of the strict string reader on an ASCII byte the encoder writes as it is. -/
theorem parseStringS_safe (c : UInt8) (hs : htmlSafe c = true) (fuel : Nat)
    (input acc : GoString) :
    parseStringS (fuel + 1) (c :: input) acc = parseStringS fuel input (acc ++ [c]) := by
  simp only [htmlSafe, decide_eq_true_eq] at hs
  obtain ⟨h20, h80, h22, _, _, _, h5c⟩ := hs
  have h20' : ¬ c < 0x20 := by
    rw [lt_iff_toNat]
    rw [le_iff_toNat] at h20
    omega
  simp only [parseStringS, h22, h5c, h20', h80, if_false, if_true]

/-- The strict string reader gives back every well-formed UTF-8 string from what the encoder
writes for it between the quotes. -/
theorem parseStringS_escapeString (s : GoString) (hs : ValidUTF8 s) :
    ∀ (fe fp : Nat) (rest acc : GoString), s.length < fe →
      (escapeString fe s).length + 1 ≤ fp →
      parseStringS fp (escapeString fe s ++ 0x22 :: rest) acc = some (acc ++ s, rest) := by
  induction hs with
  | nil =>
    intro fe fp rest acc _ hfp
    rw [escapeString_nil] at hfp ⊢
    obtain ⟨fp', rfl⟩ : ∃ k, fp = k + 1 := ⟨fp - 1, by simp at hfp; omega⟩
    simp [parseStringS]
  | rune s h t ih =>
    intro fe fp rest acc hfe hfp
    obtain ⟨c, r, rfl⟩ : ∃ c r, s = c :: r := by
      cases s with
      | nil => exact absurd rfl h
      | cons c r => exact ⟨c, r, rfl⟩
    obtain ⟨fe', rfl⟩ : ∃ k, fe = k + 1 := ⟨fe - 1, by simp at hfe; omega⟩
    obtain ⟨fp', rfl⟩ : ∃ k, fp = k + 1 := ⟨fp - 1, by omega⟩
    simp only [List.length_cons] at hfe
    by_cases hc : c < 0x80
    · have hlen : runeLen (c :: r) = 1 := (runeLen_eq_one c r).mpr hc
      rw [hlen] at ih
      simp only [List.drop_succ_cons, List.drop_zero] at ih
      have hesc : escapeString (fe' + 1) (c :: r)
          = (if htmlSafe c then [c] else escapeByte c) ++ escapeString fe' r := by
        rw [escapeString, if_pos hc]
      rw [hesc] at hfp ⊢
      by_cases hsafe : htmlSafe c = true
      · rw [if_pos hsafe] at hfp ⊢
        simp only [List.length_append, List.length_singleton] at hfp
        rw [List.append_assoc, List.singleton_append, parseStringS_safe c hsafe,
          ih fe' fp' rest (acc ++ [c]) (by omega) (by omega)]
        simp
      · rw [if_neg hsafe] at hfp ⊢
        have hl := escapeByte_length c
        simp only [List.length_append] at hfp
        rw [List.append_assoc, parseStringS_escapeByte c hc,
          ih fe' fp' rest (acc ++ [c]) (by omega) (by omega)]
        simp
    · by_cases h28 : (c :: r).take 3 = [0xE2, 0x80, 0xA8]
      · have hesc : escapeString (fe' + 1) (c :: r)
            = [0x5C, 0x75, 0x32, 0x30, 0x32, 0x38] ++ escapeString fe' (r.drop 2) := by
          rw [escapeString, if_neg hc, if_neg h, if_pos h28]
        rcases r with _ | ⟨c1, _ | ⟨c2, r'⟩⟩
        · simp at h28
        · simp at h28
        · simp only [List.take_succ_cons, List.take_zero, List.cons.injEq, and_true] at h28
          obtain ⟨rfl, rfl, rfl⟩ := h28
          have hlen : runeLen (0xE2 :: 0x80 :: 0xA8 :: r') = 3 := rfl
          rw [hlen] at ih
          simp only [List.drop_succ_cons, List.drop_zero] at ih hesc
          rw [hesc] at hfp ⊢
          simp only [List.length_append, List.length_cons, List.length_nil] at hfp hfe
          have hstep : parseStringS (fp' + 1)
              ([0x5C, 0x75, 0x32, 0x30, 0x32, 0x38] ++ escapeString fe' r' ++ 0x22 :: rest) acc
              = parseStringS fp' (escapeString fe' r' ++ 0x22 :: rest)
                  (acc ++ [0xE2, 0x80, 0xA8]) := rfl
          rw [hstep, ih fe' fp' rest _ (by omega) (by omega)]
          simp
      · by_cases h29 : (c :: r).take 3 = [0xE2, 0x80, 0xA9]
        · have hesc : escapeString (fe' + 1) (c :: r)
              = [0x5C, 0x75, 0x32, 0x30, 0x32, 0x39] ++ escapeString fe' (r.drop 2) := by
            rw [escapeString, if_neg hc, if_neg h, if_neg h28, if_pos h29]
          rcases r with _ | ⟨c1, _ | ⟨c2, r'⟩⟩
          · simp at h29
          · simp at h29
          · simp only [List.take_succ_cons, List.take_zero, List.cons.injEq, and_true] at h29
            obtain ⟨rfl, rfl, rfl⟩ := h29
            have hlen : runeLen (0xE2 :: 0x80 :: 0xA9 :: r') = 3 := rfl
            rw [hlen] at ih
            simp only [List.drop_succ_cons, List.drop_zero] at ih hesc
            rw [hesc] at hfp ⊢
            simp only [List.length_append, List.length_cons, List.length_nil] at hfp hfe
            have hstep : parseStringS (fp' + 1)
                ([0x5C, 0x75, 0x32, 0x30, 0x32, 0x39] ++ escapeString fe' r' ++ 0x22 :: rest) acc
                = parseStringS fp' (escapeString fe' r' ++ 0x22 :: rest)
                    (acc ++ [0xE2, 0x80, 0xA9]) := rfl
            rw [hstep, ih fe' fp' rest _ (by omega) (by omega)]
            simp
        · have hesc : escapeString (fe' + 1) (c :: r)
              = (c :: r).take (runeLen (c :: r))
                ++ escapeString fe' ((c :: r).drop (runeLen (c :: r))) := by
            rw [escapeString, if_neg hc, if_neg h, if_neg h28, if_neg h29]
          have hle := runeLen_le (c :: r)
          have htl : ((c :: r).take (runeLen (c :: r))).length = runeLen (c :: r) := by
            rw [List.length_take]
            omega
          have hdl : ((c :: r).drop (runeLen (c :: r))).length < fe' := by
            rw [List.length_drop]
            simp only [List.length_cons] at hle ⊢
            omega
          rw [hesc] at hfp ⊢
          rw [List.length_append, htl] at hfp
          rw [List.append_assoc]
          have hrl := runeLen_take_append (c :: r)
            (escapeString fe' ((c :: r).drop (runeLen (c :: r))) ++ 0x22 :: rest) h
          rw [parseStringS_rune _ (by rw [hrl]; exact h), hrl, List.drop_left' htl,
            List.take_left' htl, ih fe' fp' rest _ hdl (by omega), List.append_assoc,
            List.take_append_drop]
          intro c' t' he
          obtain ⟨n, hn⟩ : ∃ n, runeLen (c :: r) = n + 1 := ⟨runeLen (c :: r) - 1, by omega⟩
          rw [hn, List.take_succ_cons, List.cons_append] at he
          rw [← (List.cons.inj he).1]
          exact hc

theorem parseValueS_string (f : Nat) (r : List UInt8) :
    parseValueS (f + 1) (0x22 :: r)
      = match parseStringS (r.length + 1) r [] with
        | some (s, rest1) => some (Value.str s, rest1)
        | none => none := by
  rw [parseValueS, skipSpace_cons _ _ (by decide)]
  rfl

theorem parseValueS_object (f : Nat) (r : List UInt8) :
    parseValueS (f + 1) (0x7B :: r)
      = match skipSpace r with
        | 0x7D :: rest1 => some (Value.map [], rest1)
        | _ =>
          match parseMembersS f r [] with
          | some (m, rest1) => some (Value.map m, rest1)
          | none => none := by
  rw [parseValueS, skipSpace_cons _ _ (by decide)]
  rfl

theorem parseValueS_array (f : Nat) (r : List UInt8) :
    parseValueS (f + 1) (0x5B :: r)
      = match skipSpace r with
        | 0x5D :: rest1 => some (Value.arr [], rest1)
        | _ =>
          match parseElemsS f r [] with
          | some (xs, rest1) => some (Value.arr xs, rest1)
          | none => none := by
  rw [parseValueS, skipSpace_cons _ _ (by decide)]
  rfl

theorem parseValueS_null (f : Nat) (r : List UInt8) :
    parseValueS (f + 1) (utf8 "null" ++ r) = some (Value.nil, r) := by
  have : utf8 "null" = [0x6E, 0x75, 0x6C, 0x6C] := by decide
  rw [this]
  show parseValueS (f + 1) (0x6E :: 0x75 :: 0x6C :: 0x6C :: r) = _
  rw [parseValueS, skipSpace_cons _ _ (by decide)]
  simp +decide [literal, this]

theorem parseValueS_true (f : Nat) (r : List UInt8) :
    parseValueS (f + 1) (utf8 "true" ++ r) = some (Value.bool true, r) := by
  have : utf8 "true" = [0x74, 0x72, 0x75, 0x65] := by decide
  rw [this]
  show parseValueS (f + 1) (0x74 :: 0x72 :: 0x75 :: 0x65 :: r) = _
  rw [parseValueS, skipSpace_cons _ _ (by decide)]
  simp +decide [literal, this]

theorem parseValueS_false (f : Nat) (r : List UInt8) :
    parseValueS (f + 1) (utf8 "false" ++ r) = some (Value.bool false, r) := by
  have : utf8 "false" = [0x66, 0x61, 0x6C, 0x73, 0x65] := by decide
  rw [this]
  show parseValueS (f + 1) (0x66 :: 0x61 :: 0x6C :: 0x73 :: 0x65 :: r) = _
  rw [parseValueS, skipSpace_cons _ _ (by decide)]
  simp +decide [literal, this]

theorem parseValueS_number (f : Nat) (c : UInt8) (r lit rest : List UInt8) (over : Bool)
    (hc : c = 0x2D ∨ isDigit c = true) (h : parseNumber (c :: r) = some (lit, over, rest)) :
    parseValueS (f + 1) (c :: r) = some (Value.num lit, rest) := by
  have hsp : isSpace c = false := by
    rcases hc with rfl | hc
    · decide
    · exact (isDigit_ne c hc).2.2.2.2.2
  have h7b : c ≠ 0x7B := by
    rcases hc with rfl | hc
    · decide
    · rintro rfl; exact absurd hc (by decide)
  have h5b : c ≠ 0x5B := by
    rcases hc with rfl | hc
    · decide
    · rintro rfl; exact absurd hc (by decide)
  have h22 : c ≠ 0x22 := by
    rcases hc with rfl | hc
    · decide
    · rintro rfl; exact absurd hc (by decide)
  rw [parseValueS, skipSpace_cons _ _ hsp]
  simp only [h7b, h5b, h22, if_false, hc, if_true, h]

theorem parseElemsS_step (f : Nat) (i tail : List UInt8) (acc : List Value) (v : Value)
    (hval : parseValueS f i = some (v, tail)) :
    parseElemsS (f + 1) i acc
      = match skipSpace tail with
        | 0x2C :: rest1 => parseElemsS f rest1 (acc ++ [v])
        | 0x5D :: rest1 => some (acc ++ [v], rest1)
        | _ => none := by
  rw [parseElemsS]
  simp only [hval]

theorem parseMembersS_step (f : Nat) (r rest2 tail : List UInt8)
    (acc : List (GoString × Value)) (key : GoString) (v : Value)
    (hkey : parseStringS (r.length + 1) r [] = some (key, 0x3A :: rest2))
    (hnew : key ∉ acc.map Prod.fst)
    (hval : parseValueS f rest2 = some (v, tail)) :
    parseMembersS (f + 1) (0x22 :: r) acc
      = match skipSpace tail with
        | 0x2C :: rest4 => parseMembersS f rest4 (acc ++ [(key, v)])
        | 0x7D :: rest4 => some (acc ++ [(key, v)], rest4)
        | _ => none := by
  rw [parseMembersS, skipSpace_cons _ _ (by decide)]
  simp only [hkey, if_neg hnew, skipSpace_cons 0x3A rest2 (by decide), hval]

theorem allNumbersElems_mem (p : GoString → Bool) (xs : List Value)
    (h : allNumbersElems p xs = true) : ∀ x ∈ xs, allNumbers p x = true := by
  induction xs with
  | nil => intro x hx; simp at hx
  | cons y ys ih =>
    simp only [allNumbersElems, Bool.and_eq_true] at h
    intro x hx
    rcases List.mem_cons.mp hx with rfl | hx
    · exact h.1
    · exact ih h.2 x hx

theorem allNumbersMembers_mem (p : GoString → Bool) (m : List (GoString × Value))
    (h : allNumbersMembers p m = true) : ∀ q ∈ m, allNumbers p q.2 = true := by
  induction m with
  | nil => intro x hx; simp at hx
  | cons y ys ih =>
    obtain ⟨k, x⟩ := y
    simp only [allNumbersMembers, Bool.and_eq_true] at h
    intro q hq
    rcases List.mem_cons.mp hq with rfl | hq
    · exact h.1
    · exact ih h.2 q hq

/-- The elements of an array are read back strictly from what the encoder writes for
them. -/
theorem elemsS_roundtrip (ff : FloatFormat) (xs : List Value)
    (hxs : ∀ x ∈ xs, ∀ (fuel : Nat) (rest : List UInt8), endsNumber rest = true →
      2 * (encodeValue ff x ++ rest).length + 2 ≤ fuel →
      parseValueS fuel (encodeValue ff x ++ rest) = some (canon ff x, rest))
    (hne : xs ≠ []) :
    ∀ (fuel : Nat) (rest : List UInt8) (acc : List Value),
      2 * ([0x2C].intercalate (encodeElems ff xs) ++ 0x5D :: rest).length + 3 ≤ fuel →
      parseElemsS fuel ([0x2C].intercalate (encodeElems ff xs) ++ 0x5D :: rest) acc
        = some (acc ++ canonElems ff xs, rest) := by
  induction xs with
  | nil => exact absurd rfl hne
  | cons x xs ih =>
    intro fuel rest acc hf
    obtain ⟨f, rfl⟩ : ∃ f, fuel = f + 1 := ⟨fuel - 1, by omega⟩
    have hx := hxs x (List.mem_cons_self _ _)
    cases xs with
    | nil =>
      simp only [encodeElems, intercalate_one] at hf ⊢
      have hval := hx f (0x5D :: rest) rfl (by omega)
      rw [parseElemsS_step f _ _ acc _ hval, skipSpace_cons _ _ (by decide)]
      simp [canonElems]
    | cons y ys =>
      have ih' := ih (fun z hz => hxs z (List.mem_cons_of_mem _ hz)) (by simp)
      simp only [encodeElems, intercalate_two, List.append_assoc, List.singleton_append,
        List.cons_append, List.nil_append] at hf ih' ⊢
      have hval := hx f
        (0x2C :: ([0x2C].intercalate (encodeValue ff y :: encodeElems ff ys) ++ 0x5D :: rest))
        rfl (by omega)
      rw [parseElemsS_step f _ _ acc _ hval, skipSpace_cons _ _ (by decide)]
      simp only []
      rw [ih' f rest (acc ++ [canon ff x])
        (by simp only [List.length_append, List.length_cons] at hf ⊢; omega)]
      simp [canonElems]

/-- The members of an object with distinct names are read back strictly from what the
encoder writes for them. -/
theorem membersS_roundtrip (ff : FloatFormat) (m : List (GoString × Value))
    (hk : ∀ p ∈ m, ValidUTF8 p.1)
    (hv : ∀ p ∈ m, ∀ (fuel : Nat) (rest : List UInt8), endsNumber rest = true →
      2 * (encodeValue ff p.2 ++ rest).length + 2 ≤ fuel →
      parseValueS fuel (encodeValue ff p.2 ++ rest) = some (canon ff p.2, rest))
    (hne : m ≠ []) :
    ∀ (fuel : Nat) (rest : List UInt8) (acc : List (GoString × Value)),
      ((acc ++ m).map Prod.fst).Nodup →
      2 * ([0x2C].intercalate
          ((encodeMembers ff m).map (fun p : GoString × GoString => appendString p.1 ++ [0x3A] ++ p.2))
          ++ 0x7D :: rest).length + 3 ≤ fuel →
      parseMembersS fuel
          ([0x2C].intercalate
            ((encodeMembers ff m).map (fun p : GoString × GoString => appendString p.1 ++ [0x3A] ++ p.2))
            ++ 0x7D :: rest) acc
        = some (acc ++ canonMembers ff m, rest) := by
  induction m with
  | nil => exact absurd rfl hne
  | cons q m ih =>
    intro fuel rest acc hnd hf
    obtain ⟨k, x⟩ := q
    obtain ⟨f, rfl⟩ : ∃ f, fuel = f + 1 := ⟨fuel - 1, by omega⟩
    have hx := hv (k, x) (List.mem_cons_self _ _)
    have hkk := hk (k, x) (List.mem_cons_self _ _)
    have hnew : k ∉ acc.map Prod.fst := by
      intro hmem
      rw [List.map_append, List.map_cons] at hnd
      exact (List.nodup_append.mp hnd).2.2 hmem (List.mem_cons_self _ _)
    cases m with
    | nil =>
      simp only [encodeMembers, List.map_cons, List.map_nil, intercalate_one, appendString,
        List.append_assoc, List.singleton_append, List.cons_append, List.nil_append]
        at hf ⊢
      simp only [List.length_append, List.length_cons] at hf
      have hkey := parseStringS_escapeString k hkk (k.length + 1)
        ((escapeString (k.length + 1) k
          ++ 0x22 :: 0x3A :: (encodeValue ff x ++ 0x7D :: rest)).length + 1)
        (0x3A :: (encodeValue ff x ++ 0x7D :: rest)) [] (by omega)
        (by simp only [List.length_append, List.length_cons]; omega)
      rw [List.nil_append] at hkey
      have hval := hx f (0x7D :: rest) rfl
        (by simp only [List.length_append, List.length_cons]; omega)
      rw [parseMembersS_step f _ _ _ acc k _ hkey hnew hval, skipSpace_cons _ _ (by decide)]
      simp [canonMembers]
    | cons q2 m2 =>
      obtain ⟨k2, x2⟩ := q2
      have ih' := ih (fun z hz => hk z (List.mem_cons_of_mem _ hz))
        (fun z hz => hv z (List.mem_cons_of_mem _ hz)) (by simp)
      simp only [encodeMembers, List.map_cons, intercalate_two, appendString,
        List.append_assoc, List.singleton_append, List.cons_append, List.nil_append]
        at hf ih' ⊢
      simp only [List.length_append, List.length_cons] at hf
      have hkey := parseStringS_escapeString k hkk (k.length + 1)
        ((escapeString (k.length + 1) k
          ++ 0x22 :: 0x3A :: (encodeValue ff x ++ 0x2C ::
            ([0x2C].intercalate
              ((0x22 :: (escapeString (k2.length + 1) k2
                  ++ 0x22 :: 0x3A :: encodeValue ff x2)) ::
                (encodeMembers ff m2).map
                  (fun p : GoString × GoString =>
                    0x22 :: (escapeString (p.1.length + 1) p.1 ++ 0x22 :: 0x3A :: p.2)))
              ++ 0x7D :: rest))).length + 1)
        (0x3A :: (encodeValue ff x ++ 0x2C ::
            ([0x2C].intercalate
              ((0x22 :: (escapeString (k2.length + 1) k2
                  ++ 0x22 :: 0x3A :: encodeValue ff x2)) ::
                (encodeMembers ff m2).map
                  (fun p : GoString × GoString =>
                    0x22 :: (escapeString (p.1.length + 1) p.1 ++ 0x22 :: 0x3A :: p.2)))
              ++ 0x7D :: rest))) [] (by omega)
        (by simp only [List.length_append, List.length_cons]; omega)
      rw [List.nil_append] at hkey
      have hval := hx f (0x2C ::
            ([0x2C].intercalate
              ((0x22 :: (escapeString (k2.length + 1) k2
                  ++ 0x22 :: 0x3A :: encodeValue ff x2)) ::
                (encodeMembers ff m2).map
                  (fun p : GoString × GoString =>
                    0x22 :: (escapeString (p.1.length + 1) p.1 ++ 0x22 :: 0x3A :: p.2)))
              ++ 0x7D :: rest)) rfl
        (by simp only [List.length_append, List.length_cons]; omega)
      rw [parseMembersS_step f _ _ _ acc k _ hkey hnew hval, skipSpace_cons _ _ (by decide)]
      simp only []
      rw [ih' f rest (acc ++ [(k, canon ff x)])
        (by simpa using hnd)
        (by simp only [List.length_append, List.length_cons]; omega)]
      simp [canonMembers]

theorem parseValueS_some_head (fuel : Nat) (i : List UInt8)
    (x : Value × List UInt8) (h : parseValueS fuel i = some x) :
    ∀ t, skipSpace i ≠ 0x5D :: t := by
  intro t hs
  cases fuel with
  | zero => simp [parseValueS] at h
  | succ f =>
    rw [parseValueS, hs] at h
    simp +decide [literal] at h

theorem parseValueS_object_members (f : Nat) (i rest : List UInt8)
    (m : List (GoString × Value)) (hhead : ∀ t, skipSpace i ≠ 0x7D :: t)
    (hm : parseMembersS f i [] = some (m, rest)) :
    parseValueS (f + 1) (0x7B :: i) = some (Value.map m, rest) := by
  rw [parseValueS_object]
  split
  · rename_i r1 hs
    exact absurd hs (hhead r1)
  · rw [hm]

theorem parseValueS_array_elems (f : Nat) (i rest : List UInt8)
    (xs : List Value) (hhead : ∀ t, skipSpace i ≠ 0x5D :: t)
    (hm : parseElemsS f i [] = some (xs, rest)) :
    parseValueS (f + 1) (0x5B :: i) = some (Value.arr xs, rest) := by
  rw [parseValueS_array]
  split
  · rename_i r1 hs
    exact absurd hs (hhead r1)
  · rw [hm]

/-- The strict reader reads back every clean value from the text the encoder writes for
it, when the encoder writes a number literal for each of its numbers: the same value,
with the members of objects in the order of their keys and every number in the text the
encoder writes for it. -/
theorem encode_readback (ff : FloatFormat) (p : GoString → Bool)
    (hp : ∀ lit, p lit = true → parseNumber (ff lit) = some (ff lit, false, []))
    (v : Value) (hv : Clean v) :
    allNumbers p v = true →
    ∀ (fuel : Nat) (rest : List UInt8), endsNumber rest = true →
      2 * (encodeValue ff v ++ rest).length + 2 ≤ fuel →
      parseValueS fuel (encodeValue ff v ++ rest) = some (canon ff v, rest) := by
  induction hv with
  | nil =>
    intro _ fuel rest _ hf
    obtain ⟨f, rfl⟩ : ∃ f, fuel = f + 1 := ⟨fuel - 1, by omega⟩
    simp only [encodeValue, canon]
    exact parseValueS_null _ _
  | str s h =>
    intro _ fuel rest _ hf
    obtain ⟨f, rfl⟩ : ∃ f, fuel = f + 1 := ⟨fuel - 1, by omega⟩
    simp only [encodeValue, canon, appendString, List.append_assoc, List.singleton_append,
      List.cons_append, List.nil_append]
    rw [parseValueS_string, parseStringS_escapeString s h (s.length + 1) _ rest []
      (by omega) (by simp only [List.length_append, List.length_cons]; omega)]
    rfl
  | bool b =>
    intro _ fuel rest _ hf
    obtain ⟨f, rfl⟩ : ∃ f, fuel = f + 1 := ⟨fuel - 1, by omega⟩
    cases b
    · simp only [encodeValue, canon]
      exact parseValueS_false _ _
    · simp only [encodeValue, canon]
      exact parseValueS_true _ _
  | num lit h =>
    intro hn fuel rest hrest hf
    obtain ⟨f, rfl⟩ : ∃ f, fuel = f + 1 := ⟨fuel - 1, by omega⟩
    simp only [allNumbers] at hn
    obtain ⟨⟨c, r, hcr, hc⟩, happ⟩ := parseNumber_append _ _ _ _ (hp lit hn)
    have h2 := happ rest hrest
    simp only [encodeValue, canon]
    rw [hcr] at h2 ⊢
    exact parseValueS_number f c (r ++ rest) _ rest false hc h2
  | arr xs h ih =>
    intro hn fuel rest _ hf
    obtain ⟨f, rfl⟩ : ∃ f, fuel = f + 1 := ⟨fuel - 1, by omega⟩
    simp only [allNumbers] at hn
    have hmem := allNumbersElems_mem p xs hn
    simp only [encodeValue, canon, List.append_assoc, List.singleton_append,
      List.cons_append, List.nil_append] at hf ⊢
    cases xs with
    | nil =>
      rw [parseValueS_array]
      simp [encodeElems, canonElems, List.intercalate, skipSpace_cons 0x5D rest (by decide)]
    | cons x xs' =>
      have ih2 : ∀ z ∈ x :: xs', ∀ (fuel : Nat) (rest : List UInt8), endsNumber rest = true →
          2 * (encodeValue ff z ++ rest).length + 2 ≤ fuel →
          parseValueS fuel (encodeValue ff z ++ rest) = some (canon ff z, rest) :=
        fun z hz => ih z hz (hmem z hz)
      have hel := elemsS_roundtrip ff (x :: xs') ih2 (by simp) f rest []
        (by simp only [List.length_cons] at hf; omega)
      obtain ⟨tail, htail, hends⟩ := elems_head ff x xs' rest
      have hx := ih2 x (List.mem_cons_self _ _) (2 * (encodeValue ff x ++ tail).length + 2)
        tail hends (Nat.le_refl _)
      have hhead := parseValueS_some_head _ _ _ hx
      rw [← htail] at hhead
      rw [parseValueS_array_elems f _ rest _ hhead hel]
      simp
  | map m hn hk hv ih =>
    intro hnum fuel rest _ hf
    obtain ⟨f, rfl⟩ : ∃ f, fuel = f + 1 := ⟨fuel - 1, by omega⟩
    simp only [allNumbers] at hnum
    have hnmem := allNumbersMembers_mem p m hnum
    have hperm := sortByKey_perm m
    have e : ∀ (I : List UInt8), ([0x7B] ++ I ++ [0x7D]) ++ rest = 0x7B :: (I ++ 0x7D :: rest) := by
      intro I
      simp
    simp only [encodeValue, canon] at hf ⊢
    rw [e] at hf ⊢
    rw [sortMembers_eq, encodeMembers_eq_map, sortByKey_map, ← encodeMembers_eq_map] at hf ⊢
    rw [canonMembers_eq_map, sortByKey_map, ← canonMembers_eq_map]
    cases hsm : sortByKey m with
    | nil =>
      rw [parseValueS_object]
      simp [encodeMembers, canonMembers, List.intercalate, skipSpace_cons 0x7D rest (by decide)]
    | cons q sm =>
      rw [hsm] at hf hperm
      have hmem : ∀ p ∈ q :: sm, p ∈ m := fun p hp => hperm.subset hp
      have hnd : (([] ++ (q :: sm)).map Prod.fst).Nodup := by
        rw [List.nil_append]
        exact (List.Perm.nodup_iff (hperm.map Prod.fst)).mpr hn
      have hel := membersS_roundtrip ff (q :: sm) (fun p hp => hk p (hmem p hp))
        (fun z hz => ih z (hmem z hz) (hnmem z (hmem z hz))) (by simp) f rest [] hnd
        (by simp only [List.length_cons] at hf; omega)
      obtain ⟨tail, htail⟩ := members_head ff q sm rest
      have hhead : ∀ t, skipSpace ([0x2C].intercalate ((encodeMembers ff (q :: sm)).map
          (fun p : GoString × GoString => appendString p.1 ++ [0x3A] ++ p.2))
          ++ 0x7D :: rest) ≠ 0x7D :: t := by
        intro t
        rw [htail, skipSpace_cons _ _ (by decide)]
        simp
      rw [parseValueS_object_members f _ rest _ hhead hel]
      rfl

/-- Rewriting the numbers of a value by `ff` does not change the decimal values of its
numbers when `ff` keeps the decimal value of each of them. -/
theorem canon_numKey (ff : FloatFormat) (p : GoString → Bool)
    (hp : ∀ lit, p lit = true → numKey (ff lit) = numKey lit)
    (v : Value) (hv : Clean v) :
    allNumbers p v = true → canon numKey (canon ff v) = canon numKey v := by
  induction hv with
  | nil => intro _; rfl
  | str s h => intro _; rfl
  | bool b => intro _; rfl
  | num lit h =>
    intro hn
    simp only [allNumbers] at hn
    simp only [canon]
    rw [hp lit hn]
  | arr xs h ih =>
    intro hn
    simp only [allNumbers] at hn
    have hmem := allNumbersElems_mem p xs hn
    simp only [canon, canonElems_eq_map, List.map_map]
    congr 1
    apply List.map_congr_left
    intro x hx
    exact ih x hx (hmem x hx)
  | map m hn hk hv ih =>
    intro hnum
    simp only [allNumbers] at hnum
    have hmem := allNumbersMembers_mem p m hnum
    simp only [canon]
    congr 1
    have e1 : canonMembers numKey (sortByKey (canonMembers ff m))
        = (sortByKey m).map (fun q => (q.1, canon numKey q.2)) := by
      rw [canonMembers_eq_map ff, sortByKey_map, canonMembers_eq_map, List.map_map]
      apply List.map_congr_left
      intro q hq
      have hq2 := (sortByKey_perm m).subset hq
      simp only [Function.comp]
      rw [ih q hq2 (hmem q hq2)]
    rw [e1, sortByKey_map, sortByKey_idem, canonMembers_eq_map, sortByKey_map]

/-- What `readStrict` reads from a text, the grammar of the decoder reads from it as
well, and only white space follows. -/
theorem readStrict_lenient (t : GoString) (v : Value) (h : readStrict t = some v) :
    ∃ r, parseValue false (2 * t.length + 2) 0 t = some (v, r) ∧ skipSpace r = [] := by
  unfold readStrict at h
  split at h
  · rename_i v1 r hp
    split at h
    · rename_i hr
      simp only [Option.some.injEq] at h
      subst h
      exact ⟨r, (parseS_lenient _).1 0 _ _ hp, hr⟩
    · simp at h
  · simp at h

/-- The text the encoder writes for a clean value, followed by a newline, is the JSON text
of a value with the same members, nested values and numbers, when float64 keeps every
number of the value. -/
theorem jsonEqual_encode (b : GoString) (v : Value) (hb : readStrict b = some v)
    (hc : Clean v) (hn : numbersKept v = true) :
    jsonEqual b (encodeValue formatFloat64 v ++ [0x0A]) = true := by
  have hlit : ∀ lit, keptNumber lit = true →
      parseNumber (formatFloat64 lit) = some (formatFloat64 lit, false, []) := by
    intro lit h
    simp only [keptNumber, Bool.and_eq_true, decide_eq_true_eq] at h
    exact h.1
  have hkey : ∀ lit, keptNumber lit = true → numKey (formatFloat64 lit) = numKey lit := by
    intro lit h
    simp only [keptNumber, Bool.and_eq_true, decide_eq_true_eq] at h
    exact h.2
  have hrt := encode_readback formatFloat64 keptNumber hlit v hc hn
    (2 * (encodeValue formatFloat64 v ++ [0x0A]).length + 2) [0x0A] rfl (Nat.le_refl _)
  have hs : skipSpace [0x0A] = [] := by decide
  have hout : readStrict (encodeValue formatFloat64 v ++ [0x0A])
      = some (canon formatFloat64 v) := by
    unfold readStrict
    rw [hrt]
    simp only [hs, if_true]
  unfold jsonEqual
  rw [hb, hout]
  simp only [canon_numKey formatFloat64 keptNumber hkey v hc hn, decide_True]

/-- A JSON string is not JSON-equal to a JSON object. -/
theorem jsonEqual_string (b s : GoString) (hobj : jsonObjectText b = true) :
    jsonEqual b (appendString s ++ [0x0A]) = false := by
  unfold jsonEqual
  cases hb : readStrict b with
  | none => rfl
  | some v =>
    obtain ⟨r, hp, _⟩ := readStrict_lenient b v hb
    unfold jsonObjectText at hobj
    rw [hp] at hobj
    cases hs : readStrict (appendString s ++ [0x0A]) with
    | none => rfl
    | some w =>
      have hw : ∃ x, w = Value.str x := by
        unfold readStrict at hs
        simp only [appendString, List.append_assoc, List.singleton_append, List.cons_append,
          List.nil_append, List.length_cons] at hs
        have h2 : ∀ n, 2 * (n + 1) + 2 = (2 * n + 3) + 1 := fun n => by omega
        rw [h2, parseValueS_string] at hs
        cases hps : parseStringS ((escapeString (s.length + 1) s ++ [0x22, 0x0A]).length + 1)
            (escapeString (s.length + 1) s ++ [0x22, 0x0A]) [] with
        | none =>
          rw [hps] at hs
          simp at hs
        | some x =>
          rw [hps] at hs
          simp only [] at hs
          split at hs
          · exact ⟨x.1, (Option.some.inj hs).symm⟩
          · simp at hs
      obtain ⟨x, rfl⟩ := hw
      cases v with
      | map m => simp [canon]
      | _ => simp at hobj

/-! ## Properties of the store -/

/-- C1: on an initialized store, `Set(k, v)` returns no error and a following `Get(k)`
returns exactly `v` with no error, for every value `v` (in particular for every raw
string), whether or not `k` was present before. -/
theorem C1_set_then_get (d : Database) (k : GoString) (v : Value) (h : d.Data ≠ none) :
    (d.Set k v).1 = none ∧ ((d.Set k v).2.Get k).1 = (v, none) ∧
      ∀ s : GoString, ((d.Set k (Value.str s)).2.Get k).1 = (Value.str s, none) := by
  obtain ⟨m, hm⟩ := Option.ne_none_iff_exists'.mp h
  refine ⟨by simp [set_of_some d m hm], ?_, fun s => ?_⟩
  · rw [set_of_some d m hm, get_of_some _ (m.insert k v) rfl]
    simp [AList.lookup_insert]
  · rw [set_of_some d m hm, get_of_some _ (m.insert k (Value.str s)) rfl]
    simp [AList.lookup_insert]

/-- C1 at the new store, the key `key` and the value `value`. -/
theorem C1_set_then_get_witness :
    NewDatabase.Data ≠ none ∧
      (NewDatabase.Set (utf8 "key") (Value.str (utf8 "value"))).1 = none ∧
      ((NewDatabase.Set (utf8 "key") (Value.str (utf8 "value"))).2.Get (utf8 "key")).1
        = (Value.str (utf8 "value"), none) :=
  ⟨by simp [NewDatabase],
   (C1_set_then_get NewDatabase (utf8 "key") (Value.str (utf8 "value"))
      (by simp [NewDatabase])).1,
   (C1_set_then_get NewDatabase (utf8 "key") (Value.str (utf8 "value"))
      (by simp [NewDatabase])).2.1⟩

/-- C2: on an initialized store, `Set(k, v)` leaves every other key `j` as it was (the
same entry or the same absence in the mapping, the same result of `Get(j)`), and the keys
listed after the call are the keys listed before it together with `k`. -/
theorem C2_set_frame (d : Database) (k : GoString) (v : Value) (h : d.Data ≠ none) :
    ∃ m m' : GoMap, d.Data = some m ∧ (d.Set k v).2.Data = some m' ∧
      d.GetAllKeys.1 = (some m.keys, none) ∧
      (d.Set k v).2.GetAllKeys.1 = (some m'.keys, none) ∧
      (∀ x : GoString, x ∈ m'.keys ↔ x = k ∨ x ∈ m.keys) ∧
      (∀ j : GoString, j ≠ k →
        m'.lookup j = m.lookup j ∧ ((d.Set k v).2.Get j).1 = (d.Get j).1) := by
  obtain ⟨m, hm⟩ := Option.ne_none_iff_exists'.mp h
  refine ⟨m, m.insert k v, hm, by simp [set_of_some d m hm], ?_, ?_, ?_, ?_⟩
  · rw [getAllKeys_of_some d m hm]
  · rw [set_of_some d m hm, getAllKeys_of_some _ (m.insert k v) rfl]
  · intro x
    rw [← AList.mem_keys, ← AList.mem_keys, AList.mem_insert]
  · intro j hj
    refine ⟨AList.lookup_insert_ne hj, ?_⟩
    rw [set_of_some d m hm, get_of_some _ (m.insert k v) rfl, get_of_some d m hm,
      AList.lookup_insert_ne hj]

/-- C2 at the new store, the key `a` and the nil interface as value. -/
theorem C2_set_frame_witness :
    ∃ m m' : GoMap, NewDatabase.Data = some m ∧
      (NewDatabase.Set (utf8 "a") Value.nil).2.Data = some m' ∧
      NewDatabase.GetAllKeys.1 = (some m.keys, none) ∧
      (NewDatabase.Set (utf8 "a") Value.nil).2.GetAllKeys.1 = (some m'.keys, none) ∧
      (∀ x : GoString, x ∈ m'.keys ↔ x = utf8 "a" ∨ x ∈ m.keys) ∧
      (∀ j : GoString, j ≠ utf8 "a" →
        m'.lookup j = m.lookup j ∧
          ((NewDatabase.Set (utf8 "a") Value.nil).2.Get j).1 = (NewDatabase.Get j).1) :=
  C2_set_frame NewDatabase (utf8 "a") Value.nil (by simp [NewDatabase])

/-- C3: on an initialized store, `Get(k)` returns with no error the value the mapping
holds at `k` when `k` is present and the nil interface (the absent marker) with no error
when `k` is not present; on the empty store every key is absent; the store is unchanged. -/
theorem C3_get (d : Database) (m : GoMap) (k : GoString) (h : d.Data = some m) :
    (∀ v : Value, m.lookup k = some v → (d.Get k).1 = (v, none)) ∧
      (k ∉ m → (d.Get k).1 = (Value.nil, none)) ∧
      (NewDatabase.Get k).1 = (Value.nil, none) ∧
      (d.Get k).2 = d := by
  refine ⟨fun v hv => ?_, fun hk => ?_, ?_, ?_⟩
  · simp [get_of_some d m h, hv]
  · simp [get_of_some d m h, AList.lookup_eq_none.mpr hk]
  · simp [get_of_some NewDatabase ∅ rfl]
  · simp [get_of_some d m h]

/-- C3 at the store of the test case "multiple keys" and the key `key1`. -/
theorem C3_get_witness :
    (Database.mk (some multipleKeys)).Data = some multipleKeys ∧
      multipleKeys.lookup (utf8 "key1") = some (Value.str (utf8 "value1")) ∧
      ((Database.mk (some multipleKeys)).Get (utf8 "key1")).1
        = (Value.str (utf8 "value1"), none) :=
  ⟨rfl, by decide,
   (C3_get (Database.mk (some multipleKeys)) multipleKeys (utf8 "key1") rfl).1
      (Value.str (utf8 "value1")) (by decide)⟩

/-- C4: on an initialized store, `Delete(k)` returns no error; afterwards `Get(k)` is
absent, `k` is not among the keys `GetAllKeys` returns, and every other key keeps its
entry and its `Get` result. -/
theorem C4_delete (d : Database) (k : GoString) (h : d.Data ≠ none) :
    (d.Delete k).1 = none ∧
      ((d.Delete k).2.Get k).1 = (Value.nil, none) ∧
      (∃ ks : List GoString, (d.Delete k).2.GetAllKeys.1 = (some ks, none) ∧ k ∉ ks) ∧
      (∀ j : GoString, j ≠ k →
        mapIndex (d.Delete k).2.Data j = mapIndex d.Data j ∧
        ((d.Delete k).2.Get j).1 = (d.Get j).1 ∧
        (∀ m m' : GoMap, d.Data = some m → (d.Delete k).2.Data = some m' →
          m'.lookup j = m.lookup j)) := by
  obtain ⟨m, hm⟩ := Option.ne_none_iff_exists'.mp h
  rw [delete_of_some d m hm]
  refine ⟨rfl, ?_, ⟨(m.erase k).keys, ?_, ?_⟩, fun j hj => ⟨?_, ?_, ?_⟩⟩
  · rw [get_of_some _ (m.erase k) rfl]
    simp [AList.lookup_erase]
  · rw [getAllKeys_of_some _ (m.erase k) rfl]
  · rw [← AList.mem_keys, AList.mem_erase]
    simp
  · simp [mapIndex, hm, AList.lookup_erase_ne hj]
  · rw [get_of_some _ (m.erase k) rfl, get_of_some d m hm, AList.lookup_erase_ne hj]
  · intro m0 m1 h0 h1
    have e0 : m0 = m := by
      rw [hm] at h0
      exact (Option.some.inj h0).symm
    have e1 : m1 = m.erase k := by
      simpa using h1.symm
    rw [e0, e1, AList.lookup_erase_ne hj]

/-- C4 at the store holding the one key `k`. -/
theorem C4_delete_witness :
    (NewDatabase.Set (utf8 "k") (Value.str (utf8 "v"))).2.Data ≠ none ∧
      ((NewDatabase.Set (utf8 "k") (Value.str (utf8 "v"))).2.Delete (utf8 "k")).1 = none :=
  ⟨by simp [set_of_some NewDatabase ∅ rfl],
   (C4_delete (NewDatabase.Set (utf8 "k") (Value.str (utf8 "v"))).2 (utf8 "k")
      (by simp [set_of_some NewDatabase ∅ rfl])).1⟩

/-- C5: `Delete` is idempotent: on an initialized store a `Delete(k)` of a key that is
not in the mapping returns no error and leaves the store exactly as it was; and on every
store a second `Delete(k)` returns what the first returned and leaves the store the first
left. -/
theorem C5_delete_idempotent (d : Database) (k : GoString) :
    (∀ m : GoMap, d.Data = some m → k ∉ m → d.Delete k = (none, d)) ∧
      (d.Delete k).2.Delete k = d.Delete k := by
  refine ⟨fun m hm hk => ?_, ?_⟩
  · rw [delete_of_some d m hm, erase_of_not_mem m k hk]
    cases d
    simp_all
  · cases hd : d.Data with
    | none => simp [Database.Delete, initCheck, hd]
    | some m =>
      rw [delete_of_some d m hd, delete_of_some _ (m.erase k) rfl,
        erase_of_not_mem (m.erase k) k (by simp [AList.mem_erase])]

/-- C6: on an initialized store, `GetAllKeys` returns no error and a non-nil slice that
holds every key of the mapping exactly once (no duplicates) and nothing else, its length
being the number of entries; on a store with no entries the slice is empty and not nil; the store is
unchanged.  The same holds of every reordering of the slice, Go leaving the order of a
map iteration open. -/
theorem C6_getAllKeys (d : Database) (m : GoMap) (h : d.Data = some m) :
    (∃ out : List GoString, d.GetAllKeys.1 = (some out, none) ∧
      ∀ out' : List GoString, out'.Perm out →
        out'.Nodup ∧ (∀ k : GoString, k ∈ out' ↔ k ∈ m) ∧
        out'.length = m.entries.length) ∧
      (m.entries = [] → d.GetAllKeys.1 = (some [], none)) ∧
      NewDatabase.GetAllKeys.1 = (some [], none) ∧
      d.GetAllKeys.2 = d := by
  refine ⟨⟨m.keys, by rw [getAllKeys_of_some d m h], fun out' hp => ?_⟩, fun he => ?_, ?_, ?_⟩
  · have hnd : out'.Nodup := hp.nodup_iff.mpr m.keys_nodup
    have hmem : ∀ k : GoString, k ∈ out' ↔ k ∈ m := fun k => by
      rw [hp.mem_iff, AList.mem_keys]
    refine ⟨hnd, hmem, ?_⟩
    rw [hp.length_eq]
    simp [AList.keys, List.keys]
  · rw [getAllKeys_of_some d m h]
    simp [AList.keys, he]
  · rw [getAllKeys_of_some NewDatabase ∅ rfl]
    simp
  · rw [getAllKeys_of_some d m h]

/-- C6 at the store of the test case "multiple keys". -/
theorem C6_getAllKeys_witness :
    (Database.mk (some multipleKeys)).Data = some multipleKeys ∧
      ∃ out : List GoString,
        (Database.mk (some multipleKeys)).GetAllKeys.1 = (some out, none) ∧
        ∀ out' : List GoString, out'.Perm out →
          out'.Nodup ∧ (∀ k : GoString, k ∈ out' ↔ k ∈ multipleKeys) ∧
          out'.length = multipleKeys.entries.length :=
  ⟨rfl, (C6_getAllKeys (Database.mk (some multipleKeys)) multipleKeys rfl).1⟩

/-- C7: each of `GetAllKeys`, `Get`, `Set` and `Delete` returns the uninitialized error
if and only if the mapping is nil, and returns no error otherwise; when it fails it
returns a nil slice or a nil value and leaves the store as it was, the mapping still nil. -/
theorem C7_uninitialized (d : Database) (k : GoString) (v : Value) :
    (d.GetAllKeys.1.2 = some uninitialized ↔ d.Data = none) ∧
    ((d.Get k).1.2 = some uninitialized ↔ d.Data = none) ∧
    ((d.Set k v).1 = some uninitialized ↔ d.Data = none) ∧
    ((d.Delete k).1 = some uninitialized ↔ d.Data = none) ∧
    (d.GetAllKeys.1.2 = none ↔ d.Data ≠ none) ∧
    ((d.Get k).1.2 = none ↔ d.Data ≠ none) ∧
    ((d.Set k v).1 = none ↔ d.Data ≠ none) ∧
    ((d.Delete k).1 = none ↔ d.Data ≠ none) ∧
    (d.Data = none →
      d.GetAllKeys = ((none, some uninitialized), d) ∧
      d.Get k = ((Value.nil, some uninitialized), d) ∧
      d.Set k v = (some uninitialized, d) ∧
      d.Delete k = (some uninitialized, d) ∧
      (d.Set k v).2.Data = none) := by
  cases hd : d.Data with
  | none => simp [Database.GetAllKeys, Database.Get, Database.Set, Database.Delete, initCheck, hd]
  | some m =>
    simp [getAllKeys_of_some d m hd, get_of_some d m hd, set_of_some d m hd,
      delete_of_some d m hd]

/-- C8: `NewDatabase` returns a store whose mapping is made and empty; each of the four
operations leaves a made mapping made; hence after any finite sequence of operations on a
store from `NewDatabase` every operation returns no error (so not the uninitialized one). -/
theorem C8_constructed_invariant :
    NewDatabase.Data = some ∅ ∧
    (∀ (d : Database) (op : Op), d.Data ≠ none → (d.apply op).2.Data ≠ none) ∧
    (∀ (ops : List Op) (op : Op),
      (NewDatabase.run ops).Data ≠ none ∧ ((NewDatabase.run ops).apply op).1 = none) := by
  refine ⟨rfl, fun d op h => (apply_data_ne_none d op h).2, fun ops op => ?_⟩
  have h : (NewDatabase.run ops).Data ≠ none :=
    run_data_ne_none ops NewDatabase (by simp [NewDatabase])
  exact ⟨h, (apply_data_ne_none _ op h).1⟩

/-! ## Properties of the router -/

/-- C9, counterexample to the property as the specification words it: the bodies `null`
and `{}x` are not JSON objects (the first is valid JSON of another shape, the second is
not valid JSON as a whole), yet for a write to `/k` the router calls `Set` with the nil
mapping and with the empty mapping, which are not the body as raw text. -/
theorem C9_counterexample :
    jsonObjectText (utf8 "null") = false ∧
    (putHandler Database.asIDatabase.traced NewRecorder
        { Method := utf8 "PUT", Path := utf8 "/k", Body := utf8 "null" }
        (NewDatabase, [])).map (fun p => p.2.2)
      = some [Op.set (utf8 "k") Value.nilMap] ∧
    Op.set (utf8 "k") Value.nilMap ≠ Op.set (utf8 "k") (Value.str (utf8 "null")) ∧
    jsonObjectText (utf8 "\x7b\x7dx") = false ∧
    (putHandler Database.asIDatabase.traced NewRecorder
        { Method := utf8 "PUT", Path := utf8 "/k", Body := utf8 "\x7b\x7dx" }
        (NewDatabase, [])).map (fun p => p.2.2)
      = some [Op.set (utf8 "k") (Value.map [])] ∧
    Op.set (utf8 "k") (Value.map []) ≠ Op.set (utf8 "k") (Value.str (utf8 "\x7b\x7dx")) := by
  decide!

/-- C9 (amended): for every write request with a non-empty key and every body on which
decoding reports an error, `putHandler` makes exactly one call on the database, `Set`
with that key and the body as a string, byte for byte; when `Set` returns no error the
response writer is left as it was, which on a fresh recorder is status 200 and no
message. -/
theorem C9_put_raw {σ : Type} (d : IDatabase σ) (s : σ) (w : ResponseWriter) (r : Request)
    (c : UInt8) (key : GoString) (hpath : r.Path = c :: key) (hkey : key ≠ [])
    (hdec : Decode r.Body = none) :
    ∃ w1 : ResponseWriter,
      putHandler d.traced w r (s, []) =
        some (w1, ((d.Set s key (Value.str r.Body)).2, [Op.set key (Value.str r.Body)])) ∧
      ((d.Set s key (Value.str r.Body)).1 = none → w1 = w) ∧
      ((d.Set s key (Value.str r.Body)).1 = none → w = NewRecorder →
        w1.Code = 200 ∧ w1.Body = []) := by
  refine ⟨_, putHandler_traced_of_key d s w r c key (Value.str r.Body)
    "error - putting kv pair" hpath hkey (Or.inl ⟨hdec, rfl, rfl⟩), ?_, ?_⟩
  · intro h
    simp [h]
  · intro h hw
    simp [h, hw, NewRecorder]

/-- C9 (amended) at the request of the test: a write of `hello` to `/test`. -/
theorem C9_put_raw_witness :
    ∃ w1 : ResponseWriter,
      putHandler Database.asIDatabase.traced NewRecorder
          { Method := utf8 "PUT", Path := utf8 "/test", Body := utf8 "hello" }
          (NewDatabase, []) =
        some (w1, ((Database.asIDatabase.Set NewDatabase (utf8 "test")
            (Value.str (utf8 "hello"))).2,
          [Op.set (utf8 "test") (Value.str (utf8 "hello"))])) ∧
      ((Database.asIDatabase.Set NewDatabase (utf8 "test")
          (Value.str (utf8 "hello"))).1 = none → w1 = NewRecorder) ∧
      ((Database.asIDatabase.Set NewDatabase (utf8 "test")
          (Value.str (utf8 "hello"))).1 = none → NewRecorder = NewRecorder →
        w1.Code = 200 ∧ w1.Body = []) :=
  C9_put_raw Database.asIDatabase NewDatabase NewRecorder
    { Method := utf8 "PUT", Path := utf8 "/test", Body := utf8 "hello" }
    0x2F (utf8 "test") (by decide) (by decide) (by decide!)

/-- C10, counterexample to the property as the specification words it: the body
`{"a":1e999}` is a JSON object, yet for a write to `/k` the router calls `Set` with the
body as raw text: decoding reports an error for a number outside the float64 range
(`convertNumber` turns the range error of `strconv.ParseFloat` into an
`UnmarshalTypeError`). -/
theorem C10_counterexample :
    jsonObjectText (utf8 "\x7b\"a\":1e999\x7d") = true ∧
    Decode (utf8 "\x7b\"a\":1e999\x7d") = none ∧
    (putHandler Database.asIDatabase.traced NewRecorder
        { Method := utf8 "PUT", Path := utf8 "/k", Body := utf8 "\x7b\"a\":1e999\x7d" }
        (NewDatabase, [])).map (fun p => p.2.2)
      = some [Op.set (utf8 "k") (Value.str (utf8 "\x7b\"a\":1e999\x7d"))] := by
  decide!

/-- C10 (amended): for every write request with a non-empty key whose body is a JSON
object on which decoding reports no error, `putHandler` makes exactly one call on the
database, `Set` with that key and the decoded mapping (a mapping, never a string); when
`Set` returns no error the response writer is left as it was, which on a fresh recorder
is status 200 and an empty body. -/
theorem C10_put_object {σ : Type} (d : IDatabase σ) (s : σ) (w : ResponseWriter)
    (r : Request) (c : UInt8) (key : GoString) (hpath : r.Path = c :: key) (hkey : key ≠ [])
    (hobj : jsonObjectText r.Body = true) (hdec : Decode r.Body ≠ none) :
    ∃ (m : List (GoString × Value)) (w1 : ResponseWriter),
      Decode r.Body = some (Value.map m) ∧
      putHandler d.traced w r (s, []) =
        some (w1, ((d.Set s key (Value.map m)).2, [Op.set key (Value.map m)])) ∧
      (∀ b : GoString, Op.set key (Value.map m) ≠ Op.set key (Value.str b)) ∧
      ((d.Set s key (Value.map m)).1 = none → w1 = w) ∧
      ((d.Set s key (Value.map m)).1 = none → w = NewRecorder →
        w1.Code = 200 ∧ w1.Body = []) := by
  obtain ⟨t, ht⟩ := jsonObjectText_head r.Body hobj
  obtain ⟨v, hv⟩ := Option.ne_none_iff_exists'.mp hdec
  obtain ⟨m, rfl⟩ := Decode_brace r.Body t v ht hv
  refine ⟨m, _, hv, putHandler_traced_of_key d s w r c key (Value.map m)
    "error - putting json kv pair" hpath hkey (Or.inr ⟨hv, rfl⟩), ?_, ?_, ?_⟩
  · intro b h
    simp at h
  · intro h
    simp [h]
  · intro h hw
    simp [h, hw, NewRecorder]

/-- C10 (amended) at the request of the test: a write of `{"key": "value"}` to
`/test`. -/
theorem C10_put_object_witness :
    ∃ (m : List (GoString × Value)) (w1 : ResponseWriter),
      Decode (utf8 "\x7b\"key\": \"value\"\x7d") = some (Value.map m) ∧
      putHandler Database.asIDatabase.traced NewRecorder
          { Method := utf8 "PUT", Path := utf8 "/test",
            Body := utf8 "\x7b\"key\": \"value\"\x7d" }
          (NewDatabase, []) =
        some (w1, ((Database.asIDatabase.Set NewDatabase (utf8 "test") (Value.map m)).2,
          [Op.set (utf8 "test") (Value.map m)])) ∧
      (∀ b : GoString,
        Op.set (utf8 "test") (Value.map m) ≠ Op.set (utf8 "test") (Value.str b)) ∧
      ((Database.asIDatabase.Set NewDatabase (utf8 "test") (Value.map m)).1 = none →
        w1 = NewRecorder) ∧
      ((Database.asIDatabase.Set NewDatabase (utf8 "test") (Value.map m)).1 = none →
        NewRecorder = NewRecorder → w1.Code = 200 ∧ w1.Body = []) :=
  C10_put_object Database.asIDatabase NewDatabase NewRecorder
    { Method := utf8 "PUT", Path := utf8 "/test", Body := utf8 "\x7b\"key\": \"value\"\x7d" }
    0x2F (utf8 "test") (by decide) (by decide) (by decide!) (by decide!)

/-- C11: for a delete request with a non-empty key `k`, `deleteHandler` first calls
`Get(k)`, once.  When `Get` returns the nil interface with no error the response is 404,
`Delete` is not called and the store is as `Get` left it (for the store of `db.go`:
unchanged).  When `Get` returns a value with no error, `Delete(k)` is called once, with
the same key, and when it returns no error the response writer is left as it was, which
on a fresh recorder is status 200 and no body. -/
theorem C11_delete_gated {σ : Type} (d : IDatabase σ) (s : σ) (w : ResponseWriter)
    (r : Request) (c : UInt8) (key : GoString) (hpath : r.Path = c :: key) (hkey : key ≠ []) :
    (∃ (w1 : ResponseWriter) (s1 : σ) (log : List Op),
      deleteHandler d.traced w r (s, []) = some (w1, (s1, log)) ∧
      (log = [Op.get key] ∨ log = [Op.get key, Op.delete key])) ∧
    ((d.Get s key).1 = (Value.nil, none) →
      deleteHandler d.traced w r (s, [])
        = some (w.WriteHeader 404, ((d.Get s key).2, [Op.get key])) ∧
      NewRecorder.WriteHeader 404 = { wroteHeader := true, Code := 404, Body := [] }) ∧
    (∀ db : Database, (db.Get key).1 = (Value.nil, none) →
      deleteHandler Database.asIDatabase w r db = some (w.WriteHeader 404, db)) ∧
    (∀ v : Value, (d.Get s key).1 = (v, none) → v ≠ Value.nil →
      ∃ w1 : ResponseWriter,
        deleteHandler d.traced w r (s, [])
          = some (w1, ((d.Delete (d.Get s key).2 key).2, [Op.get key, Op.delete key])) ∧
        ((d.Delete (d.Get s key).2 key).1 = none → w1 = w) ∧
        ((d.Delete (d.Get s key).2 key).1 = none → w = NewRecorder →
          w1.Code = 200 ∧ w1.Body = [])) := by
  have hlen : key.length ≠ 0 := by simpa using hkey
  refine ⟨?_, ?_, ?_, ?_⟩
  · rw [deleteHandler_traced d s w r c key hpath hkey]
    rcases hg : d.Get s key with ⟨⟨v, e⟩, s1⟩
    cases e with
    | some e => exact ⟨_, _, _, rfl, Or.inl rfl⟩
    | none =>
      by_cases hv : v = Value.nil
      · simp only [hv, if_true]
        exact ⟨_, _, _, rfl, Or.inl rfl⟩
      · simp only [hv, if_false]
        rcases hd : d.Delete s1 key with ⟨e2, s2⟩
        cases e2
        · exact ⟨_, _, _, rfl, Or.inr rfl⟩
        · exact ⟨_, _, _, rfl, Or.inr rfl⟩
  · intro hg
    refine ⟨?_, writeHeader_newRecorder 404⟩
    rw [deleteHandler_traced d s w r c key hpath hkey]
    rcases hg' : d.Get s key with ⟨⟨v, e⟩, s1⟩
    rw [hg'] at hg
    simp only [Prod.mk.injEq] at hg
    obtain ⟨rfl, rfl⟩ := hg
    simp
  · intro db hg
    have hs : (db.Get key).2 = db := by
      unfold Database.Get
      split <;> rfl
    rcases hg' : db.Get key with ⟨⟨v, e⟩, s1⟩
    rw [hg'] at hg hs
    simp only [Prod.mk.injEq] at hg
    obtain ⟨rfl, rfl⟩ := hg
    simp only at hs
    subst hs
    simp [deleteHandler, hpath, sliceFrom1, hlen, Database.asIDatabase, hg']
  · intro v hg hv
    rw [deleteHandler_traced d s w r c key hpath hkey]
    rcases hg' : d.Get s key with ⟨⟨v', e⟩, s1⟩
    rw [hg'] at hg
    simp only [Prod.mk.injEq] at hg
    obtain ⟨rfl, rfl⟩ := hg
    simp only [hv, if_false]
    rcases hd : d.Delete s1 key with ⟨e2, s2⟩
    cases e2 with
    | none => exact ⟨w, rfl, fun _ => rfl, fun _ hw => by simp [hw, NewRecorder]⟩
    | some e2 => exact ⟨_, rfl, fun h => by simp at h, fun h => by simp at h⟩

/-- C11 at the store of the test case "multiple keys" and a delete of `/key1`. -/
theorem C11_delete_gated_witness :
    ∃ w1 : ResponseWriter,
      deleteHandler Database.asIDatabase.traced NewRecorder
          { Method := utf8 "DELETE", Path := utf8 "/key1", Body := [] }
          (Database.mk (some multipleKeys), [])
        = some (w1,
            ((Database.asIDatabase.Delete
                (Database.asIDatabase.Get (Database.mk (some multipleKeys)) (utf8 "key1")).2
                (utf8 "key1")).2,
              [Op.get (utf8 "key1"), Op.delete (utf8 "key1")])) ∧
      ((Database.asIDatabase.Delete
          (Database.asIDatabase.Get (Database.mk (some multipleKeys)) (utf8 "key1")).2
          (utf8 "key1")).1 = none → w1 = NewRecorder) ∧
      ((Database.asIDatabase.Delete
          (Database.asIDatabase.Get (Database.mk (some multipleKeys)) (utf8 "key1")).2
          (utf8 "key1")).1 = none → NewRecorder = NewRecorder →
        w1.Code = 200 ∧ w1.Body = []) :=
  (C11_delete_gated Database.asIDatabase (Database.mk (some multipleKeys)) NewRecorder
    { Method := utf8 "DELETE", Path := utf8 "/key1", Body := [] }
    0x2F (utf8 "key1") (by decide) (by decide)).2.2.2
    (Value.str (utf8 "value1")) (by decide) (by decide)

/-- C12: for a write request and for a delete request whose path is one byte long (the
separator alone), whatever the body and the calls made before, the handler makes no call
on the database, leaves its state as it was and answers with `http.Error` and the message
`error - no key provided`, which on a fresh recorder is status 400 and that message with
a newline; the same holds when the request comes through `IndexHandler`. -/
theorem C12_no_key {σ : Type} (formatFloat : FloatFormat) (d : IDatabase σ) (s : σ)
    (w : ResponseWriter) (r : Request) (log : List Op) (hpath : r.Path = utf8 "/") :
    putHandler d.traced w r (s, log)
      = some (http.Error w "error - no key provided" 400, (s, log)) ∧
    deleteHandler d.traced w r (s, log)
      = some (http.Error w "error - no key provided" 400, (s, log)) ∧
    (r.Method = utf8 "PUT" ∨ r.Method = utf8 "DELETE" →
      IndexHandler formatFloat d.traced w r (s, log)
        = some (http.Error w "error - no key provided" 400, (s, log))) ∧
    http.Error NewRecorder "error - no key provided" 400
      = { wroteHeader := true, Code := 400, Body := utf8 "error - no key provided\n" } := by
  have hp : r.Path = [0x2F] := by rw [hpath]; decide
  obtain ⟨h1, h2⟩ := noKey_traced d s w r 0x2F hp log
  refine ⟨h1, h2, ?_, by decide⟩
  rintro (hm | hm)
  · have hg : ¬ (utf8 "PUT" = utf8 "GET") := by decide
    simp only [IndexHandler, hm, hg, if_false, if_true]
    exact h1
  · have hg : ¬ (utf8 "DELETE" = utf8 "GET") := by decide
    have hq : ¬ (utf8 "DELETE" = utf8 "PUT") := by decide
    simp only [IndexHandler, hm, hg, hq, if_false, if_true]
    exact h2

/-- C12 at the request of the test: a write of `hello` to `/`. -/
theorem C12_no_key_witness :
    putHandler Database.asIDatabase.traced NewRecorder
        { Method := utf8 "PUT", Path := utf8 "/", Body := utf8 "hello" } (NewDatabase, [])
      = some (http.Error NewRecorder "error - no key provided" 400, (NewDatabase, [])) :=
  (C12_no_key (fun lit => lit) Database.asIDatabase NewDatabase NewRecorder
    { Method := utf8 "PUT", Path := utf8 "/", Body := utf8 "hello" } [] (by decide)).1

/-- C16: for every request whose method is none of `GET`, `PUT` and `DELETE`, whatever
its path and body, `IndexHandler` makes no call on the database, leaves its state as it
was and answers with `http.Error`, the message `method not allowed` and the status 405. -/
theorem C16_method_not_allowed {σ : Type} (formatFloat : FloatFormat) (d : IDatabase σ)
    (s : σ) (w : ResponseWriter) (r : Request) (log : List Op)
    (hget : r.Method ≠ utf8 "GET") (hput : r.Method ≠ utf8 "PUT")
    (hdel : r.Method ≠ utf8 "DELETE") :
    IndexHandler formatFloat d.traced w r (s, log)
      = some (http.Error w "method not allowed" 405, (s, log)) ∧
    IndexHandler formatFloat d w r s = some (http.Error w "method not allowed" 405, s) ∧
    http.Error NewRecorder "method not allowed" 405
      = { wroteHeader := true, Code := 405, Body := utf8 "method not allowed\n" } := by
  refine ⟨?_, ?_, by decide⟩ <;> simp [IndexHandler, hget, hput, hdel]

/-- C16 at a `POST` to `/k` and at a request with the lower-case method `get`. -/
theorem C16_method_not_allowed_witness :
    IndexHandler (fun lit => lit) Database.asIDatabase.traced NewRecorder
        { Method := utf8 "POST", Path := utf8 "/k", Body := utf8 "v" } (NewDatabase, [])
      = some (http.Error NewRecorder "method not allowed" 405, (NewDatabase, [])) ∧
    IndexHandler (fun lit => lit) Database.asIDatabase.traced NewRecorder
        { Method := utf8 "get", Path := utf8 "/", Body := [] } (NewDatabase, [])
      = some (http.Error NewRecorder "method not allowed" 405, (NewDatabase, [])) :=
  ⟨(C16_method_not_allowed (fun lit => lit) Database.asIDatabase NewDatabase NewRecorder
      { Method := utf8 "POST", Path := utf8 "/k", Body := utf8 "v" } []
      (by decide) (by decide) (by decide)).1,
   (C16_method_not_allowed (fun lit => lit) Database.asIDatabase NewDatabase NewRecorder
      { Method := utf8 "get", Path := utf8 "/", Body := [] } []
      (by decide) (by decide) (by decide)).1⟩

/-- C20: for a request path that begins with the separator, the key is the path without
that one leading byte: the slice does not panic, a read with a non-empty key calls
`Get` with it, a write calls `Set` with it, a delete calls `Get` and, if at all, `Delete`
with it; `/test` gives `test`, `//a` gives `/a`, `/` gives the empty key.  The slice
panics on no path of length at least one.  With the empty key a read lists all keys and a
write or delete answers that no key is provided. -/
theorem C20_key_extraction {σ : Type} (formatFloat : FloatFormat) (d : IDatabase σ) (s : σ)
    (w : ResponseWriter) (r : Request) (key : GoString) (hpath : r.Path = 0x2F :: key) :
    sliceFrom1 r.Path = some key ∧
    (key ≠ [] →
      (∃ (w1 : ResponseWriter) (s1 : σ),
        getHandler formatFloat d.traced w r (s, []) = some (w1, (s1, [Op.get key]))) ∧
      (∃ (w1 : ResponseWriter) (s1 : σ) (v : Value),
        putHandler d.traced w r (s, []) = some (w1, (s1, [Op.set key v]))) ∧
      (∃ (w1 : ResponseWriter) (s1 : σ) (log : List Op),
        deleteHandler d.traced w r (s, []) = some (w1, (s1, log)) ∧
        (log = [Op.get key] ∨ log = [Op.get key, Op.delete key]))) ∧
    (key = [] →
      (∃ (w1 : ResponseWriter) (s1 : σ),
        getHandler formatFloat d.traced w r (s, []) = some (w1, (s1, [Op.getAllKeys]))) ∧
      putHandler d.traced w r (s, [])
        = some (http.Error w "error - no key provided" 400, (s, [])) ∧
      deleteHandler d.traced w r (s, [])
        = some (http.Error w "error - no key provided" 400, (s, []))) ∧
    sliceFrom1 (utf8 "/test") = some (utf8 "test") ∧
    sliceFrom1 (utf8 "//a") = some (utf8 "/a") ∧
    sliceFrom1 (utf8 "/") = some [] ∧
    (∀ p : GoString, 1 ≤ p.length → sliceFrom1 p = some (p.drop 1)) := by
  refine ⟨by rw [hpath]; rfl, fun hkey => ⟨?_, ?_, ?_⟩, fun hkey => ⟨?_, ?_, ?_⟩,
    by decide, by decide, by decide, ?_⟩
  · have hroot : r.Path ≠ utf8 "/" := by
      rw [hpath]
      exact path_ne_root 0x2F key hkey
    rw [getHandler_traced_key formatFloat d s w r 0x2F key hpath hroot]
    rcases hg : d.Get s key with ⟨⟨v, e⟩, s1⟩
    cases e with
    | some e => exact ⟨_, _, rfl⟩
    | none =>
      by_cases hv : v = Value.nil
      · simp only [hv, if_true]
        exact ⟨_, _, rfl⟩
      · simp only [hv, if_false]
        exact ⟨_, _, rfl⟩
  · rw [putHandler_traced d s w r 0x2F key hpath hkey]
    cases hd : Decode r.Body with
    | none =>
      simp only []
      rcases hs : d.Set s key (Value.str r.Body) with ⟨e, s1⟩
      cases e <;> exact ⟨_, _, _, rfl⟩
    | some data =>
      simp only []
      rcases hs : d.Set s key data with ⟨e, s1⟩
      cases e <;> exact ⟨_, _, _, rfl⟩
  · exact deleteHandler_traced_log d s w r 0x2F key hpath hkey
  · have hroot : r.Path = utf8 "/" := by
      rw [hpath, hkey]
      decide
    rw [getHandler_traced_root formatFloat d s w r hroot]
    rcases hg : d.GetAllKeys s with ⟨⟨v, e⟩, s1⟩
    cases e <;> exact ⟨_, _, rfl⟩
  · exact (noKey_traced d s w r 0x2F (by rw [hpath, hkey]) []).1
  · exact (noKey_traced d s w r 0x2F (by rw [hpath, hkey]) []).2
  · intro p hp
    cases p with
    | nil => simp at hp
    | cons c t => rfl

/-- C20 at a read of `/test` on the new store. -/
theorem C20_key_extraction_witness :
    sliceFrom1 (utf8 "/test") = some (utf8 "test") ∧
    ∃ (w1 : ResponseWriter) (s1 : Database),
      getHandler (fun lit => lit) Database.asIDatabase.traced NewRecorder
          { Method := utf8 "GET", Path := utf8 "/test", Body := [] } (NewDatabase, [])
        = some (w1, (s1, [Op.get (utf8 "test")])) :=
  ⟨(C20_key_extraction (fun lit => lit) Database.asIDatabase NewDatabase NewRecorder
      { Method := utf8 "GET", Path := utf8 "/test", Body := [] } (utf8 "test")
      (by decide)).1,
   ((C20_key_extraction (fun lit => lit) Database.asIDatabase NewDatabase NewRecorder
      { Method := utf8 "GET", Path := utf8 "/test", Body := [] } (utf8 "test")
      (by decide)).2.1 (by decide)).1⟩

/-- C15: whenever the call on the database made for a request returns an error, the
response is `http.Error` with the status 500 and a message fixed by the operation that
failed, the same for every key and every error: `error - getting all keys` for the
listing, `error - getting key` for a read and for the existence check of a delete,
`error - putting kv pair` for a raw write, `error - putting json kv pair` for a
structured write, `error - deleting key` for a delete.  On a fresh recorder the body is
that message and a newline.  When the existence check of a delete fails, `Get` is the
only call made: `Delete` is not called. -/
theorem C15_store_failure {σ : Type} (formatFloat : FloatFormat) (d : IDatabase σ) (s : σ)
    (r : Request) (e : GoError) :
    (r.Path = utf8 "/" → (d.GetAllKeys s).1.2 = some e →
      getHandler formatFloat d.traced NewRecorder r (s, [])
        = some ({ wroteHeader := true, Code := 500,
                  Body := utf8 "error - getting all keys\n" },
            ((d.GetAllKeys s).2, [Op.getAllKeys]))) ∧
    (∀ (c : UInt8) (key : GoString), r.Path = c :: key → key ≠ [] →
      ((d.Get s key).1.2 = some e →
        getHandler formatFloat d.traced NewRecorder r (s, [])
          = some ({ wroteHeader := true, Code := 500, Body := utf8 "error - getting key\n" },
              ((d.Get s key).2, [Op.get key])) ∧
        deleteHandler d.traced NewRecorder r (s, [])
          = some ({ wroteHeader := true, Code := 500, Body := utf8 "error - getting key\n" },
              ((d.Get s key).2, [Op.get key]))) ∧
      (Decode r.Body = none → (d.Set s key (Value.str r.Body)).1 = some e →
        putHandler d.traced NewRecorder r (s, [])
          = some ({ wroteHeader := true, Code := 500,
                    Body := utf8 "error - putting kv pair\n" },
              ((d.Set s key (Value.str r.Body)).2, [Op.set key (Value.str r.Body)]))) ∧
      (∀ data : Value, Decode r.Body = some data → (d.Set s key data).1 = some e →
        putHandler d.traced NewRecorder r (s, [])
          = some ({ wroteHeader := true, Code := 500,
                    Body := utf8 "error - putting json kv pair\n" },
              ((d.Set s key data).2, [Op.set key data]))) ∧
      (∀ v : Value, (d.Get s key).1 = (v, none) → v ≠ Value.nil →
        (d.Delete (d.Get s key).2 key).1 = some e →
        deleteHandler d.traced NewRecorder r (s, [])
          = some ({ wroteHeader := true, Code := 500,
                    Body := utf8 "error - deleting key\n" },
              ((d.Delete (d.Get s key).2 key).2, [Op.get key, Op.delete key])))) := by
  refine ⟨fun hroot he => ?_, fun c key hpath hkey => ⟨fun he => ⟨?_, ?_⟩, fun hd he => ?_,
    fun data hd he => ?_, fun v hg hv he => ?_⟩⟩
  · rw [getHandler_traced_root formatFloat d s NewRecorder r hroot]
    rcases hg : d.GetAllKeys s with ⟨⟨v, e'⟩, s1⟩
    rw [hg] at he
    simp only at he
    subst he
    have hm : utf8 "error - getting all keys" ++ [(0x0A : UInt8)] = utf8 "error - getting all keys\n" := by decide
    simp only [httpError_newRecorder, hm]
  · rw [getHandler_traced_key formatFloat d s NewRecorder r c key hpath
      (by rw [hpath]; exact path_ne_root c key hkey)]
    rcases hg : d.Get s key with ⟨⟨v, e'⟩, s1⟩
    rw [hg] at he
    simp only at he
    subst he
    have hm : utf8 "error - getting key" ++ [(0x0A : UInt8)] = utf8 "error - getting key\n" := by decide
    simp only [httpError_newRecorder, hm]
  · rw [deleteHandler_traced d s NewRecorder r c key hpath hkey]
    rcases hg : d.Get s key with ⟨⟨v, e'⟩, s1⟩
    rw [hg] at he
    simp only at he
    subst he
    have hm : utf8 "error - getting key" ++ [(0x0A : UInt8)] = utf8 "error - getting key\n" := by decide
    simp only [httpError_newRecorder, hm]
  · rw [putHandler_traced d s NewRecorder r c key hpath hkey, hd]
    simp only []
    rcases hs : d.Set s key (Value.str r.Body) with ⟨e', s1⟩
    rw [hs] at he
    simp only at he
    subst he
    have hm : utf8 "error - putting kv pair" ++ [(0x0A : UInt8)] = utf8 "error - putting kv pair\n" := by decide
    simp only [httpError_newRecorder, hm]
  · rw [putHandler_traced d s NewRecorder r c key hpath hkey, hd]
    simp only []
    rcases hs : d.Set s key data with ⟨e', s1⟩
    rw [hs] at he
    simp only at he
    subst he
    have hm : utf8 "error - putting json kv pair" ++ [(0x0A : UInt8)] = utf8 "error - putting json kv pair\n" := by decide
    simp only [httpError_newRecorder, hm]
  · rw [deleteHandler_traced d s NewRecorder r c key hpath hkey]
    rcases hg' : d.Get s key with ⟨⟨v', e'⟩, s1⟩
    rw [hg'] at hg he
    simp only [Prod.mk.injEq] at hg
    obtain ⟨rfl, rfl⟩ := hg
    simp only [hv, if_false]
    rcases hd : d.Delete s1 key with ⟨e2, s2⟩
    rw [hd] at he
    simp only at he
    subst he
    have hm : utf8 "error - deleting key" ++ [(0x0A : UInt8)] = utf8 "error - deleting key\n" := by decide
    simp only [httpError_newRecorder, hm]

/-- C15 at the store whose mapping was never made: the listing and a delete of `/k`. -/
theorem C15_store_failure_witness :
    getHandler (fun lit => lit) Database.asIDatabase.traced NewRecorder
        { Method := utf8 "GET", Path := utf8 "/", Body := [] } (Database.mk none, [])
      = some ({ wroteHeader := true, Code := 500,
                Body := utf8 "error - getting all keys\n" },
          ((Database.asIDatabase.GetAllKeys (Database.mk none)).2, [Op.getAllKeys])) ∧
    deleteHandler Database.asIDatabase.traced NewRecorder
        { Method := utf8 "DELETE", Path := utf8 "/k", Body := [] } (Database.mk none, [])
      = some ({ wroteHeader := true, Code := 500, Body := utf8 "error - getting key\n" },
          ((Database.asIDatabase.Get (Database.mk none) (utf8 "k")).2,
            [Op.get (utf8 "k")])) :=
  ⟨(C15_store_failure (fun lit => lit) Database.asIDatabase (Database.mk none)
      { Method := utf8 "GET", Path := utf8 "/", Body := [] } uninitialized).1
      (by decide) (by decide),
   (((C15_store_failure (fun lit => lit) Database.asIDatabase (Database.mk none)
      { Method := utf8 "DELETE", Path := utf8 "/k", Body := [] } uninitialized).2
      0x2F (utf8 "k") (by decide) (by decide)).1 (by decide)).2⟩

/-- C17, counterexample to the property as the specification words it: on the store of
the test case "multiple keys" a delete of `/key1` makes two calls on the database, `Get`
and `Delete`; a write to `/` makes none, and a `POST` makes none. -/
theorem C17_counterexample :
    (IndexHandler (fun lit => lit) Database.asIDatabase.traced NewRecorder
        { Method := utf8 "DELETE", Path := utf8 "/key1", Body := [] }
        (Database.mk (some multipleKeys), [])).map (fun p => (p.1, p.2.2))
      = some (NewRecorder, [Op.get (utf8 "key1"), Op.delete (utf8 "key1")]) ∧
    (IndexHandler (fun lit => lit) Database.asIDatabase.traced NewRecorder
        { Method := utf8 "PUT", Path := utf8 "/", Body := utf8 "hello" }
        (Database.mk (some multipleKeys), [])).map (fun p => (p.1, p.2.2))
      = some ({ wroteHeader := true, Code := 400,
                Body := utf8 "error - no key provided\n" }, []) ∧
    (IndexHandler (fun lit => lit) Database.asIDatabase.traced NewRecorder
        { Method := utf8 "POST", Path := utf8 "/key1", Body := utf8 "hello" }
        (Database.mk (some multipleKeys), [])).map (fun p => (p.1, p.2.2))
      = some ({ wroteHeader := true, Code := 405, Body := utf8 "method not allowed\n" },
          []) := by
  decide!

/-- C17 (amended): for every request with a path of at least one byte, `IndexHandler`
answers after at most two calls on the database.  A read makes exactly one: `GetAllKeys`
for the path `/`, `Get` otherwise.  A write with a non-empty key makes exactly one,
`Set`.  A delete with a non-empty key calls `Get` and then, exactly when `Get` returned a
value other than the nil interface and no error, `Delete`.  A write or delete with the
empty key and a request with any other method make none. -/
theorem C17_store_calls {σ : Type} (formatFloat : FloatFormat) (d : IDatabase σ) (s : σ)
    (w : ResponseWriter) (r : Request) (c : UInt8) (key : GoString)
    (hpath : r.Path = c :: key) :
    (∃ (w1 : ResponseWriter) (s1 : σ) (log : List Op),
      IndexHandler formatFloat d.traced w r (s, []) = some (w1, (s1, log)) ∧
      log.length ≤ 2) ∧
    (r.Method = utf8 "GET" → r.Path = utf8 "/" → ∃ (w1 : ResponseWriter) (s1 : σ),
      IndexHandler formatFloat d.traced w r (s, []) = some (w1, (s1, [Op.getAllKeys]))) ∧
    (r.Method = utf8 "GET" → r.Path ≠ utf8 "/" → ∃ (w1 : ResponseWriter) (s1 : σ),
      IndexHandler formatFloat d.traced w r (s, []) = some (w1, (s1, [Op.get key]))) ∧
    (r.Method = utf8 "PUT" → key ≠ [] → ∃ (w1 : ResponseWriter) (s1 : σ) (v : Value),
      IndexHandler formatFloat d.traced w r (s, []) = some (w1, (s1, [Op.set key v]))) ∧
    (r.Method = utf8 "PUT" ∨ r.Method = utf8 "DELETE" → key = [] →
      IndexHandler formatFloat d.traced w r (s, [])
        = some (http.Error w "error - no key provided" 400, (s, []))) ∧
    (r.Method = utf8 "DELETE" → key ≠ [] →
      ((∃ v : Value, (d.Get s key).1 = (v, none) ∧ v ≠ Value.nil) →
        ∃ (w1 : ResponseWriter) (s1 : σ),
          IndexHandler formatFloat d.traced w r (s, [])
            = some (w1, (s1, [Op.get key, Op.delete key]))) ∧
      ((¬ ∃ v : Value, (d.Get s key).1 = (v, none) ∧ v ≠ Value.nil) →
        ∃ (w1 : ResponseWriter) (s1 : σ),
          IndexHandler formatFloat d.traced w r (s, []) = some (w1, (s1, [Op.get key])))) ∧
    (r.Method ≠ utf8 "GET" → r.Method ≠ utf8 "PUT" → r.Method ≠ utf8 "DELETE" →
      IndexHandler formatFloat d.traced w r (s, [])
        = some (http.Error w "method not allowed" 405, (s, []))) := by
  have hgp : ¬ (utf8 "PUT" = utf8 "GET") := by decide
  have hgd : ¬ (utf8 "DELETE" = utf8 "GET") := by decide
  have hpd : ¬ (utf8 "DELETE" = utf8 "PUT") := by decide
  have hB : r.Method = utf8 "GET" → r.Path = utf8 "/" → ∃ (w1 : ResponseWriter) (s1 : σ),
      IndexHandler formatFloat d.traced w r (s, []) = some (w1, (s1, [Op.getAllKeys])) := by
    intro hm hroot
    simp only [IndexHandler, hm, if_true]
    rw [getHandler_traced_root formatFloat d s w r hroot]
    rcases hg : d.GetAllKeys s with ⟨⟨v, e⟩, s1⟩
    cases e <;> exact ⟨_, _, rfl⟩
  have hC : r.Method = utf8 "GET" → r.Path ≠ utf8 "/" → ∃ (w1 : ResponseWriter) (s1 : σ),
      IndexHandler formatFloat d.traced w r (s, []) = some (w1, (s1, [Op.get key])) := by
    intro hm hroot
    simp only [IndexHandler, hm, if_true]
    rw [getHandler_traced_key formatFloat d s w r c key hpath hroot]
    rcases hg : d.Get s key with ⟨⟨v, e⟩, s1⟩
    cases e with
    | some e => exact ⟨_, _, rfl⟩
    | none =>
      by_cases hv : v = Value.nil
      · simp only [hv, if_true]
        exact ⟨_, _, rfl⟩
      · simp only [hv, if_false]
        exact ⟨_, _, rfl⟩
  have hD : r.Method = utf8 "PUT" → key ≠ [] → ∃ (w1 : ResponseWriter) (s1 : σ) (v : Value),
      IndexHandler formatFloat d.traced w r (s, []) = some (w1, (s1, [Op.set key v])) := by
    intro hm hkey
    simp only [IndexHandler, hm, hgp, if_false, if_true]
    rw [putHandler_traced d s w r c key hpath hkey]
    cases hd : Decode r.Body with
    | none =>
      simp only []
      rcases hs : d.Set s key (Value.str r.Body) with ⟨e, s1⟩
      cases e <;> exact ⟨_, _, _, rfl⟩
    | some data =>
      simp only []
      rcases hs : d.Set s key data with ⟨e, s1⟩
      cases e <;> exact ⟨_, _, _, rfl⟩
  have hE : r.Method = utf8 "PUT" ∨ r.Method = utf8 "DELETE" → key = [] →
      IndexHandler formatFloat d.traced w r (s, [])
        = some (http.Error w "error - no key provided" 400, (s, [])) := by
    intro hm hkey
    have hp : r.Path = [c] := by rw [hpath, hkey]
    obtain ⟨h1, h2⟩ := noKey_traced d s w r c hp []
    rcases hm with hm | hm
    · simp only [IndexHandler, hm, hgp, if_false, if_true]
      exact h1
    · simp only [IndexHandler, hm, hgd, hpd, if_false, if_true]
      exact h2
  have hF : r.Method = utf8 "DELETE" → key ≠ [] →
      ((∃ v : Value, (d.Get s key).1 = (v, none) ∧ v ≠ Value.nil) →
        ∃ (w1 : ResponseWriter) (s1 : σ),
          IndexHandler formatFloat d.traced w r (s, [])
            = some (w1, (s1, [Op.get key, Op.delete key]))) ∧
      ((¬ ∃ v : Value, (d.Get s key).1 = (v, none) ∧ v ≠ Value.nil) →
        ∃ (w1 : ResponseWriter) (s1 : σ),
          IndexHandler formatFloat d.traced w r (s, [])
            = some (w1, (s1, [Op.get key]))) := by
    intro hm hkey
    simp only [IndexHandler, hm, hgd, hpd, if_false, if_true]
    rw [deleteHandler_traced d s w r c key hpath hkey]
    rcases hg : d.Get s key with ⟨⟨v, e⟩, s1⟩
    constructor
    · rintro ⟨v', hv', hne⟩
      simp only [Prod.mk.injEq] at hv'
      obtain ⟨rfl, rfl⟩ := hv'
      simp only [hne, if_false]
      rcases hd : d.Delete s1 key with ⟨e2, s2⟩
      cases e2 <;> exact ⟨_, _, rfl⟩
    · intro hno
      cases e with
      | some e => exact ⟨_, _, rfl⟩
      | none =>
        by_cases hv : v = Value.nil
        · simp only [hv, if_true]
          exact ⟨_, _, rfl⟩
        · exact absurd ⟨v, rfl, hv⟩ hno
  have hG : r.Method ≠ utf8 "GET" → r.Method ≠ utf8 "PUT" → r.Method ≠ utf8 "DELETE" →
      IndexHandler formatFloat d.traced w r (s, [])
        = some (http.Error w "method not allowed" 405, (s, [])) := by
    intro h1 h2 h3
    simp [IndexHandler, h1, h2, h3]
  refine ⟨?_, hB, hC, hD, hE, hF, hG⟩
  by_cases h1 : r.Method = utf8 "GET"
  · by_cases hroot : r.Path = utf8 "/"
    · obtain ⟨w1, s1, h⟩ := hB h1 hroot
      exact ⟨w1, s1, _, h, by simp⟩
    · obtain ⟨w1, s1, h⟩ := hC h1 hroot
      exact ⟨w1, s1, _, h, by simp⟩
  · by_cases hkey : key = []
    · by_cases h2 : r.Method = utf8 "PUT"
      · exact ⟨_, _, _, hE (Or.inl h2) hkey, by simp⟩
      · by_cases h3 : r.Method = utf8 "DELETE"
        · exact ⟨_, _, _, hE (Or.inr h3) hkey, by simp⟩
        · exact ⟨_, _, _, hG h1 h2 h3, by simp⟩
    · by_cases h2 : r.Method = utf8 "PUT"
      · obtain ⟨w1, s1, v, h⟩ := hD h2 hkey
        exact ⟨w1, s1, _, h, by simp⟩
      · by_cases h3 : r.Method = utf8 "DELETE"
        · obtain ⟨w1, s1, log, h, hl⟩ := deleteHandler_traced_log d s w r c key hpath hkey
          refine ⟨w1, s1, log, ?_, ?_⟩
          · simp only [IndexHandler, h3, hgd, hpd, if_false, if_true]
            exact h
          · rcases hl with rfl | rfl <;> simp
        · exact ⟨_, _, _, hG h1 h2 h3, by simp⟩

/-- C17 (amended) at the delete of `/key1` on the store of the test case "multiple keys":
two calls. -/
theorem C17_store_calls_witness :
    ∃ (w1 : ResponseWriter) (s1 : Database),
      IndexHandler (fun lit => lit) Database.asIDatabase.traced NewRecorder
          { Method := utf8 "DELETE", Path := utf8 "/key1", Body := [] }
          (Database.mk (some multipleKeys), [])
        = some (w1, (s1, [Op.get (utf8 "key1"), Op.delete (utf8 "key1")])) :=
  ((C17_store_calls (fun lit => lit) Database.asIDatabase (Database.mk (some multipleKeys))
      NewRecorder { Method := utf8 "DELETE", Path := utf8 "/key1", Body := [] }
      0x2F (utf8 "key1") (by decide)).2.2.2.2.2.1 (by decide) (by decide)).1
    ⟨Value.str (utf8 "value1"), by decide, by decide⟩

/-- C19, counterexamples to the property as the specification words it.  Each body is a
JSON object, written to `/k` on the new store and read back with a 200 response whose
body is not JSON-equal to it.  (1) `{"a":1e999}`: the decoder reports a range error, the
body is stored as raw text and read back as a JSON string.  (2) `{"a":9007199254740993}`:
the number is held as the float64 nearest to it and read back as `9007199254740992`.
(3) `{"a":"x","a":"y"}`: of two members of one name the decoder keeps the last, the
member with `"x"` is not read back.  (4) `{"a":"\ud800"}`, an escaped lone surrogate, and
(5) a string with the byte `0xFF`, which is not well-formed UTF-8: both are read back as
the rune U+FFFD. -/
theorem C19_counterexample :
    (jsonObjectText (utf8 "\x7b\"a\":1e999\x7d") = true ∧
      writeThenRead (utf8 "k") (utf8 "\x7b\"a\":1e999\x7d")
        = some { wroteHeader := true, Code := 200,
                 Body := utf8 "\"\x7b\\\"a\\\":1e999\x7d\"\n" } ∧
      jsonEqual (utf8 "\x7b\"a\":1e999\x7d") (utf8 "\"\x7b\\\"a\\\":1e999\x7d\"\n") = false) ∧
    (jsonObjectText (utf8 "\x7b\"a\":9007199254740993\x7d") = true ∧
      writeThenRead (utf8 "k") (utf8 "\x7b\"a\":9007199254740993\x7d")
        = some { wroteHeader := true, Code := 200,
                 Body := utf8 "\x7b\"a\":9007199254740992\x7d\n" } ∧
      jsonEqual (utf8 "\x7b\"a\":9007199254740993\x7d")
        (utf8 "\x7b\"a\":9007199254740992\x7d\n") = false) ∧
    (jsonObjectText (utf8 "\x7b\"a\":\"x\",\"a\":\"y\"\x7d") = true ∧
      writeThenRead (utf8 "k") (utf8 "\x7b\"a\":\"x\",\"a\":\"y\"\x7d")
        = some { wroteHeader := true, Code := 200, Body := utf8 "\x7b\"a\":\"y\"\x7d\n" } ∧
      jsonEqual (utf8 "\x7b\"a\":\"x\",\"a\":\"y\"\x7d") (utf8 "\x7b\"a\":\"y\"\x7d\n")
        = false) ∧
    (jsonObjectText (utf8 "\x7b\"a\":\"\\ud800\"\x7d") = true ∧
      writeThenRead (utf8 "k") (utf8 "\x7b\"a\":\"\\ud800\"\x7d")
        = some { wroteHeader := true, Code := 200,
                 Body := utf8 "\x7b\"a\":\"" ++ [0xEF, 0xBF, 0xBD] ++ utf8 "\"\x7d\n" } ∧
      jsonEqual (utf8 "\x7b\"a\":\"\\ud800\"\x7d")
        (utf8 "\x7b\"a\":\"" ++ [0xEF, 0xBF, 0xBD] ++ utf8 "\"\x7d\n") = false) ∧
    (jsonObjectText (utf8 "\x7b\"a\":\"" ++ [0xFF] ++ utf8 "\"\x7d") = true ∧
      writeThenRead (utf8 "k") (utf8 "\x7b\"a\":\"" ++ [0xFF] ++ utf8 "\"\x7d")
        = some { wroteHeader := true, Code := 200,
                 Body := utf8 "\x7b\"a\":\"" ++ [0xEF, 0xBF, 0xBD] ++ utf8 "\"\x7d\n" } ∧
      jsonEqual (utf8 "\x7b\"a\":\"" ++ [0xFF] ++ utf8 "\"\x7d")
        (utf8 "\x7b\"a\":\"" ++ [0xEF, 0xBF, 0xBD] ++ utf8 "\"\x7d\n") = false) := by
  decide!

/-- C19 (amended): on the store of `db.go` with a made mapping, for every non-empty key
`k` and every body `b` that is a JSON object, a write of `b` to `/k` answers 200 and a
following read of `/k` answers 200 with the JSON text of the value the write stored and a
newline.  That text is JSON-equal to `b` (the same members with the same nested values up
to the order of the members of objects, numbers the same in decimal value) whenever the
decoder accepts `b` (it rejects a number out of the float64 range and nesting deeper than
10000), `b` is a JSON text in the strict sense of `readStrict` (no object in it has two
members of one name, no string in it holds an escaped lone surrogate or a byte that is not
well-formed UTF-8), and float64 keeps every number in `b` (`numbersKept`: the encoder
writes the float64 nearest to the number as a number of the same decimal value).  When
the decoder reports an error the text is a JSON string and is not JSON-equal to `b`. -/
theorem C19_json_round_trip (db : Database) (m : GoMap) (hdb : db.Data = some m)
    (k : GoString) (hk : k ≠ []) (b b1 : GoString) (hobj : jsonObjectText b = true) :
    ∃ (out : GoString) (db1 : Database),
      IndexHandler formatFloat64 Database.asIDatabase NewRecorder
          { Method := utf8 "PUT", Path := 0x2F :: k, Body := b } db
        = some (NewRecorder, db1) ∧
      NewRecorder.Code = 200 ∧
      IndexHandler formatFloat64 Database.asIDatabase NewRecorder
          { Method := utf8 "GET", Path := 0x2F :: k, Body := b1 } db1
        = some ({ wroteHeader := true, Code := 200, Body := out }, db1) ∧
      out = encodeValue formatFloat64 ((Decode b).getD (Value.str b)) ++ [0x0A] ∧
      (Decode b ≠ none → ∀ v, readStrict b = some v → numbersKept v = true →
        jsonEqual b out = true) ∧
      (Decode b = none → jsonEqual b out = false) := by
  have hgp : ¬ (utf8 "PUT" = utf8 "GET") := by decide
  have hv : (Decode b).getD (Value.str b) ≠ Value.nil := by
    cases hd : Decode b with
    | none => simp
    | some data => simpa using Decode_ne_nil b data hd
  have hlook : ((m.insert k ((Decode b).getD (Value.str b))).lookup k).getD Value.nil
      = (Decode b).getD (Value.str b) := by
    simp [AList.lookup_insert]
  refine ⟨encodeValue formatFloat64 ((Decode b).getD (Value.str b)) ++ [0x0A],
    { Data := some (m.insert k ((Decode b).getD (Value.str b))) }, ?_, rfl, ?_, rfl, ?_, ?_⟩
  · simp only [IndexHandler, hgp, if_false, if_true]
    exact putHandler_store db m hdb NewRecorder _ 0x2F k rfl hk
  · simp only [IndexHandler, if_true]
    rw [getHandler_store formatFloat64 _ _ rfl NewRecorder _ 0x2F k rfl hk, hlook]
    simp only [hv, if_false, write_newRecorder]
  · intro hd v hs hn
    cases hdv : Decode b with
    | none => exact absurd hdv hd
    | some w =>
      simp only [Option.getD_some]
      obtain ⟨mv, r, rfl, hp, _, hc⟩ := decode_object b w hobj hdv
      obtain ⟨r2, hp2, _⟩ := readStrict_lenient b v hs
      rw [hp] at hp2
      have hvw : Value.map mv = v := (Prod.mk.inj (Option.some.inj hp2)).1
      subst hvw
      exact jsonEqual_encode b _ hs hc hn
  · intro hd
    rw [hd]
    simp only [Option.getD_none, encodeValue]
    exact jsonEqual_string b b hobj

/-- C19 (amended) at the new store, the key `k` and the body `{"b":[1.50,1e2],"a":"x"}`:
the read answers `{"a":"x","b":[1.5,100]}` and a newline, which is JSON-equal to the
body. -/
theorem C19_json_round_trip_witness :
    ∃ (out : GoString) (db1 : Database),
      IndexHandler formatFloat64 Database.asIDatabase NewRecorder
          { Method := utf8 "PUT", Path := 0x2F :: utf8 "k",
            Body := utf8 "\x7b\"b\":[1.50,1e2],\"a\":\"x\"\x7d" } NewDatabase
        = some (NewRecorder, db1) ∧
      NewRecorder.Code = 200 ∧
      IndexHandler formatFloat64 Database.asIDatabase NewRecorder
          { Method := utf8 "GET", Path := 0x2F :: utf8 "k", Body := [] } db1
        = some ({ wroteHeader := true, Code := 200, Body := out }, db1) ∧
      out = utf8 "\x7b\"a\":\"x\",\"b\":[1.5,100]\x7d\n" ∧
      jsonEqual (utf8 "\x7b\"b\":[1.50,1e2],\"a\":\"x\"\x7d") out = true :=
  match C19_json_round_trip NewDatabase ∅ rfl (utf8 "k") (by decide)
      (utf8 "\x7b\"b\":[1.50,1e2],\"a\":\"x\"\x7d") [] (by decide!) with
  | ⟨out, db1, h1, h2, h3, h4, h5, _⟩ =>
    ⟨out, db1, h1, h2, h3, h4.trans (by decide!),
      h5 (by decide!)
        (Value.map [(utf8 "b", Value.arr [Value.num (utf8 "1.50"), Value.num (utf8 "1e2")]),
          (utf8 "a", Value.str (utf8 "x"))])
        (by decide!) (by decide!)⟩

/-! ## Properties of the states the server reaches -/

/-- C22, counterexample to the property as the specification words it, at the empty key:
after a write of `hello` to `/a` on the new store the list-all request returns the one
key `a`, so the empty key is not among the keys it returns; yet the read of `/` followed
by the empty key is that list-all request and answers 200, and the delete of it answers
400: neither answers 404. -/
theorem C22_counterexample :
    (serveAll (fun lit => lit) NewDatabase
        [{ Method := utf8 "PUT", Path := utf8 "/a", Body := utf8 "hello" }]).GetAllKeys.1
      = (some [utf8 "a"], none) ∧
    ([] : GoString) ∉ [utf8 "a"] ∧
    (IndexHandler (fun lit => lit) Database.asIDatabase NewRecorder
        { Method := utf8 "GET", Path := 0x2F :: ([] : GoString), Body := [] }
        (serveAll (fun lit => lit) NewDatabase
          [{ Method := utf8 "PUT", Path := utf8 "/a", Body := utf8 "hello" }])).map Prod.fst
      = some { wroteHeader := true, Code := 200, Body := utf8 "[\"a\"]\n" } ∧
    (IndexHandler (fun lit => lit) Database.asIDatabase NewRecorder
        { Method := utf8 "DELETE", Path := 0x2F :: ([] : GoString), Body := [] }
        (serveAll (fun lit => lit) NewDatabase
          [{ Method := utf8 "PUT", Path := utf8 "/a", Body := utf8 "hello" }])).map Prod.fst
      = some { wroteHeader := true, Code := 400,
               Body := utf8 "error - no key provided\n" } := by
  decide!

/-- C22 (amended): in every state of the store of `db.go` reached from `NewDatabase` by a
finite sequence of requests to `IndexHandler` (any methods, paths and bodies, the body
`null` included) the mapping is made and every key in it holds a value other than the
nil interface, so `Get` returns that value and not the absent marker.  In such a state
the list-all request answers 200 with the keys of the mapping, and for every non-empty
key `k` a read of `/k` answers 404 exactly when `k` is not among those keys, and 200
otherwise; a delete of `/k` answers 404 exactly when `k` is not among them, and 200
otherwise.  The empty key is never among the keys: the read of `/` is the list-all
request, and the delete of `/` answers 400. -/
theorem C22_reachable_states (formatFloat : FloatFormat) (rs : List Request)
    (k : GoString) (hk : k ≠ []) (b0 b1 b2 : GoString) :
    ∃ (m : GoMap) (w1 w2 : ResponseWriter) (db2 : Database),
      (serveAll formatFloat NewDatabase rs).Data = some m ∧
      (∀ key ∈ m.keys, ∃ v : Value,
        ((serveAll formatFloat NewDatabase rs).Get key).1 = (v, none) ∧ v ≠ Value.nil) ∧
      (serveAll formatFloat NewDatabase rs).GetAllKeys.1 = (some m.keys, none) ∧
      IndexHandler formatFloat Database.asIDatabase NewRecorder
          { Method := utf8 "GET", Path := utf8 "/", Body := b0 }
          (serveAll formatFloat NewDatabase rs)
        = some ({ wroteHeader := true, Code := 200,
                  Body := encodeStrings (some m.keys) ++ [0x0A] },
            serveAll formatFloat NewDatabase rs) ∧
      IndexHandler formatFloat Database.asIDatabase NewRecorder
          { Method := utf8 "GET", Path := 0x2F :: k, Body := b1 }
          (serveAll formatFloat NewDatabase rs)
        = some (w1, serveAll formatFloat NewDatabase rs) ∧
      (w1.Code = 404 ↔ k ∉ m.keys) ∧ (w1.Code = 200 ↔ k ∈ m.keys) ∧
      IndexHandler formatFloat Database.asIDatabase NewRecorder
          { Method := utf8 "DELETE", Path := 0x2F :: k, Body := b2 }
          (serveAll formatFloat NewDatabase rs)
        = some (w2, db2) ∧
      (w2.Code = 404 ↔ k ∉ m.keys) ∧ (w2.Code = 200 ↔ k ∈ m.keys) ∧
      ([] : GoString) ∉ m.keys ∧
      IndexHandler formatFloat Database.asIDatabase NewRecorder
          { Method := utf8 "DELETE", Path := utf8 "/", Body := b2 }
          (serveAll formatFloat NewDatabase rs)
        = some ({ wroteHeader := true, Code := 400,
                  Body := utf8 "error - no key provided\n" },
            serveAll formatFloat NewDatabase rs) := by
  have hgd : ¬ (utf8 "DELETE" = utf8 "GET") := by decide
  have hpd : ¬ (utf8 "DELETE" = utf8 "PUT") := by decide
  obtain ⟨m, hdb, hm, he⟩ := serveAll_no_nil formatFloat rs NewDatabase ∅ rfl
    (by intro k; simp) (by simp)
  generalize serveAll formatFloat NewDatabase rs = db at hdb ⊢
  have hempty : ([] : GoString) ∉ m.keys := by
    rw [← AList.mem_keys, ← AList.lookup_eq_none]
    exact he
  have hdel0 : IndexHandler formatFloat Database.asIDatabase NewRecorder
      { Method := utf8 "DELETE", Path := utf8 "/", Body := b2 } db
      = some ({ wroteHeader := true, Code := 400,
                Body := utf8 "error - no key provided\n" }, db) := by
    have h400 : http.Error NewRecorder "error - no key provided" 400
        = { wroteHeader := true, Code := 400, Body := utf8 "error - no key provided\n" } := by
      decide
    have hp : utf8 "/" = [0x2F] := by decide
    simp only [IndexHandler, hgd, hpd, if_false, if_true, deleteHandler, hp, sliceFrom1,
      List.length_nil, h400]
  have hiff := lookup_getD_nil_iff m hm k
  have hread := getHandler_store formatFloat db m hdb NewRecorder
    { Method := utf8 "GET", Path := 0x2F :: k, Body := b1 } 0x2F k rfl hk
  have hdel := deleteHandler_store db m hdb NewRecorder
    { Method := utf8 "DELETE", Path := 0x2F :: k, Body := b2 } 0x2F k rfl hk
  have hall : IndexHandler formatFloat Database.asIDatabase NewRecorder
      { Method := utf8 "GET", Path := utf8 "/", Body := b0 } db
      = some ({ wroteHeader := true, Code := 200,
                Body := encodeStrings (some m.keys) ++ [0x0A] }, db) := by
    simp only [IndexHandler, getHandler, if_true, Database.asIDatabase,
      getAllKeys_of_some db m hdb, json.EncodeStrings, write_newRecorder]
  have hkeys : ∀ key ∈ m.keys, ∃ v : Value, (db.Get key).1 = (v, none) ∧ v ≠ Value.nil := by
    intro key hin
    rw [get_of_some db m hdb key]
    refine ⟨_, rfl, ?_⟩
    intro hnil
    exact ((lookup_getD_nil_iff m hm key).mp hnil) hin
  by_cases hin : k ∈ m.keys
  · have hne : ¬ ((m.lookup k).getD Value.nil = Value.nil) := fun h => (hiff.mp h) hin
    rw [if_neg hne] at hread hdel
    refine ⟨m, NewRecorder.Write
        (encodeValue formatFloat ((m.lookup k).getD Value.nil) ++ [0x0A]),
      NewRecorder, { Data := some (m.erase k) }, hdb, hkeys,
      by rw [getAllKeys_of_some db m hdb], hall, ?_, ?_, ?_, ?_, ?_, ?_, hempty, hdel0⟩
    · simp only [IndexHandler, if_true]
      exact hread
    · simp [write_newRecorder, hin]
    · simp [write_newRecorder, hin]
    · simp only [IndexHandler, hgd, hpd, if_false, if_true]
      exact hdel
    · simp [NewRecorder, hin]
    · simp [NewRecorder, hin]
  · have heq : (m.lookup k).getD Value.nil = Value.nil := hiff.mpr hin
    rw [if_pos heq] at hread hdel
    refine ⟨m, NewRecorder.WriteHeader 404, NewRecorder.WriteHeader 404, db, hdb, hkeys,
      by rw [getAllKeys_of_some db m hdb], hall, ?_, ?_, ?_, ?_, ?_, ?_, hempty, hdel0⟩
    · simp only [IndexHandler, if_true]
      exact hread
    · simp [writeHeader_newRecorder, hin]
    · simp [writeHeader_newRecorder, hin]
    · simp only [IndexHandler, hgd, hpd, if_false, if_true]
      exact hdel
    · simp [writeHeader_newRecorder, hin]
    · simp [writeHeader_newRecorder, hin]

/-- C22 (amended) after a write of `hello` to `/a`, a write of `null` to `/b` and a delete
of `/a`, at the key `b`. -/
theorem C22_reachable_states_witness :
    ∃ (m : GoMap) (w1 w2 : ResponseWriter) (db2 : Database),
      (serveAll (fun lit => lit) NewDatabase
        [{ Method := utf8 "PUT", Path := utf8 "/a", Body := utf8 "hello" },
         { Method := utf8 "PUT", Path := utf8 "/b", Body := utf8 "null" },
         { Method := utf8 "DELETE", Path := utf8 "/a", Body := [] }]).Data = some m ∧
      (∀ key ∈ m.keys, ∃ v : Value,
        ((serveAll (fun lit => lit) NewDatabase
          [{ Method := utf8 "PUT", Path := utf8 "/a", Body := utf8 "hello" },
           { Method := utf8 "PUT", Path := utf8 "/b", Body := utf8 "null" },
           { Method := utf8 "DELETE", Path := utf8 "/a", Body := [] }]).Get key).1
          = (v, none) ∧ v ≠ Value.nil) ∧
      (serveAll (fun lit => lit) NewDatabase
        [{ Method := utf8 "PUT", Path := utf8 "/a", Body := utf8 "hello" },
         { Method := utf8 "PUT", Path := utf8 "/b", Body := utf8 "null" },
         { Method := utf8 "DELETE", Path := utf8 "/a", Body := [] }]).GetAllKeys.1
        = (some m.keys, none) ∧
      IndexHandler (fun lit => lit) Database.asIDatabase NewRecorder
          { Method := utf8 "GET", Path := utf8 "/", Body := [] }
          (serveAll (fun lit => lit) NewDatabase
            [{ Method := utf8 "PUT", Path := utf8 "/a", Body := utf8 "hello" },
             { Method := utf8 "PUT", Path := utf8 "/b", Body := utf8 "null" },
             { Method := utf8 "DELETE", Path := utf8 "/a", Body := [] }])
        = some ({ wroteHeader := true, Code := 200,
                  Body := encodeStrings (some m.keys) ++ [0x0A] },
            serveAll (fun lit => lit) NewDatabase
              [{ Method := utf8 "PUT", Path := utf8 "/a", Body := utf8 "hello" },
               { Method := utf8 "PUT", Path := utf8 "/b", Body := utf8 "null" },
               { Method := utf8 "DELETE", Path := utf8 "/a", Body := [] }]) ∧
      IndexHandler (fun lit => lit) Database.asIDatabase NewRecorder
          { Method := utf8 "GET", Path := 0x2F :: utf8 "b", Body := [] }
          (serveAll (fun lit => lit) NewDatabase
            [{ Method := utf8 "PUT", Path := utf8 "/a", Body := utf8 "hello" },
             { Method := utf8 "PUT", Path := utf8 "/b", Body := utf8 "null" },
             { Method := utf8 "DELETE", Path := utf8 "/a", Body := [] }])
        = some (w1, serveAll (fun lit => lit) NewDatabase
            [{ Method := utf8 "PUT", Path := utf8 "/a", Body := utf8 "hello" },
             { Method := utf8 "PUT", Path := utf8 "/b", Body := utf8 "null" },
             { Method := utf8 "DELETE", Path := utf8 "/a", Body := [] }]) ∧
      (w1.Code = 404 ↔ utf8 "b" ∉ m.keys) ∧ (w1.Code = 200 ↔ utf8 "b" ∈ m.keys) ∧
      IndexHandler (fun lit => lit) Database.asIDatabase NewRecorder
          { Method := utf8 "DELETE", Path := 0x2F :: utf8 "b", Body := [] }
          (serveAll (fun lit => lit) NewDatabase
            [{ Method := utf8 "PUT", Path := utf8 "/a", Body := utf8 "hello" },
             { Method := utf8 "PUT", Path := utf8 "/b", Body := utf8 "null" },
             { Method := utf8 "DELETE", Path := utf8 "/a", Body := [] }])
        = some (w2, db2) ∧
      (w2.Code = 404 ↔ utf8 "b" ∉ m.keys) ∧ (w2.Code = 200 ↔ utf8 "b" ∈ m.keys) ∧
      ([] : GoString) ∉ m.keys ∧
      IndexHandler (fun lit => lit) Database.asIDatabase NewRecorder
          { Method := utf8 "DELETE", Path := utf8 "/", Body := [] }
          (serveAll (fun lit => lit) NewDatabase
            [{ Method := utf8 "PUT", Path := utf8 "/a", Body := utf8 "hello" },
             { Method := utf8 "PUT", Path := utf8 "/b", Body := utf8 "null" },
             { Method := utf8 "DELETE", Path := utf8 "/a", Body := [] }])
        = some ({ wroteHeader := true, Code := 400,
                  Body := utf8 "error - no key provided\n" },
            serveAll (fun lit => lit) NewDatabase
              [{ Method := utf8 "PUT", Path := utf8 "/a", Body := utf8 "hello" },
               { Method := utf8 "PUT", Path := utf8 "/b", Body := utf8 "null" },
               { Method := utf8 "DELETE", Path := utf8 "/a", Body := [] }]) :=
  C22_reachable_states (fun lit => lit)
    [{ Method := utf8 "PUT", Path := utf8 "/a", Body := utf8 "hello" },
     { Method := utf8 "PUT", Path := utf8 "/b", Body := utf8 "null" },
     { Method := utf8 "DELETE", Path := utf8 "/a", Body := [] }]
    (utf8 "b") (by decide) [] [] []

/-! ## The absent marker of the store -/

/-- C23, counterexample to the property as the specification words it: `Set` accepts the
nil interface as a value.  After `Set("k", nil)` on the new store the mapping is made,
`GetAllKeys` returns the key `k`, and `Get("k")` returns the nil interface, which is the
absent marker, with no error. -/
theorem C23_counterexample :
    (NewDatabase.Set (utf8 "k") Value.nil).1 = none ∧
    (NewDatabase.Set (utf8 "k") Value.nil).2.Data.isSome = true ∧
    (NewDatabase.Set (utf8 "k") Value.nil).2.GetAllKeys.1 = (some [utf8 "k"], none) ∧
    utf8 "k" ∈ [utf8 "k"] ∧
    ((NewDatabase.Set (utf8 "k") Value.nil).2.Get (utf8 "k")).1 = (Value.nil, none) := by
  decide!

/-- C23 (amended): for every store with a made mapping and every key `k`, `GetAllKeys`
returns the keys of the mapping, and `Get(k)` returns the absent marker (the nil
interface, with no error) if and only if `k` is not among those keys or the value the
mapping holds under `k` is the nil interface.  `Set` stores every value it is given, the
nil interface included, under a key that is listed from then on.  When the mapping holds
no nil interface the two sides of the claim agree: `Get(k)` returns the absent marker if
and only if `k` is not among the keys. -/
theorem C23_absent_marker (db : Database) (m : GoMap) (hdb : db.Data = some m)
    (k : GoString) :
    db.GetAllKeys.1 = (some m.keys, none) ∧
    ((db.Get k).1 = (Value.nil, none) ↔ (k ∉ m.keys ∨ m.lookup k = some Value.nil)) ∧
    (∀ v : Value, ∃ m1 : GoMap, db.Set k v = (none, { Data := some m1 }) ∧
      m1.lookup k = some v ∧ k ∈ m1.keys) ∧
    ((∀ key, m.lookup key ≠ some Value.nil) →
      ((db.Get k).1 = (Value.nil, none) ↔ k ∉ m.keys)) := by
  have hget : (db.Get k).1 = ((m.lookup k).getD Value.nil, none) := by
    rw [get_of_some db m hdb k]
  have hmain : (db.Get k).1 = (Value.nil, none)
      ↔ (k ∉ m.keys ∨ m.lookup k = some Value.nil) := by
    rw [hget, ← AList.mem_keys, ← AList.lookup_eq_none]
    cases hl : m.lookup k with
    | none => simp
    | some v => simp
  refine ⟨by rw [getAllKeys_of_some db m hdb], hmain, ?_, ?_⟩
  · intro v
    refine ⟨m.insert k v, set_of_some db m hdb k v, AList.lookup_insert m, ?_⟩
    rw [← AList.mem_keys]
    exact (AList.mem_insert m).mpr (Or.inl rfl)
  · intro hno
    rw [hmain]
    constructor
    · rintro (h | h)
      · exact h
      · exact absurd h (hno k)
    · exact Or.inl

/-- C23 (amended) at the store left by `Set("k", nil)` on the new store. -/
theorem C23_absent_marker_witness :
    ({ Data := some ((∅ : GoMap).insert (utf8 "k") Value.nil) } : Database).GetAllKeys.1
      = (some ((∅ : GoMap).insert (utf8 "k") Value.nil).keys, none) ∧
    ((({ Data := some ((∅ : GoMap).insert (utf8 "k") Value.nil) } : Database).Get
        (utf8 "k")).1 = (Value.nil, none)
      ↔ (utf8 "k" ∉ ((∅ : GoMap).insert (utf8 "k") Value.nil).keys ∨
          ((∅ : GoMap).insert (utf8 "k") Value.nil).lookup (utf8 "k") = some Value.nil)) ∧
    (∀ v : Value, ∃ m1 : GoMap,
      ({ Data := some ((∅ : GoMap).insert (utf8 "k") Value.nil) } : Database).Set
          (utf8 "k") v = (none, { Data := some m1 }) ∧
      m1.lookup (utf8 "k") = some v ∧ utf8 "k" ∈ m1.keys) ∧
    ((∀ key, ((∅ : GoMap).insert (utf8 "k") Value.nil).lookup key ≠ some Value.nil) →
      ((({ Data := some ((∅ : GoMap).insert (utf8 "k") Value.nil) } : Database).Get
          (utf8 "k")).1 = (Value.nil, none)
        ↔ utf8 "k" ∉ ((∅ : GoMap).insert (utf8 "k") Value.nil).keys)) :=
  C23_absent_marker { Data := some ((∅ : GoMap).insert (utf8 "k") Value.nil) }
    ((∅ : GoMap).insert (utf8 "k") Value.nil) rfl (utf8 "k")

end KVDatabaseAPI
